import Mathlib

set_option autoImplicit false

/-!
Verification of the peg-solitaire board engine (`src/Description.ts`).

The development shallowly embeds the TypeScript source into Lean:

* JavaScript `BigInt` board states become `Nat` (the source never relies on
  fixed-width overflow for states; the backing `BigUint64Array` store is
  modelled with an explicit `% 2 ^ 64`).
* The `BoardSet` open-addressing hash set is modelled with a `List Nat`
  backing array.  Its probe loop (`find_or_empty`) is a genuine `while` loop
  in the source; it is embedded with fuel equal to the table capacity and an
  `Option` result, `none` standing for the (unreachable under the class
  invariant) case of a full probe cycle.
* The `Description` constructor, codecs (`to_string`, `from_string`,
  `to_vec`, `from_vec`), symmetry compilation and `solve` are translated
  function by function.  Thrown exceptions become `Except String` /
  `Option` results.
* JavaScript `BigInt` shifts by possibly-negative amounts (`1n << -1n = 0n`)
  are modelled by `jsShl`.
-/

/-- Number of set bits of a natural number. -/
def popCount (n : Nat) : Nat :=
  if h : n = 0 then 0 else n % 2 + popCount (n / 2)
decreasing_by exact Nat.div_lt_self (Nat.pos_of_ne_zero h) one_lt_two

/-- JavaScript `BigInt` left shift: a shift by a negative amount is a right
shift in the other direction (`1n << -1n = 0n`). -/
def jsShl (a : Nat) (k : Int) : Nat :=
  if 0 ≤ k then a <<< k.toNat else a >>> (-k).toNat

/-- The board-state type of the source (`type State = bigint`). -/
abbrev State := Nat

/-- `EMPTY_STATE` is the hash-set sentinel `0n`. -/
def EMPTY_STATE : State := 0

/-- Open-addressing hash set for board states (`class BoardSet`). -/
structure BoardSet where
  data : List Nat
  length : Nat
deriving DecidableEq, Repr

namespace BoardSet

/-- `INITIAL_SIZE = 1 << 5`. -/
def INITIAL_SIZE : Int := 32

/-- `size_fits_into_capacity`: `4 * expected < 3 * current` on JS numbers. -/
def size_fits_into_capacity (expected current : Int) : Bool :=
  decide (4 * expected < 3 * current)

/-- JS `x <<= 1` on a number: `ToInt32`, shift, reinterpret as signed 32-bit.
The value wraps into `[-2^31, 2^31)`: `2^30 <<= 1` gives `-2^31`, and
`-2^31 <<= 1` gives `0`. -/
def int32shl1 (c : Int) : Int := (c * 2 + 2 ^ 31) % 2 ^ 32 - 2 ^ 31

/-- The doubling loop of `compute_capacity_for_size`, with fuel; `none` is
divergence.  Because the shift is a signed 32-bit shift, a capacity pushed
past `2^30` wraps to `-2^31` and then sticks at `0`, which never fits, so
the source loop runs forever in that regime. -/
def compute_capacity_go (expected : Int) : Nat → Int → Option Int
  | 0, _ => none
  | fuel + 1, current =>
    if size_fits_into_capacity expected current then some current
    else compute_capacity_go expected fuel (int32shl1 current)

/-- `compute_capacity_for_size`: double the candidate capacity until the
expected size fits.  Any signed 32-bit value is absorbed at `0` after at
most 32 shifts and neither `0` nor a negative capacity ever fits a
nonnegative expected size, so 64 steps of fuel decide the loop exactly:
`none` means the source diverges. -/
def compute_capacity_for_size (expected current : Int) : Option Int :=
  compute_capacity_go expected 64 current

/-- `new BoardSet(expected_size)`; `none` when the capacity loop diverges. -/
def create (expected_size : Nat) : Option BoardSet :=
  (compute_capacity_for_size (expected_size : Int) INITIAL_SIZE).map
    (fun cap => ⟨List.replicate cap.toNat 0, 0⟩)

/-- `get_index_from_state`: multiplicative hash mix masked to the table. -/
def get_index_from_state (b : BoardSet) (value : State) : Nat :=
  let h := value * 0x85ebca6b
  let h2 := h ^^^ (h >>> 13)
  h2 &&& (b.data.length - 1)

/-- One linear-probe walk of `find_or_empty`, with fuel.  The source loops
until it finds the value or an empty slot; fuel `data.length` makes the walk
visit every slot of the cyclic probe sequence at most once. -/
def probeFind (data : List Nat) (o : State) : Nat → Nat → Option Nat
  | 0, _ => none
  | fuel + 1, index =>
    let existing := data.getD index 0
    if existing = 0 ∨ o = existing then some index
    else probeFind data o fuel ((index + 1) &&& (data.length - 1))

/-- `find_or_empty`: index of the value, or of the empty slot where it
belongs.  `none` models the diverging probe on a full table. -/
def find_or_empty (b : BoardSet) (o : State) : Option Nat :=
  probeFind b.data o b.data.length (b.get_index_from_state o)

/-- `contains`: the slot returned by `find_or_empty` is not the sentinel. -/
def contains (b : BoardSet) (value : State) : Option Bool :=
  (b.find_or_empty value).map (fun i => decide (b.data.getD i 0 ≠ 0))

/-- `fast_insert`: insert without capacity check.  Stores are truncated to
64 bits, as by the backing `BigUint64Array`. -/
def fast_insert (b : BoardSet) (o : State) : Option BoardSet :=
  (b.find_or_empty o).map (fun index =>
    if b.data.getD index 0 = 0 then
      ⟨b.data.set index (o % 2 ^ 64), b.length + 1⟩
    else b)

/-- `fast_insert_all`: insert every non-sentinel entry of another table. -/
def fast_insert_all (b : BoardSet) (other : List Nat) : Option BoardSet :=
  other.foldlM (fun acc x => if x ≠ 0 then acc.fast_insert x else pure acc) b

/-- `reserve(additional)`: grow (rebuilding via `fast_insert_all`) whenever
the expected size does not fit the current capacity.  As in the source, only
`data` is taken from the rebuilt table; `length` is kept. -/
def reserve (b : BoardSet) (additional : Nat) : Option BoardSet :=
  let expected_size := b.length + additional
  if size_fits_into_capacity (expected_size : Int) (b.data.length : Int) then some b
  else do
    let fresh ← create expected_size
    let filled ← if b.length ≠ 0 then fresh.fast_insert_all b.data else pure fresh
    some ⟨filled.data, b.length⟩

/-- `insert`: `reserve 1` then `fast_insert`. -/
def insert (b : BoardSet) (value : State) : Option BoardSet := do
  let b2 ← b.reserve 1
  b2.fast_insert value

end BoardSet

/-- The four jump directions (`enum MoveDirections`). -/
inductive MoveDirections where
  | Horizontal
  | Vertical
  | LeftDiagonal
  | RightDiagonal
deriving DecidableEq, Repr

/-- Position table type (`type Lut = number[][]`). -/
abbrev Lut := List (List Int)

/-- Read a cell of a lut.  Out-of-range reads default to `-1`; the source
only reads cells after the corresponding bounds checks. -/
def lutGet (lut : Lut) (y x : Nat) : Int :=
  (lut.getD y []).getD x (-1)

/-- One row of the position table: each `'o'` first decrements the running
position counter and then receives it; other cells get `-1`. -/
def lutRow (pos : Int) : List Char → List Int × Int
  | [] => ([], pos)
  | c :: cs =>
    if c = 'o' then
      let r := lutRow (pos - 1) cs
      ((pos - 1) :: r.1, r.2)
    else
      let r := lutRow pos cs
      ((-1) :: r.1, r.2)

/-- The position table of a layout: rows in order, threading the descending
position counter (which starts at the peg count). -/
def buildLutRows (pos : Int) : List (List Char) → List (List Int)
  | [] => []
  | l :: ls =>
    let r := lutRow pos l
    r.1 :: buildLutRows r.2 ls

/-- `layout.split("\n")`: rows of the layout, in order; a trailing
separator yields a final empty row, as in JavaScript. -/
def splitNl : List Char → List (List Char)
  | [] => [[]]
  | c :: cs =>
    let r := splitNl cs
    if c = '\n' then [] :: r else (c :: r.headD []) :: r.tail

/-- `lines.map(length).reduce((a, c) => a === c ? c : -1)`: the common line
length, or `-1` on a mismatch.  The source never reduces an empty list. -/
def reduceSame : List Int → Int
  | [] => -1
  | a :: rest => rest.foldl (fun acc cur => if acc = cur then cur else -1) a

/-- Neighbor offsets per direction; `none` is the `valid = false` case of
`RightDiagonal` when `x ≤ 2`. -/
def dirOffsets (x y : Nat) : MoveDirections → Option (Nat × Nat × Nat × Nat)
  | .Horizontal => some (x + 1, y, x + 2, y)
  | .Vertical => some (x, y + 1, x, y + 2)
  | .LeftDiagonal => some (x + 1, y + 1, x + 2, y + 2)
  | .RightDiagonal => if x > 2 then some (x - 1, y + 1, x - 2, y + 2) else none

/-- A compiled move: source cell, direction, and the two neighbor cells. -/
structure MoveDescriptor where
  x : Nat
  y : Nat
  dir : MoveDirections
  x1 : Nat
  y1 : Nat
  x2 : Nat
  y2 : Nat
deriving DecidableEq, Repr

/-- The per-cell, per-direction emission test of the constructor: a move is
kept only when both neighbors are in bounds and occupiable. -/
def emitCellDir (lut : Lut) (xmax ymax x y : Nat) (dir : MoveDirections) :
    Option MoveDescriptor :=
  match dirOffsets x y dir with
  | none => none
  | some (x1, y1, x2, y2) =>
    if x1 < xmax ∧ y1 < ymax ∧ lutGet lut y1 x1 ≠ -1 ∧
       x2 < xmax ∧ y2 < ymax ∧ lutGet lut y2 x2 ≠ -1 then
      some ⟨x, y, dir, x1, y1, x2, y2⟩
    else none

/-- All move descriptors, scanning cells in reading order and directions in
the user-given order, skipping blocked source cells. -/
def moveDescriptors (lut : Lut) (dirs : List MoveDirections) : List MoveDescriptor :=
  let ymax := lut.length
  let xmax := (lut.headD []).length
  (List.range ymax).flatMap fun y =>
    (List.range xmax).flatMap fun x =>
      if lutGet lut y x ≠ -1 then dirs.filterMap (emitCellDir lut xmax ymax x y) else []

/-- `1n << BigInt(v)` for a lut value. -/
def bitOf (v : Int) : Nat := jsShl 1 v

/-- `move_mask` entries: source, midpoint and destination bits. -/
def maskMove (lut : Lut) (d : MoveDescriptor) : Nat :=
  bitOf (lutGet lut d.y d.x) ||| bitOf (lutGet lut d.y1 d.x1) ||| bitOf (lutGet lut d.y2 d.x2)

/-- `check_mask1` entries: source and midpoint bits. -/
def maskCheck1 (lut : Lut) (d : MoveDescriptor) : Nat :=
  bitOf (lutGet lut d.y d.x) ||| bitOf (lutGet lut d.y1 d.x1)

/-- `check_mask2` entries: midpoint and destination bits. -/
def maskCheck2 (lut : Lut) (d : MoveDescriptor) : Nat :=
  bitOf (lutGet lut d.y1 d.x1) ||| bitOf (lutGet lut d.y2 d.x2)

/-- Emission characters of `to_string`, threading the descending position
counter over the layout.  Characters outside the layout alphabet disappear,
as `undefined` entries do under `Array.prototype.join`. -/
def toStringChars : List Char → Int → State → List Char
  | [], _, _ => []
  | c :: cs, pos, state =>
    if c = '.' then ' ' :: toStringChars cs pos state
    else if c = '\n' then '\n' :: toStringChars cs pos state
    else if c = 'o' then
      (if state &&& jsShl 1 (pos - 1) ≠ 0 then 'x' else '.') :: toStringChars cs (pos - 1) state
    else toStringChars cs pos state

/-- `to_string`: human-readable rendering, or an error when the state has
bits beyond the peg count. -/
def to_string (pegs : Nat) (layout : List Char) (state : State) : Except String (List Char) :=
  if pegs < 64 ∧ state > 2 ^ pegs - 1 then
    .error "state does not describe a valid game field"
  else .ok (toStringChars layout pegs state)

/-- The reverse scan of `from_string`: ascending bit positions starting at
zero, with the running `pos > pegs` overflow check. -/
def scanRev (pegs : Nat) : List Char → Nat → State → Except String State
  | [], pos, result => if pos > pegs then .error "invalid state" else .ok result
  | c :: cs, pos, result =>
    if pos > pegs then .error "invalid state"
    else if c = '\n' ∨ c = ' ' ∨ c = '\t' then scanRev pegs cs pos result
    else if c = 'x' then scanRev pegs cs (pos + 1) (result ||| (1 <<< pos))
    else if c = '.' then scanRev pegs cs (pos + 1) result
    else .error "invalid state"

/-- `from_string`: length check, structural check against the layout, then
the reverse scan. -/
def from_string (pegs : Nat) (layout : List Char) (state : List Char) : Except String State :=
  if state.length ≠ layout.length then
    .error "state length does not match the layout length"
  else if ¬ ((layout.zip state).all fun p =>
      if p.1 = 'o' then p.2 == 'x' || p.2 == '.'
      else if p.1 = '.' then p.2 == ' '
      else if p.1 = '\n' then p.2 == '\n'
      else false) then
    .error "invalid state"
  else scanRev pegs state.reverse 0 0

/-- `to_vec`: blocked cells get `-1`, empty cells `0`, occupied cells `1`. -/
def to_vec (pegs : Nat) (lut : Lut) (state : State) : Except String Lut :=
  if pegs < 64 ∧ state > 2 ^ pegs - 1 then .error "invalid state"
  else .ok (lut.map fun row => row.map fun x =>
    if x = -1 then -1
    else if state &&& jsShl 1 x = 0 then 0
    else 1)

/-- `from_vec`: rebuild a state from a nested array.  A `1` is OR-ed in via
a BigInt shift by the lut value, which for a blocked cell is the silent
no-op `1n << -1n = 0n`; a `0` on a blocked cell and a `-1` on an occupiable
cell raise; values outside the alphabet raise.  Reads outside the given
array hit the raising default branch. -/
def fromVecCell (lutv cellv : Int) (r : State) : Except String State :=
  match cellv with
  | 1 => .ok (r ||| jsShl 1 lutv)
  | 0 => if lutv = -1 then .error "state does not match the game field" else .ok r
  | -1 => if lutv ≠ -1 then .error "state does not match the game field" else .ok r
  | _ => .error "unexpected state entry"

def from_vec (lut : Lut) (state : Lut) : Except String State :=
  (List.range state.length).foldlM (fun r y =>
    (List.range ((state.headD []).length)).foldlM (fun r x =>
      fromVecCell (lutGet lut y x) ((state.getD y []).getD x 2) r) r) 0

/-- `vertical_flip`: copy the rows and reverse their order. -/
def vertical_flip (lut : Lut) : Lut := lut.reverse

/-- `horizontal_flip`: reverse every row. -/
def horizontal_flip (lut : Lut) : Lut := lut.map List.reverse

/-- Write one cell of a lut. -/
def setCell (m : Lut) (y x : Nat) (v : Int) : Lut :=
  m.set y ((m.getD y []).set x v)

/-- The in-place transpose of the constructor: for every `x ≤ y` swap the
cells `(y, x)` and `(x, y)`. -/
def transpose (lut : Lut) : Lut :=
  (List.range lut.length).foldl (fun r y =>
    (List.range ((r.headD []).length)).foldl (fun r x =>
      if x > y then r
      else
        let tmp := lutGet r y x
        let r2 := setCell r y x (lutGet r x y)
        setCell r2 x y tmp) r) lut

/-- `have_same_shape`: same dimensions and the same blocked-cell pattern. -/
def have_same_shape (in1 in2 : Lut) : Bool :=
  if in1.length ≠ in2.length ∨ (in1.headD []).length ≠ (in2.headD []).length then false
  else (List.range in1.length).all fun y =>
    (List.range ((in2.headD []).length)).all fun x =>
      !(((lutGet in1 y x == -1) || (lutGet in2 y x == -1)) &&
        (lutGet in1 y x != lutGet in2 y x))

/-- `movemask_as_vec`: every move mask as a nested array, exceptions of
`to_vec` ignored. -/
def movemask_as_vec (pegs : Nat) (lut : Lut) (mm : List Nat) : List Lut :=
  mm.filterMap fun x => (to_vec pegs lut x).toOption

/-- The test of `add_transformation`: the candidate keeps the shape and maps
every move pattern to a pattern of a listed move. -/
def accepts (pegs : Nat) (lut : Lut) (mm : List Nat) (func : Lut → Lut) : Bool :=
  have_same_shape lut (func lut) &&
  (movemask_as_vec pegs lut mm).all fun i =>
    match from_vec lut (func i) with
    | .ok v => mm.contains v
    | .error _ => false

/-- The candidate symmetries tried by the constructor: the two flips and
their composition, and, for square boards, the transpose composed with
them. -/
def candidateList (lut : Lut) : List (Lut → Lut) :=
  [vertical_flip, horizontal_flip, fun l => horizontal_flip (vertical_flip l)] ++
  (if lut.length = (lut.headD []).length then
    [transpose, fun l => vertical_flip (transpose l), fun l => horizontal_flip (transpose l),
     fun l => horizontal_flip (vertical_flip (transpose l))]
   else [])

/-- The transformed luts accepted by `add_transformation`, in trial order. -/
def acceptedLuts (pegs : Nat) (lut : Lut) (mm : List Nat) : List Lut :=
  (candidateList lut).filterMap fun f =>
    if accepts pegs lut mm f then some (f lut) else none

/-- Lookup in the insertion-ordered map of shift groups. -/
def assocGet (m : List (Int × Nat)) (k : Int) : Option Nat :=
  match m.find? (fun p => p.1 == k) with
  | some p => some p.2
  | none => none

/-- Update in the insertion-ordered map of shift groups: overwrite in place,
or append a new key, as `Map.prototype.set` does. -/
def assocSet : List (Int × Nat) → Int → Nat → List (Int × Nat)
  | [], k, v => [(k, v)]
  | p :: rest, k, v => if p.1 = k then (k, v) :: rest else p :: assocSet rest k v

/-- Compile the flattened occupiable entries of a transformed lut into shift
groups: descending loop index `i`, entry `e = field[len - 1 - i]`, and the
bit `i` is merged into the group of shift `e - i`. -/
def compileField (field : List Int) : List (Int × Nat) :=
  (List.range field.length).reverse.foldl (fun out i =>
    let e := field.getD (field.length - 1 - i) (-1)
    let diff : Int := e - (i : Int)
    let mask := match assocGet out diff with
      | some cur => (1 <<< i) ||| cur
      | none => 1 <<< i
    assocSet out diff mask) []

/-- The flattened occupiable entries of a transformed lut, in reading
order. -/
def fieldOf (trans : Lut) : List Int := trans.flatten.filter (· ≠ -1)

/-- The compiled transformations of a Description. -/
def mkTransformations (pegs : Nat) (lut : Lut) (mm : List Nat) : List (List (Int × Nat)) :=
  (acceptedLuts pegs lut mm).map fun tr => compileField (fieldOf tr)

/-- The compiled board description (`class Description`). -/
structure Description where
  name : List Char
  layout : List Char
  directions : List MoveDirections
  pegs : Nat
  lut : Lut
  move_mask : List Nat
  check_mask1 : List Nat
  check_mask2 : List Nat
  transformations : List (List (Int × Nat))
deriving DecidableEq, Repr

/-- The `Description` constructor: the validation chain, the position
table, the move masks and the compiled transformations, in source order. -/
def mkDescription (name layout : List Char) (directions : List MoveDirections) :
    Except String Description :=
  if name = [] then .error "name cannot be empty"
  else if directions = [] then .error "no move directions were provided"
  else if layout = [] then .error "layout cannot be empty"
  else if ¬ (layout.all fun c => c == '.' || c == 'o' || c == '\n') then
    .error "layout contains an invalid character"
  else
    let pegs := layout.count 'o'
    if pegs < 3 then .error "peg solitaire requires at least 3 pegs"
    else if pegs > 63 then .error "implementation supports only 63 bit"
    else
      let lines := splitNl layout
      if reduceSame (lines.map fun l => (l.length : Int)) = -1 then
        .error "not every layout line has the same length"
      else
        let lut := buildLutRows pegs lines
        let descs := moveDescriptors lut directions
        let mm := descs.map (maskMove lut)
        if mm = [] then .error "No moves are possible"
        else .ok
          { name := name
            layout := layout
            directions := directions
            pegs := pegs
            lut := lut
            move_mask := mm
            check_mask1 := descs.map (maskCheck1 lut)
            check_mask2 := descs.map (maskCheck2 lut)
            transformations := mkTransformations pegs lut mm }

/-- The value of one compiled transformation on a state: the OR of the
masked shifts of the generated `normalize` routine. -/
def applyTrans (trans : List (Int × Nat)) (s : State) : State :=
  trans.foldl (fun acc p => acc ||| jsShl (s &&& p.2) p.1) 0

/-- The generated `normalize` routine: the numeric minimum of the state and
all its transformed values (`reduce` over `[state, ...]`). -/
def normalizeFun (ts : List (List (Int × Nat))) (s : State) : State :=
  (ts.map fun t => applyTrans t s).foldl (fun acc v => if acc < v then acc else v) s

/-- One level of the search: for every non-sentinel state of the current
frontier, reserve room for all moves, then insert the canonicalized
successor of every legal move into the next frontier. -/
def solveStep (d : Description) (current : BoardSet) : Option BoardSet := do
  let next0 ← BoardSet.create 0
  current.data.foldlM (fun next field =>
    if field = EMPTY_STATE then pure next
    else do
      let next ← next.reserve d.move_mask.length
      (List.range d.move_mask.length).foldlM (fun next i =>
        let v := field &&& d.move_mask.getD i 0
        if v = d.check_mask1.getD i 0 ∨ v = d.check_mask2.getD i 0 then
          next.fast_insert (normalizeFun d.transformations (field ^^^ d.move_mask.getD i 0))
        else pure next) next)
    next0

/-- The search loop, with fuel: record each non-empty frontier and stop at
the first empty one.  Exhausted fuel on a non-empty frontier gives `none`. -/
def solveLoop (d : Description) : Nat → BoardSet → Option (List BoardSet)
  | 0, current => if current.length = 0 then some [] else none
  | fuel + 1, current =>
    if current.length = 0 then some []
    else do
      let next ← solveStep d current
      let rest ← solveLoop d fuel next
      some (current :: rest)

/-- `solve(start)`: seed a fresh frontier with the canonicalized start and
run the loop.  No validation of `start` is performed. -/
def solve (d : Description) (start : State) (fuel : Nat) : Option (List BoardSet) := do
  let fresh ← BoardSet.create 0
  let c0 ← fresh.insert (normalizeFun d.transformations start)
  solveLoop d fuel c0

/-! ### Bit-counting lemmas -/

theorem popCount_zero : popCount 0 = 0 := by
  rw [popCount]
  simp

theorem popCount_step (n : Nat) : popCount n = n % 2 + popCount (n / 2) := by
  by_cases h : n = 0
  · subst h; simp [popCount_zero]
  · rw [popCount]; simp [h]

theorem xor_mod_two (x y : Nat) : (x ^^^ y) % 2 = (x % 2) ^^^ (y % 2) := by
  rw [← Nat.and_one_is_mod, ← Nat.and_one_is_mod, ← Nat.and_one_is_mod]
  refine Nat.eq_of_testBit_eq fun i => ?_
  simp only [Nat.testBit_and, Nat.testBit_xor]
  cases h : (1 : Nat).testBit i <;> cases x.testBit i <;> cases y.testBit i <;> simp

theorem and_mod_two (x y : Nat) : (x &&& y) % 2 = (x % 2) &&& (y % 2) := by
  rw [← Nat.and_one_is_mod, ← Nat.and_one_is_mod, ← Nat.and_one_is_mod]
  refine Nat.eq_of_testBit_eq fun i => ?_
  simp only [Nat.testBit_and]
  cases h : (1 : Nat).testBit i <;> cases x.testBit i <;> cases y.testBit i <;> simp

theorem bit0_sum (a b : Nat) :
    (a ^^^ b) % 2 + 2 * ((a &&& b) % 2) = a % 2 + b % 2 := by
  rw [xor_mod_two, and_mod_two]
  rcases Nat.mod_two_eq_zero_or_one a with hp | hp <;>
    rcases Nat.mod_two_eq_zero_or_one b with hq | hq <;> rw [hp, hq] <;> decide

theorem xor_div_two (a b : Nat) : (a ^^^ b) / 2 = (a / 2) ^^^ (b / 2) := by
  refine Nat.eq_of_testBit_eq fun i => ?_
  simp [Nat.testBit_div_two, Nat.testBit_xor]

theorem and_div_two (a b : Nat) : (a &&& b) / 2 = (a / 2) &&& (b / 2) := by
  refine Nat.eq_of_testBit_eq fun i => ?_
  simp [Nat.testBit_div_two, Nat.testBit_and]

/-- The counting identity behind move application: XOR plus twice the
overlap counts both operands. -/
theorem popCount_xor_and (a : Nat) :
    ∀ b, popCount (a ^^^ b) + 2 * popCount (a &&& b) = popCount a + popCount b := by
  induction a using Nat.strong_induction_on with
  | _ a ih =>
    intro b
    by_cases h : a = 0
    · subst h; simp [popCount_zero]
    · have hlt : a / 2 < a := Nat.div_lt_self (Nat.pos_of_ne_zero h) one_lt_two
      have hrec := ih (a / 2) hlt (b / 2)
      have h1 := popCount_step (a ^^^ b)
      have h2 := popCount_step (a &&& b)
      have h3 := popCount_step a
      have h4 := popCount_step b
      rw [xor_div_two] at h1
      rw [and_div_two] at h2
      have h5 := bit0_sum a b
      omega

theorem popCount_two_pow (i : Nat) : popCount (2 ^ i) = 1 := by
  induction i with
  | zero => rw [popCount_step]; simp [popCount_zero]
  | succ n ih =>
    rw [popCount_step, pow_succ]
    have h2 : 2 ^ n * 2 / 2 = 2 ^ n := by omega
    have h3 : 2 ^ n * 2 % 2 = 0 := by omega
    rw [h2, h3, ih]

theorem lor_eq_xor_of_and_zero {a b : Nat} (h : a &&& b = 0) : a ||| b = a ^^^ b := by
  refine Nat.eq_of_testBit_eq fun i => ?_
  have := congrArg (Nat.testBit · i) h
  simp only [Nat.testBit_and, Nat.zero_testBit] at this
  rw [Nat.testBit_or, Nat.testBit_xor]
  rcases Bool.and_eq_false_iff.mp this with h1 | h1 <;> simp [h1]

theorem popCount_or_disjoint {a b : Nat} (h : a &&& b = 0) :
    popCount (a ||| b) = popCount a + popCount b := by
  rw [lor_eq_xor_of_and_zero h]
  have := popCount_xor_and a b
  rw [h, popCount_zero] at this
  omega

theorem two_pow_and_two_pow_of_ne {i j : Nat} (h : i ≠ j) : 2 ^ i &&& 2 ^ j = 0 := by
  refine Nat.eq_of_testBit_eq fun k => ?_
  rw [Nat.testBit_and, Nat.zero_testBit]
  rcases eq_or_ne k i with rfl | hk
  · simp [Nat.testBit_two_pow, h.symm]
  · simp [Nat.testBit_two_pow, Ne.symm hk]

/-- A three-bit mask of pairwise distinct bit indices has popcount 3. -/
theorem popCount_three_bits {a b c : Nat} (hab : a ≠ b) (hac : a ≠ c) (hbc : b ≠ c) :
    popCount (2 ^ a ||| 2 ^ b ||| 2 ^ c) = 3 := by
  have h1 : (2 ^ a : Nat) &&& 2 ^ b = 0 := two_pow_and_two_pow_of_ne hab
  have h2 : (2 ^ a ||| 2 ^ b) &&& 2 ^ c = 0 := by
    refine Nat.eq_of_testBit_eq fun k => ?_
    rw [Nat.testBit_and, Nat.testBit_or, Nat.zero_testBit, Nat.testBit_two_pow,
      Nat.testBit_two_pow, Nat.testBit_two_pow]
    by_cases h1 : a = k <;> by_cases h2 : b = k <;> by_cases h3 : c = k <;>
      simp [h1, h2, h3] <;> omega
  rw [popCount_or_disjoint h2, popCount_or_disjoint h1,
    popCount_two_pow, popCount_two_pow, popCount_two_pow]

/-- A two-bit mask of distinct bit indices has popcount 2. -/
theorem popCount_two_bits {a b : Nat} (hab : a ≠ b) :
    popCount (2 ^ a ||| 2 ^ b) = 2 := by
  rw [popCount_or_disjoint (two_pow_and_two_pow_of_ne hab),
    popCount_two_pow, popCount_two_pow]

/-- Applying a 3-bit move mask to a state that matches one of its 2-bit
check masks removes exactly one peg. -/
theorem popCount_apply_move {field m ck : Nat}
    (hm : popCount m = 3) (hck : popCount ck = 2) (h : field &&& m = ck) :
    popCount (field ^^^ m) + 1 = popCount field := by
  have := popCount_xor_and field m
  rw [h, hck, hm] at this
  omega

/-! ### Position-table characterization -/

theorem lutRow_fst_length (line : List Char) : ∀ pos : Int, (lutRow pos line).1.length = line.length := by
  induction line with
  | nil => intro pos; rfl
  | cons c cs ih =>
    intro pos
    by_cases h : c = 'o' <;> simp [lutRow, h, ih]

theorem lutRow_snd (line : List Char) : ∀ pos : Int, (lutRow pos line).2 = pos - line.count 'o' := by
  induction line with
  | nil => intro pos; simp [lutRow]
  | cons c cs ih =>
    intro pos
    by_cases h : c = 'o' <;> simp [lutRow, h, ih, List.count_cons] <;> omega

theorem lutRow_getD (line : List Char) : ∀ (pos : Int) (j : Nat), j < line.length →
    (lutRow pos line).1.getD j (-1) =
      if line.getD j ' ' = 'o' then pos - 1 - ((line.take j).count 'o' : Int) else -1 := by
  induction line with
  | nil => intro pos j h; simp at h
  | cons c cs ih =>
    intro pos j hj
    match j with
    | 0 =>
      by_cases h : c = 'o' <;> simp [lutRow, h]
    | j + 1 =>
      have hj' : j < cs.length := by simpa using hj
      by_cases h : c = 'o'
      · have hrec := ih (pos - 1) j hj'
        simp only [lutRow, h, if_true, List.getD_cons_succ, List.take_succ_cons,
          List.count_cons_self]
        rw [hrec]
        split <;> push_cast <;> ring
      · have hrec := ih pos j hj'
        simp only [lutRow, if_neg h, List.getD_cons_succ, List.take_succ_cons]
        rw [hrec, List.count_cons_of_ne (Ne.symm h)]

/-- Number of pegs in the rows before row `y`. -/
def oPrefRows (lines : List (List Char)) (y : Nat) : Nat :=
  ((lines.take y).map (·.count 'o')).sum

/-- Number of pegs strictly before cell `(y, x)` in reading order. -/
def oPref (lines : List (List Char)) (y x : Nat) : Nat :=
  oPrefRows lines y + ((lines.getD y []).take x).count 'o'

theorem buildLutRows_length (lines : List (List Char)) :
    ∀ pos : Int, (buildLutRows pos lines).length = lines.length := by
  induction lines with
  | nil => intro pos; rfl
  | cons l ls ih => intro pos; simp [buildLutRows, ih]

theorem buildLutRows_getD (lines : List (List Char)) :
    ∀ (pos : Int) (y : Nat), y < lines.length →
      (buildLutRows pos lines).getD y [] =
        (lutRow (pos - (oPrefRows lines y : Int)) (lines.getD y [])).1 := by
  induction lines with
  | nil => intro pos y h; simp at h
  | cons l ls ih =>
    intro pos y hy
    match y with
    | 0 => simp [buildLutRows, oPrefRows]
    | y + 1 =>
      have hy' : y < ls.length := by simpa using hy
      have := ih (lutRow pos l).2 y hy'
      simp only [buildLutRows, List.getD_cons_succ]
      rw [this, lutRow_snd]
      have : pos - (l.count 'o' : Int) - (oPrefRows ls y : Int) =
          pos - (oPrefRows (l :: ls) (y + 1) : Int) := by
        simp [oPrefRows, List.take_succ_cons]
        push_cast
        ring
      rw [this]

/-- Cell-level description of the position table: an `'o'` cell holds
`pos - 1 - (pegs before it)`, any other cell holds `-1`. -/
theorem lutGet_buildLutRows (lines : List (List Char)) (pos : Int) (y x : Nat)
    (hy : y < lines.length) (hx : x < (lines.getD y []).length) :
    lutGet (buildLutRows pos lines) y x =
      if (lines.getD y []).getD x ' ' = 'o' then pos - 1 - (oPref lines y x : Int) else -1 := by
  unfold lutGet
  rw [buildLutRows_getD lines pos y hy, lutRow_getD _ _ x hx]
  split <;> [skip; rfl]
  push_cast [oPref]
  ring_nf

theorem count_take_succ_of_o {l : List Char} {x : Nat} (hx : x < l.length)
    (ho : l.getD x ' ' = 'o') :
    (l.take (x + 1)).count 'o' = (l.take x).count 'o' + 1 := by
  rw [List.take_succ, List.count_append, List.getElem?_eq_getElem hx]
  rw [List.getD_eq_getElem l ' ' hx] at ho
  simp [ho]

theorem count_take_mono (l : List Char) {m n : Nat} (h : m ≤ n) :
    (l.take m).count 'o' ≤ (l.take n).count 'o' := by
  have h1 : l.take m = (l.take n).take m := by rw [List.take_take, Nat.min_eq_left h]
  rw [h1]
  exact (List.take_sublist m (l.take n)).count_le 'o'

theorem count_take_le (l : List Char) (m : Nat) :
    (l.take m).count 'o' ≤ l.count 'o' :=
  (List.take_sublist m l).count_le 'o'

theorem oPrefRows_succ {lines : List (List Char)} {y : Nat} (hy : y < lines.length) :
    oPrefRows lines (y + 1) = oPrefRows lines y + (lines.getD y []).count 'o' := by
  unfold oPrefRows
  rw [List.take_succ, List.getElem?_eq_getElem hy, List.map_append, List.sum_append,
    List.getD_eq_getElem lines [] hy]
  simp

theorem oPrefRows_mono (lines : List (List Char)) {y y' : Nat} (h : y ≤ y') :
    oPrefRows lines y ≤ oPrefRows lines y' := by
  induction y' with
  | zero => simpa [Nat.le_zero.mp h] using Nat.le_refl _
  | succ k ih =>
    rcases Nat.lt_or_ge k lines.length with hk | hk
    · rcases Nat.lt_or_ge y (k + 1) with h2 | h2
      · exact le_trans (ih (Nat.lt_succ_iff.mp h2)) (by rw [oPrefRows_succ hk]; omega)
      · have : y = k + 1 := le_antisymm h h2
        subst this; exact Nat.le_refl _
    · have h1 : oPrefRows lines (k + 1) = oPrefRows lines k := by
        unfold oPrefRows
        rw [List.take_of_length_le hk, List.take_of_length_le (Nat.le_succ_of_le hk)]
      rcases Nat.lt_or_ge y (k + 1) with h2 | h2
      · rw [h1]; exact ih (Nat.lt_succ_iff.mp h2)
      · have : y = k + 1 := le_antisymm h h2
        subst this; exact Nat.le_refl _

theorem oPrefRows_le_total (lines : List (List Char)) (y : Nat) :
    oPrefRows lines y ≤ (lines.map (·.count 'o')).sum := by
  have h1 : oPrefRows lines lines.length = (lines.map (·.count 'o')).sum := by
    unfold oPrefRows
    rw [List.take_of_length_le (Nat.le_refl _)]
  rcases Nat.le_total y lines.length with h | h
  · have := oPrefRows_mono lines h
    omega
  · unfold oPrefRows
    rw [List.take_of_length_le h]

theorem oPref_strict {lines : List (List Char)} {y x y' x' : Nat}
    (hy : y < lines.length)
    (hx : x < (lines.getD y []).length)
    (ho : (lines.getD y []).getD x ' ' = 'o')
    (horder : y < y' ∨ (y = y' ∧ x < x')) :
    oPref lines y x < oPref lines y' x' := by
  rcases horder with hlt | ⟨rfl, hlt⟩
  · have h1 : oPref lines y x + 1 ≤ oPrefRows lines (y + 1) := by
      rw [oPrefRows_succ hy]
      unfold oPref
      have := count_take_succ_of_o hx ho
      have h2 := count_take_le (lines.getD y []) (x + 1)
      omega
    have h2 : oPrefRows lines (y + 1) ≤ oPrefRows lines y' := oPrefRows_mono lines hlt
    unfold oPref
    have h3 : oPrefRows lines y' ≤ oPref lines y' x' := Nat.le_add_right _ _
    unfold oPref at h1 h3
    omega
  · unfold oPref
    have h1 := count_take_succ_of_o hx ho
    have h2 : ((lines.getD y []).take (x + 1)).count 'o' ≤
        ((lines.getD y []).take x').count 'o' :=
      count_take_mono (lines.getD y []) (by omega)
    omega

theorem oPref_lt_total {lines : List (List Char)} {y x : Nat}
    (hy : y < lines.length)
    (hx : x < (lines.getD y []).length)
    (ho : (lines.getD y []).getD x ' ' = 'o') :
    oPref lines y x < (lines.map (·.count 'o')).sum := by
  have h1 : oPref lines y x + 1 ≤ oPrefRows lines (y + 1) := by
    rw [oPrefRows_succ hy]
    unfold oPref
    have := count_take_succ_of_o hx ho
    have h2 := count_take_le (lines.getD y []) (x + 1)
    omega
  have h2 := oPrefRows_le_total lines (y + 1)
  omega

theorem splitNl_ne_nil (l : List Char) : splitNl l ≠ [] := by
  induction l with
  | nil => simp [splitNl]
  | cons c cs ih =>
    by_cases h : c = '\n' <;> simp [splitNl, h]

theorem splitNl_count (l : List Char) :
    ((splitNl l).map (·.count 'o')).sum = l.count 'o' := by
  induction l with
  | nil => simp [splitNl]
  | cons c cs ih =>
    by_cases h : c = '\n'
    · simp only [splitNl, if_pos h, List.map_cons, List.sum_cons]
      rw [h, List.count_cons]
      simpa using ih
    · obtain ⟨hd, tl, heq⟩ : ∃ hd tl, splitNl cs = hd :: tl := by
        rcases hs : splitNl cs with _ | ⟨hd, tl⟩
        · exact absurd hs (splitNl_ne_nil cs)
        · exact ⟨hd, tl, rfl⟩
      simp only [splitNl, if_neg h, heq] at ih ⊢
      simp only [List.headD_cons, List.tail_cons, List.map_cons, List.sum_cons] at ih ⊢
      rw [List.count_cons, List.count_cons] at *
      by_cases ho : c = 'o' <;> simp [ho] at * <;> omega

theorem foldl_same_absorb (xs : List Int) (h0 : ∀ x ∈ xs, 0 ≤ x) :
    xs.foldl (fun acc cur => if acc = cur then cur else -1) (-1) = -1 := by
  induction xs with
  | nil => rfl
  | cons c cs ih =>
    have hc : (0 : Int) ≤ c := h0 c (List.mem_cons_self c cs)
    have hne : (-1 : Int) ≠ c := by omega
    simp only [List.foldl_cons, if_neg hne]
    exact ih (fun x hx => h0 x (List.mem_cons_of_mem c hx))

theorem foldl_same_all (xs : List Int) : ∀ a : Int, (∀ x ∈ xs, 0 ≤ x) →
    xs.foldl (fun acc cur => if acc = cur then cur else -1) a ≠ -1 →
    ∀ x ∈ xs, x = a := by
  induction xs with
  | nil => intro a _ _ x hx; simp at hx
  | cons c cs ih =>
    intro a h0 hne x hx
    by_cases hac : a = c
    · subst hac
      simp only [List.foldl_cons, if_pos rfl] at hne
      rcases List.mem_cons.mp hx with rfl | hx
      · rfl
      · exact ih a (fun z hz => h0 z (List.mem_cons_of_mem _ hz)) hne x hx
    · exfalso
      simp only [List.foldl_cons, if_neg hac] at hne
      exact hne (foldl_same_absorb cs (fun z hz => h0 z (List.mem_cons_of_mem c hz)))

/-- When the line-length reduction does not flag a mismatch, every line has
the head line's length. -/
theorem lines_length_eq {lines : List (List Char)}
    (h : reduceSame (lines.map fun l => ((l.length : Int))) ≠ -1) :
    ∀ l ∈ lines, l.length = (lines.headD []).length := by
  match lines with
  | [] => intro l hl; simp at hl
  | l0 :: rest =>
    intro l hl
    simp only [List.map_cons, reduceSame] at h
    have hall := foldl_same_all (rest.map fun l => ((l.length : Int))) (l0.length : Int)
      (by intro x hx
          simp only [List.mem_map] at hx
          obtain ⟨z, _, rfl⟩ := hx
          positivity) h
    rcases List.mem_cons.mp hl with rfl | hl
    · rfl
    · have := hall (l.length : Int) (List.mem_map_of_mem _ hl)
      simpa using this

theorem headD_eq_getD_zero {α : Type} (l : List α) (d : α) : l.headD d = l.getD 0 d := by
  cases l <;> rfl

theorem buildLut_row_length {lines : List (List Char)} {pos : Int} {y : Nat}
    (hy : y < lines.length) :
    ((buildLutRows pos lines).getD y []).length = (lines.getD y []).length := by
  rw [buildLutRows_getD lines pos y hy, lutRow_fst_length]

/-- Unpacking a successful `Description` construction. -/
theorem mkDescription_ok {name layout : List Char} {dirs : List MoveDirections} {d : Description}
    (hok : mkDescription name layout dirs = Except.ok d) :
    d.name = name ∧ d.layout = layout ∧ d.directions = dirs ∧
    d.pegs = layout.count 'o' ∧ 3 ≤ d.pegs ∧ d.pegs ≤ 63 ∧
    (layout.all fun c => c == '.' || c == 'o' || c == '\n') = true ∧
    reduceSame ((splitNl layout).map fun l => ((l.length : Int))) ≠ -1 ∧
    d.lut = buildLutRows ((layout.count 'o' : Int)) (splitNl layout) ∧
    d.move_mask = (moveDescriptors d.lut dirs).map (maskMove d.lut) ∧
    d.check_mask1 = (moveDescriptors d.lut dirs).map (maskCheck1 d.lut) ∧
    d.check_mask2 = (moveDescriptors d.lut dirs).map (maskCheck2 d.lut) ∧
    d.transformations = mkTransformations d.pegs d.lut d.move_mask ∧
    d.move_mask ≠ [] := by
  simp only [mkDescription] at hok
  split at hok
  · exact absurd hok (by simp)
  split at hok
  · exact absurd hok (by simp)
  split at hok
  · exact absurd hok (by simp)
  split at hok
  · exact absurd hok (by simp)
  split at hok
  · exact absurd hok (by simp)
  split at hok
  · exact absurd hok (by simp)
  split at hok
  · exact absurd hok (by simp)
  split at hok
  · exact absurd hok (by simp)
  rename_i h1 h2 h3 h4 h5 h6 h7 h8
  rw [Except.ok.injEq] at hok
  subst hok
  dsimp only
  refine ⟨rfl, rfl, rfl, rfl, by omega, by omega, ?_, ?_, rfl, ?_, rfl, rfl, rfl, h8⟩
  · exact Bool.of_not_eq_false (by simpa using h4)
  · exact h7
  · rfl

theorem getD_map {α β : Type} (l : List α) (f : α → β) (i : Nat) (h : i < l.length)
    (dflt : β) : (l.map f).getD i dflt = f (l.get ⟨i, h⟩) := by
  rw [List.getD_eq_getElem _ _ (by simpa using h)]
  simp

theorem bitOf_nonneg {v : Int} (h : 0 ≤ v) : bitOf v = 2 ^ v.toNat := by
  unfold bitOf jsShl
  rw [if_pos h, Nat.shiftLeft_eq, one_mul]

theorem emitCellDir_some {lut : Lut} {xmax ymax x y : Nat} {dir : MoveDirections}
    {d : MoveDescriptor} (h : emitCellDir lut xmax ymax x y dir = some d) :
    d.x = x ∧ d.y = y ∧ d.dir = dir ∧
    dirOffsets x y dir = some (d.x1, d.y1, d.x2, d.y2) ∧
    d.x1 < xmax ∧ d.y1 < ymax ∧ lutGet lut d.y1 d.x1 ≠ -1 ∧
    d.x2 < xmax ∧ d.y2 < ymax ∧ lutGet lut d.y2 d.x2 ≠ -1 := by
  unfold emitCellDir at h
  rcases ho : dirOffsets x y dir with _ | ⟨⟨x1, y1, x2, y2⟩⟩ <;> rw [ho] at h <;>
    dsimp only at h
  · exact absurd h (by simp)
  · split at h
    · rename_i hcond
      rw [Option.some.injEq] at h
      subst h
      exact ⟨rfl, rfl, rfl, rfl, hcond.1, hcond.2.1, hcond.2.2.1, hcond.2.2.2.1,
        hcond.2.2.2.2.1, hcond.2.2.2.2.2⟩
    · exact absurd h (by simp)

theorem dirOffsets_some {x y : Nat} {dir : MoveDirections} {x1 y1 x2 y2 : Nat}
    (h : dirOffsets x y dir = some (x1, y1, x2, y2)) :
    (y < y1 ∨ (y = y1 ∧ x < x1)) ∧ (y1 < y2 ∨ (y1 = y2 ∧ x1 < x2)) ∧
    (dir = .RightDiagonal →
      2 < x ∧ x1 = x - 1 ∧ y1 = y + 1 ∧ x2 = x - 2 ∧ y2 = y + 2) := by
  cases dir with
  | Horizontal =>
    simp only [dirOffsets, Option.some.injEq, Prod.mk.injEq] at h
    obtain ⟨e1, e2, e3, e4⟩ := h
    refine ⟨by omega, by omega, fun hd => MoveDirections.noConfusion hd⟩
  | Vertical =>
    simp only [dirOffsets, Option.some.injEq, Prod.mk.injEq] at h
    obtain ⟨e1, e2, e3, e4⟩ := h
    refine ⟨by omega, by omega, fun hd => MoveDirections.noConfusion hd⟩
  | LeftDiagonal =>
    simp only [dirOffsets, Option.some.injEq, Prod.mk.injEq] at h
    obtain ⟨e1, e2, e3, e4⟩ := h
    refine ⟨by omega, by omega, fun hd => MoveDirections.noConfusion hd⟩
  | RightDiagonal =>
    simp only [dirOffsets] at h
    split at h
    · rename_i hx
      simp only [Option.some.injEq, Prod.mk.injEq] at h
      obtain ⟨e1, e2, e3, e4⟩ := h
      exact ⟨by omega, by omega, fun _ => ⟨hx, by omega, by omega, by omega, by omega⟩⟩
    · exact absurd h (by simp)

theorem moveDescriptors_mem {lut : Lut} {dirs : List MoveDirections} {d : MoveDescriptor}
    (hd : d ∈ moveDescriptors lut dirs) :
    d.y < lut.length ∧ d.x < (lut.headD []).length ∧ lutGet lut d.y d.x ≠ -1 ∧
    d.dir ∈ dirs ∧
    emitCellDir lut (lut.headD []).length lut.length d.x d.y d.dir = some d := by
  simp only [moveDescriptors, List.mem_flatMap, List.mem_range] at hd
  obtain ⟨y, hy, x, hx, hmem⟩ := hd
  by_cases hocc : lutGet lut y x ≠ -1
  · rw [if_pos hocc] at hmem
    rw [List.mem_filterMap] at hmem
    obtain ⟨dir, hdir, hemit⟩ := hmem
    obtain ⟨hdx, hdy, hddir, -⟩ := emitCellDir_some hemit
    subst hdx; subst hdy; subst hddir
    exact ⟨hy, hx, hocc, hdir, hemit⟩
  · rw [if_neg hocc] at hmem
    simp at hmem

/-- C10: `Description` construction takes the name before the layout and
fails with "name cannot be empty" whenever the name is empty, whatever the
layout and direction list are. -/
theorem claim_C10 (layout : List Char) (dirs : List MoveDirections) :
    mkDescription [] layout dirs = Except.error "name cannot be empty" := by
  unfold mkDescription
  rw [if_pos rfl]

/-- C9: every emitted move descriptor has in-bounds, occupiable neighbor
cells, and a RightDiagonal descriptor is emitted only when `x > 2`, with
neighbors `(x-1, y+1)` and `(x-2, y+2)`. -/
theorem claim_C9 {lut : Lut} {dirs : List MoveDirections} {d : MoveDescriptor}
    (hd : d ∈ moveDescriptors lut dirs) :
    (d.dir = MoveDirections.RightDiagonal →
      2 < d.x ∧ d.x1 = d.x - 1 ∧ d.y1 = d.y + 1 ∧ d.x2 = d.x - 2 ∧ d.y2 = d.y + 2) ∧
    d.x1 < (lut.headD []).length ∧ d.y1 < lut.length ∧ lutGet lut d.y1 d.x1 ≠ -1 ∧
    d.x2 < (lut.headD []).length ∧ d.y2 < lut.length ∧ lutGet lut d.y2 d.x2 ≠ -1 := by
  obtain ⟨hy, hx, hocc, hdir, hemit⟩ := moveDescriptors_mem hd
  obtain ⟨-, -, -, hoff, hb1, hb2, hb3, hb4, hb5, hb6⟩ := emitCellDir_some hemit
  obtain ⟨-, -, hrd⟩ := dirOffsets_some hoff
  exact ⟨hrd, hb1, hb2, hb3, hb4, hb5, hb6⟩

/-- Witness for C9 at the one-row board `"ooo"` with horizontal moves. -/
theorem claim_C9_witness :
    (⟨0, 0, MoveDirections.Horizontal, 1, 0, 2, 0⟩ : MoveDescriptor) ∈
      moveDescriptors [[2, 1, 0]] [MoveDirections.Horizontal] ∧
    ((⟨0, 0, MoveDirections.Horizontal, 1, 0, 2, 0⟩ : MoveDescriptor).dir =
        MoveDirections.RightDiagonal → 2 < 0 ∧ 1 = 0 - 1 ∧ 0 = 0 + 1 ∧ 2 = 0 - 2 ∧ 0 = 0 + 2) ∧
    1 < (([[2, 1, 0]] : Lut).headD []).length ∧ 0 < ([[2, 1, 0]] : Lut).length ∧
    lutGet [[2, 1, 0]] 0 1 ≠ -1 ∧
    2 < (([[2, 1, 0]] : Lut).headD []).length ∧ 0 < ([[2, 1, 0]] : Lut).length ∧
    lutGet [[2, 1, 0]] 0 2 ≠ -1 := by
  have hmem : (⟨0, 0, MoveDirections.Horizontal, 1, 0, 2, 0⟩ : MoveDescriptor) ∈
      moveDescriptors [[2, 1, 0]] [MoveDirections.Horizontal] := by decide
  exact ⟨hmem, claim_C9 hmem⟩

/-- An occupiable cell of a compiled position table holds the peg total
minus one minus the number of pegs before it, and lies under an `'o'`. -/
theorem lut_cell_value {layout : List Char} {y x : Nat}
    (hlines : reduceSame ((splitNl layout).map fun l => ((l.length : Int))) ≠ -1)
    (hy : y < (splitNl layout).length)
    (hx : x < ((buildLutRows ((layout.count 'o' : Int)) (splitNl layout)).headD []).length)
    (hocc : lutGet (buildLutRows ((layout.count 'o' : Int)) (splitNl layout)) y x ≠ -1) :
    ((splitNl layout).getD y []).getD x ' ' = 'o' ∧
    x < ((splitNl layout).getD y []).length ∧
    lutGet (buildLutRows ((layout.count 'o' : Int)) (splitNl layout)) y x =
      (layout.count 'o' : Int) - 1 - (oPref (splitNl layout) y x : Int) := by
  set lines := splitNl layout with hdef
  have hne : lines ≠ [] := splitNl_ne_nil layout
  have hpos : 0 < lines.length := List.length_pos.mpr hne
  have hrowlen : ∀ z, z < lines.length → (lines.getD z []).length = (lines.headD []).length := by
    intro z hz
    have hmem : lines.getD z [] ∈ lines := by
      rw [List.getD_eq_getElem _ _ hz]
      exact List.getElem_mem hz
    exact lines_length_eq hlines _ hmem
  have hhead : ((buildLutRows ((layout.count 'o' : Int)) lines).headD []).length =
      (lines.headD []).length := by
    rw [headD_eq_getD_zero, buildLut_row_length hpos, ← headD_eq_getD_zero]
  have hx' : x < ((lines.getD y []).length) := by
    rw [hrowlen y hy]
    rw [hhead] at hx
    exact hx
  have hval := lutGet_buildLutRows lines ((layout.count 'o' : Int)) y x hy hx'
  rw [hval] at hocc ⊢
  split at hocc
  · rename_i hc
    rw [if_pos hc]
    exact ⟨hc, hx', rfl⟩
  · exact absurd rfl hocc

/-- C1: a matched move mask has exactly three bits, and applying the move
removes exactly one peg, whichever check mask triggered. -/
theorem claim_C1 {name layout : List Char} {dirs : List MoveDirections} {d : Description}
    (hok : mkDescription name layout dirs = Except.ok d)
    (field : State) (i : Nat) (hi : i < d.move_mask.length)
    (hcheck : field &&& d.move_mask.getD i 0 = d.check_mask1.getD i 0 ∨
              field &&& d.move_mask.getD i 0 = d.check_mask2.getD i 0) :
    popCount (d.move_mask.getD i 0) = 3 ∧
    popCount (field ^^^ d.move_mask.getD i 0) + 1 = popCount field := by
  obtain ⟨-, -, -, hpegs, -, -, -, hlines, hlut, hmm, hc1, hc2, -, -⟩ := mkDescription_ok hok
  have hi' : i < (moveDescriptors d.lut dirs).length := by
    rw [hmm, List.length_map] at hi
    exact hi
  set descs := moveDescriptors d.lut dirs with hdescs
  set de := descs.get ⟨i, hi'⟩ with hde
  have e1 : d.move_mask.getD i 0 = maskMove d.lut de := by
    rw [hmm, getD_map descs (maskMove d.lut) i hi']
  have e2 : d.check_mask1.getD i 0 = maskCheck1 d.lut de := by
    rw [hc1, getD_map descs (maskCheck1 d.lut) i hi']
  have e3 : d.check_mask2.getD i 0 = maskCheck2 d.lut de := by
    rw [hc2, getD_map descs (maskCheck2 d.lut) i hi']
  have hmem : de ∈ descs := by
    rw [hde]
    exact List.get_mem descs i hi'
  obtain ⟨hy, hx, hocc, -, hemit⟩ := moveDescriptors_mem hmem
  obtain ⟨-, -, -, hoff, hb1, hb2, hb3, hb4, hb5, hb6⟩ := emitCellDir_some hemit
  obtain ⟨hord1, hord2, -⟩ := dirOffsets_some hoff
  set lines := splitNl layout with hlinesdef
  have hlen : d.lut.length = lines.length := by
    rw [hlut]
    exact buildLutRows_length lines _
  have htot : (lines.map (·.count 'o')).sum = layout.count 'o' := splitNl_count layout
  rw [hlut] at hocc hb3 hb6
  have hcell0 := lut_cell_value hlines (hlen ▸ hy) (hlut ▸ hx) hocc
  have hcell1 := lut_cell_value hlines (hlen ▸ hb2) (hlut ▸ hb1) hb3
  have hcell2 := lut_cell_value hlines (hlen ▸ hb5) (hlut ▸ hb4) hb6
  obtain ⟨hch0, hxr0, hv0⟩ := hcell0
  obtain ⟨hch1, hxr1, hv1⟩ := hcell1
  obtain ⟨hch2, hxr2, hv2⟩ := hcell2
  have hp01 : oPref lines de.y de.x < oPref lines de.y1 de.x1 :=
    oPref_strict (hlen ▸ hy) hxr0 hch0 hord1
  have hp12 : oPref lines de.y1 de.x1 < oPref lines de.y2 de.x2 :=
    oPref_strict (hlen ▸ hb2) hxr1 hch1 hord2
  have hq0 : oPref lines de.y de.x < layout.count 'o' :=
    htot ▸ oPref_lt_total (hlen ▸ hy) hxr0 hch0
  have hq1 : oPref lines de.y1 de.x1 < layout.count 'o' :=
    htot ▸ oPref_lt_total (hlen ▸ hb2) hxr1 hch1
  have hq2 : oPref lines de.y2 de.x2 < layout.count 'o' :=
    htot ▸ oPref_lt_total (hlen ▸ hb5) hxr2 hch2
  set a : Int := lutGet d.lut de.y de.x with hadef
  set b : Int := lutGet d.lut de.y1 de.x1 with hbdef
  set c : Int := lutGet d.lut de.y2 de.x2 with hcdef
  have hva : a = (layout.count 'o' : Int) - 1 - (oPref lines de.y de.x : Int) := by
    rw [hadef, hlut]; exact hv0
  have hvb : b = (layout.count 'o' : Int) - 1 - (oPref lines de.y1 de.x1 : Int) := by
    rw [hbdef, hlut]; exact hv1
  have hvc : c = (layout.count 'o' : Int) - 1 - (oPref lines de.y2 de.x2 : Int) := by
    rw [hcdef, hlut]; exact hv2
  have hna : 0 ≤ a := by rw [hva]; omega
  have hnb : 0 ≤ b := by rw [hvb]; omega
  have hnc : 0 ≤ c := by rw [hvc]; omega
  have hab : a.toNat ≠ b.toNat := by rw [hva, hvb]; omega
  have hac : a.toNat ≠ c.toNat := by rw [hva, hvc]; omega
  have hbc : b.toNat ≠ c.toNat := by rw [hvb, hvc]; omega
  have hmask : maskMove d.lut de = 2 ^ a.toNat ||| 2 ^ b.toNat ||| 2 ^ c.toNat := by
    unfold maskMove
    rw [bitOf_nonneg hna, bitOf_nonneg hnb, bitOf_nonneg hnc]
  have hck1 : maskCheck1 d.lut de = 2 ^ a.toNat ||| 2 ^ b.toNat := by
    unfold maskCheck1
    rw [bitOf_nonneg hna, bitOf_nonneg hnb]
  have hck2 : maskCheck2 d.lut de = 2 ^ b.toNat ||| 2 ^ c.toNat := by
    unfold maskCheck2
    rw [bitOf_nonneg hnb, bitOf_nonneg hnc]
  have hpc3 : popCount (d.move_mask.getD i 0) = 3 := by
    rw [e1, hmask]
    exact popCount_three_bits hab hac hbc
  refine ⟨hpc3, ?_⟩
  rcases hcheck with hchk | hchk
  · have hpck : popCount (d.check_mask1.getD i 0) = 2 := by
      rw [e2, hck1]
      exact popCount_two_bits hab
    exact popCount_apply_move hpc3 hpck hchk
  · have hpck : popCount (d.check_mask2.getD i 0) = 2 := by
      rw [e3, hck2]
      exact popCount_two_bits hbc
    exact popCount_apply_move hpc3 hpck hchk

/-- The compiled description of the one-row board `"ooo"` with horizontal
moves, used as a concrete instance by witnesses. -/
def descOOO : Description :=
  { name := ['t', 'e', 's', 't']
    layout := ['o', 'o', 'o']
    directions := [MoveDirections.Horizontal]
    pegs := 3
    lut := [[2, 1, 0]]
    move_mask := [7]
    check_mask1 := [6]
    check_mask2 := [3]
    transformations := [[(0, 7)], [(-2, 4), (0, 2), (2, 1)], [(-2, 4), (0, 2), (2, 1)]] }

theorem mkDescription_descOOO :
    mkDescription ['t', 'e', 's', 't'] ['o', 'o', 'o'] [MoveDirections.Horizontal] =
      Except.ok descOOO := rfl

/-- Witness for C1: on the board `"ooo"`, state `0b110` matches the first
check mask of the single move, and applying the move goes to `0b001`. -/
theorem claim_C1_witness :
    mkDescription ['t', 'e', 's', 't'] ['o', 'o', 'o'] [MoveDirections.Horizontal] =
      Except.ok descOOO ∧
    0 < descOOO.move_mask.length ∧
    (6 &&& descOOO.move_mask.getD 0 0 = descOOO.check_mask1.getD 0 0 ∨
     6 &&& descOOO.move_mask.getD 0 0 = descOOO.check_mask2.getD 0 0) ∧
    (popCount (descOOO.move_mask.getD 0 0) = 3 ∧
     popCount (6 ^^^ descOOO.move_mask.getD 0 0) + 1 = popCount 6) := by
  have hok : mkDescription ['t', 'e', 's', 't'] ['o', 'o', 'o'] [MoveDirections.Horizontal] =
      Except.ok descOOO := mkDescription_descOOO
  have hi : 0 < descOOO.move_mask.length := by decide
  have hchk : (6 : Nat) &&& descOOO.move_mask.getD 0 0 = descOOO.check_mask1.getD 0 0 ∨
      (6 : Nat) &&& descOOO.move_mask.getD 0 0 = descOOO.check_mask2.getD 0 0 :=
    Or.inl (by decide)
  exact ⟨hok, hi, hchk, claim_C1 hok 6 0 hi hchk⟩

/-- The compiled description of the board `".ooo."` with horizontal moves. -/
def descDotOOO : Description :=
  { name := ['t', 'e', 's', 't']
    layout := ['.', 'o', 'o', 'o', '.']
    directions := [MoveDirections.Horizontal]
    pegs := 3
    lut := [[-1, 2, 1, 0, -1]]
    move_mask := [7]
    check_mask1 := [6]
    check_mask2 := [3]
    transformations := [[(0, 7)], [(-2, 4), (0, 2), (2, 1)], [(-2, 4), (0, 2), (2, 1)]] }

theorem mkDescription_descDotOOO :
    mkDescription ['t', 'e', 's', 't'] ['.', 'o', 'o', 'o', '.']
      [MoveDirections.Horizontal] = Except.ok descDotOOO := rfl

/-- C5 (counter-evidence): on the compiled `".ooo."` board, `from_vec` of an
array carrying a `1` at the blocked position `(0, 0)` does not raise; the
`case 1` branch shifts by the blocked lut value `-1`, which in BigInt
arithmetic is the silent no-op `1n << -1n = 0n`, and the call returns the
state `4` built from the remaining cells. -/
theorem claim_C5 :
    mkDescription ['t', 'e', 's', 't'] ['.', 'o', 'o', 'o', '.']
      [MoveDirections.Horizontal] = Except.ok descDotOOO ∧
    from_vec descDotOOO.lut [[1, 1, 0, 0, -1]] = Except.ok 4 :=
  ⟨mkDescription_descDotOOO, rfl⟩

/-! ### Codec round-trips -/

/-- The alphabet of layout characters. -/
def layoutChar (c : Char) : Prop := c = '.' ∨ c = 'o' ∨ c = '\n'

/-- The reverse scan of `from_string` without the trailing position check,
returning the final position together with the accumulated state. -/
def scanAux (pegs : Nat) : List Char → Nat → State → Except String (Nat × State)
  | [], pos, result => .ok (pos, result)
  | c :: cs, pos, result =>
    if pos > pegs then .error "invalid state"
    else if c = '\n' ∨ c = ' ' ∨ c = '\t' then scanAux pegs cs pos result
    else if c = 'x' then scanAux pegs cs (pos + 1) (result ||| (1 <<< pos))
    else if c = '.' then scanAux pegs cs (pos + 1) result
    else .error "invalid state"

theorem scanRev_eq_scanAux (pegs : Nat) (l : List Char) : ∀ (pos : Nat) (res : State),
    scanRev pegs l pos res =
      (scanAux pegs l pos res).bind
        (fun pr => if pr.1 > pegs then .error "invalid state" else .ok pr.2) := by
  induction l with
  | nil => intro pos res; rfl
  | cons c cs ih =>
    intro pos res
    rw [scanRev, scanAux]
    by_cases h1 : pos > pegs
    · rw [if_pos h1, if_pos h1]; rfl
    · rw [if_neg h1, if_neg h1]
      by_cases h2 : c = '\n' ∨ c = ' ' ∨ c = '\t'
      · rw [if_pos h2, if_pos h2, ih]
      · rw [if_neg h2, if_neg h2]
        by_cases h3 : c = 'x'
        · rw [if_pos h3, if_pos h3, ih]
        · rw [if_neg h3, if_neg h3]
          by_cases h4 : c = '.'
          · rw [if_pos h4, if_pos h4, ih]
          · rw [if_neg h4, if_neg h4]; rfl

theorem scanAux_append (pegs : Nat) (A : List Char) : ∀ (B : List Char) (pos : Nat) (res : State),
    scanAux pegs (A ++ B) pos res =
      (scanAux pegs A pos res).bind (fun pr => scanAux pegs B pr.1 pr.2) := by
  induction A with
  | nil => intro B pos res; rfl
  | cons c cs ih =>
    intro B pos res
    rw [List.cons_append, scanAux, scanAux]
    by_cases h1 : pos > pegs
    · rw [if_pos h1, if_pos h1]; rfl
    · rw [if_neg h1, if_neg h1]
      by_cases h2 : c = '\n' ∨ c = ' ' ∨ c = '\t'
      · rw [if_pos h2, if_pos h2, ih]
      · rw [if_neg h2, if_neg h2]
        by_cases h3 : c = 'x'
        · rw [if_pos h3, if_pos h3, ih]
        · rw [if_neg h3, if_neg h3]
          by_cases h4 : c = '.'
          · rw [if_pos h4, if_pos h4, ih]
          · rw [if_neg h4, if_neg h4]; rfl

theorem toStringChars_append (A : List Char) : ∀ (B : List Char) (p : Int) (s : State),
    toStringChars (A ++ B) p s =
      toStringChars A p s ++ toStringChars B (p - (A.count 'o' : Int)) s := by
  induction A with
  | nil => intro B p s; simp [toStringChars]
  | cons c cs ih =>
    intro B p s
    rw [List.cons_append]
    by_cases h1 : c = '.'
    · rw [toStringChars, if_pos h1, toStringChars, if_pos h1, ih,
        List.count_cons_of_ne (by simp [h1])]
      simp
    · by_cases h2 : c = '\n'
      · rw [toStringChars, if_neg h1, if_pos h2, toStringChars, if_neg h1, if_pos h2, ih,
          List.count_cons_of_ne (by simp [h2])]
        simp
      · by_cases h3 : c = 'o'
        · rw [toStringChars, if_neg h1, if_neg h2, if_pos h3, toStringChars,
            if_neg h1, if_neg h2, if_pos h3, ih, h3, List.count_cons_self]
          have : p - 1 - (cs.count 'o' : Int) = p - ((cs.count 'o' + 1 : Nat) : Int) := by
            push_cast; ring
          rw [this]
          simp
        · rw [toStringChars, if_neg h1, if_neg h2, if_neg h3, toStringChars,
            if_neg h1, if_neg h2, if_neg h3, ih,
            List.count_cons_of_ne (fun hh => h3 hh.symm)]

theorem jsShl_one_pred (p : Nat) (hp : 1 ≤ p) : jsShl 1 ((p : Int) - 1) = 2 ^ (p - 1) := by
  have h0 : (0 : Int) ≤ (p : Int) - 1 := by omega
  have h1 : (((p : Int) - 1)).toNat = p - 1 := by omega
  rw [jsShl, if_pos h0, h1, Nat.shiftLeft_eq, one_mul]

theorem and_two_pow_ne (s q : Nat) : (s &&& 2 ^ q ≠ 0) ↔ s.testBit q = true := by
  constructor
  · intro h
    by_contra hb
    apply h
    refine Nat.eq_of_testBit_eq fun i => ?_
    rw [Nat.testBit_and, Nat.zero_testBit, Nat.testBit_two_pow]
    by_cases hi : q = i
    · subst hi
      simp [Bool.eq_false_iff.mpr hb]
    · simp [hi]
  · intro h hz
    have := congrArg (Nat.testBit · q) hz
    simp only [Nat.testBit_and, Nat.testBit_two_pow, Nat.zero_testBit] at this
    rw [h] at this
    simp at this

theorem one_shiftLeft_testBit (q i : Nat) : (1 <<< q).testBit i = decide (q = i) := by
  rw [Nat.shiftLeft_eq, one_mul, Nat.testBit_two_pow]

theorem bit_assemble1 {res s q p : Nat} (hq : q < p) (hbit : s.testBit q = true) (i : Nat) :
    ((res ||| 1 <<< q).testBit i || (decide (q + 1 ≤ i) && decide (i < p) && s.testBit i)) =
    (res.testBit i || (decide (q ≤ i) && decide (i < p) && s.testBit i)) := by
  rw [Nat.testBit_or, one_shiftLeft_testBit]
  by_cases h : i = q
  · subst h
    simp [hbit, show i < p from hq]
  · have e1 : decide (q = i) = false := by simp [Ne.symm h]
    have e2 : decide (q + 1 ≤ i) = decide (q ≤ i) := by
      by_cases h2 : q ≤ i
      · have : q + 1 ≤ i := by omega
        simp [h2, this]
      · have : ¬(q + 1 ≤ i) := by omega
        simp [h2, this]
    rw [e1, e2]
    simp

theorem bit_assemble2 {res s q p : Nat} (hq : q < p) (hbit : s.testBit q = false) (i : Nat) :
    (res.testBit i || (decide (q + 1 ≤ i) && decide (i < p) && s.testBit i)) =
    (res.testBit i || (decide (q ≤ i) && decide (i < p) && s.testBit i)) := by
  by_cases h : i = q
  · subst h
    simp [hbit]
  · have e2 : decide (q + 1 ≤ i) = decide (q ≤ i) := by
      by_cases h2 : q ≤ i
      · have : q + 1 ≤ i := by omega
        simp [h2, this]
      · have : ¬(q + 1 ≤ i) := by omega
        simp [h2, this]
    rw [e2]


theorem scanAux_skip {pegs : Nat} {c : Char} (hc : c = '\n' ∨ c = ' ' ∨ c = '\t')
    (cs : List Char) (pos : Nat) (res : State) (hpos : ¬(pos > pegs)) :
    scanAux pegs (c :: cs) pos res = scanAux pegs cs pos res := by
  rw [scanAux, if_neg hpos, if_pos hc]

theorem scanAux_x {pegs : Nat} (cs : List Char) (pos : Nat) (res : State)
    (hpos : ¬(pos > pegs)) :
    scanAux pegs ('x' :: cs) pos res = scanAux pegs cs (pos + 1) (res ||| (1 <<< pos)) := by
  rw [scanAux, if_neg hpos, if_neg (by decide), if_pos rfl]

theorem scanAux_dot {pegs : Nat} (cs : List Char) (pos : Nat) (res : State)
    (hpos : ¬(pos > pegs)) :
    scanAux pegs ('.' :: cs) pos res = scanAux pegs cs (pos + 1) res := by
  rw [scanAux, if_neg hpos, if_neg (by decide), if_neg (by decide), if_pos rfl]

/-- The reverse scan of the rendered characters of a layout chunk collects
exactly the bits of the state between the chunk's low and high positions. -/
theorem scanAux_emit (pegs s : Nat) (L : List Char) (hval : ∀ c ∈ L, layoutChar c) :
    ∀ p q res : Nat, L.count 'o' ≤ p → p ≤ pegs → q = p - L.count 'o' →
    ∃ r, scanAux pegs ((toStringChars L ((p : Int)) s).reverse) q res = .ok (p, r) ∧
      ∀ i, r.testBit i =
        (res.testBit i || (decide (q ≤ i) && decide (i < p) && s.testBit i)) := by
  induction L using List.reverseRecOn with
  | nil =>
    intro p q res hcnt hpegs hq
    have hqp : q = p := by simpa using hq
    refine ⟨res, by rw [hqp]; rfl, fun i => ?_⟩
    rw [hqp]
    by_cases h : i < p
    · have hnp : ¬(p ≤ i) := by omega
      simp [hnp]
    · simp [h]
  | append_singleton L' c ih =>
    intro p q res hcnt hpegs hq
    have hvalL : ∀ x ∈ L', layoutChar x := fun x hx => hval x (List.mem_append_left _ hx)
    have hvalc : layoutChar c := hval c (List.mem_append_right _ (List.mem_cons_self c []))
    rw [toStringChars_append]
    set k := L'.count 'o' with hk
    rcases hvalc with hc | hc | hc
    · subst hc
      have hcount : (L' ++ ['.']).count 'o' = k := by
        rw [List.count_append]
        simp
      rw [hcount] at hcnt hq
      have hqle : ¬(q > pegs) := by omega
      have hemit : toStringChars ['.'] ((p : Int) - (k : Int)) s = [' '] := rfl
      have hstep : scanAux pegs [' '] q res = .ok (q, res) :=
        scanAux_skip (Or.inr (Or.inl rfl)) [] q res hqle
      rw [hemit, List.reverse_append, List.reverse_singleton, scanAux_append, hstep]
      obtain ⟨r, hr, hb⟩ := ih hvalL p q res hcnt hpegs hq
      exact ⟨r, hr, hb⟩
    · subst hc
      have hcount : (L' ++ ['o']).count 'o' = k + 1 := by
        rw [List.count_append]
        simp
      rw [hcount] at hcnt hq
      have hqlt : q < p := by omega
      have hqle : ¬(q > pegs) := by omega
      have hple : (1 : Nat) ≤ p - k := by omega
      have hjs : jsShl 1 ((p : Int) - (k : Int) - 1) = 2 ^ q := by
        have hbitpos : (p : Int) - (k : Int) - 1 = (((p - k : Nat) : Int)) - 1 := by omega
        rw [hbitpos, jsShl_one_pred (p - k) hple]
        have hpk : p - k - 1 = q := by omega
        rw [hpk]
      have hemit : toStringChars ['o'] ((p : Int) - (k : Int)) s =
          [if s &&& 2 ^ q ≠ 0 then 'x' else '.'] := by
        simp only [toStringChars, if_true]
        rw [hjs]
        rw [if_neg (show ¬('o' = '.') by decide), if_neg (show ¬('o' = '\n') by decide)]
      rw [hemit, List.reverse_append, List.reverse_singleton]
      by_cases hbit : s.testBit q = true
      · have hcond : s &&& 2 ^ q ≠ 0 := (and_two_pow_ne s q).mpr hbit
        rw [if_pos hcond]
        have hstep : scanAux pegs ['x'] q res = .ok (q + 1, res ||| (1 <<< q)) :=
          scanAux_x [] q res hqle
        rw [scanAux_append, hstep]
        obtain ⟨r, hr, hb⟩ := ih hvalL p (q + 1) (res ||| (1 <<< q)) (by omega) hpegs
          (by omega)
        refine ⟨r, hr, fun i => ?_⟩
        rw [hb i]
        exact bit_assemble1 hqlt hbit i
      · have hbit' : s.testBit q = false := Bool.eq_false_iff.mpr hbit
        have hcond : ¬(s &&& 2 ^ q ≠ 0) := fun hcc => hbit ((and_two_pow_ne s q).mp hcc)
        rw [if_neg hcond]
        have hstep : scanAux pegs ['.'] q res = .ok (q + 1, res) :=
          scanAux_dot [] q res hqle
        rw [scanAux_append, hstep]
        obtain ⟨r, hr, hb⟩ := ih hvalL p (q + 1) res (by omega) hpegs (by omega)
        refine ⟨r, hr, fun i => ?_⟩
        rw [hb i]
        exact bit_assemble2 hqlt hbit' i
    · subst hc
      have hcount : (L' ++ ['\n']).count 'o' = k := by
        rw [List.count_append]
        simp
      rw [hcount] at hcnt hq
      have hqle : ¬(q > pegs) := by omega
      have hemit : toStringChars ['\n'] ((p : Int) - (k : Int)) s = ['\n'] := rfl
      have hstep : scanAux pegs ['\n'] q res = .ok (q, res) :=
        scanAux_skip (Or.inl rfl) [] q res hqle
      rw [hemit, List.reverse_append, List.reverse_singleton, scanAux_append, hstep]
      obtain ⟨r, hr, hb⟩ := ih hvalL p q res hcnt hpegs hq
      exact ⟨r, hr, hb⟩

theorem toStringChars_length (L : List Char) (hval : ∀ c ∈ L, layoutChar c) :
    ∀ (p : Int) (s : State), (toStringChars L p s).length = L.length := by
  induction L with
  | nil => intro p s; rfl
  | cons c cs ih =>
    intro p s
    have hvalcs : ∀ x ∈ cs, layoutChar x := fun x hx => hval x (List.mem_cons_of_mem c hx)
    rcases hval c (List.mem_cons_self c cs) with hc | hc | hc <;> subst hc <;>
      simp [toStringChars, ih hvalcs]

theorem toStringChars_zip (L : List Char) (hval : ∀ c ∈ L, layoutChar c) :
    ∀ (p : Int) (s : State),
    ((L.zip (toStringChars L p s)).all fun pr =>
      if pr.1 = 'o' then pr.2 == 'x' || pr.2 == '.'
      else if pr.1 = '.' then pr.2 == ' '
      else if pr.1 = '\n' then pr.2 == '\n'
      else false) = true := by
  induction L with
  | nil => intro p s; rfl
  | cons c cs ih =>
    intro p s
    have hvalcs : ∀ x ∈ cs, layoutChar x := fun x hx => hval x (List.mem_cons_of_mem c hx)
    rcases hval c (List.mem_cons_self c cs) with hc | hc | hc <;> subst hc
    · have ihx := ih hvalcs p s
      simp [toStringChars] at ihx ⊢
      exact ihx
    · by_cases hbit : s &&& jsShl 1 (p - 1) ≠ 0
      · have ihx := ih hvalcs (p - 1) s
        simp [toStringChars, hbit] at ihx ⊢
        exact ihx
      · have ihx := ih hvalcs (p - 1) s
        simp [toStringChars, hbit] at ihx ⊢
        exact ihx
    · have ihx := ih hvalcs p s
      simp [toStringChars] at ihx ⊢
      exact ihx

/-- Rendering a representable state and parsing it back returns the state:
the `from_string (to_string s) = s` round trip. -/
theorem from_string_to_string {layout : List Char} (hval : ∀ c ∈ layout, layoutChar c)
    {s : State} (hs : s < 2 ^ layout.count 'o') :
    (to_string (layout.count 'o') layout s).bind (from_string (layout.count 'o') layout) =
      .ok s := by
  have hp2 : 0 < 2 ^ layout.count 'o' := Nat.two_pow_pos _
  have hcond : ¬(layout.count 'o' < 64 ∧ s > 2 ^ layout.count 'o' - 1) := by
    rintro ⟨-, h2⟩
    exact absurd h2 (not_lt.mpr (Nat.le_pred_of_lt hs))
  rw [to_string, if_neg hcond]
  show from_string (layout.count 'o') layout
    (toStringChars layout ((layout.count 'o' : Int)) s) = .ok s
  rw [from_string]
  rw [if_neg (by rw [toStringChars_length layout hval]; omega)]
  rw [if_neg (fun hc => hc (toStringChars_zip layout hval _ s))]
  rw [scanRev_eq_scanAux]
  obtain ⟨r, hr, hb⟩ := scanAux_emit (layout.count 'o') s layout hval (layout.count 'o') 0 0
    (Nat.le_refl _) (Nat.le_refl _) (by omega)
  rw [hr]
  have hlt : ¬(layout.count 'o' > layout.count 'o') := by omega
  show (if layout.count 'o' > layout.count 'o' then
      (Except.error "invalid state" : Except String State) else .ok r) = .ok s
  rw [if_neg hlt]
  have hrs : r = s := by
    refine Nat.eq_of_testBit_eq fun i => ?_
    rw [hb i, Nat.zero_testBit]
    by_cases hi : i < layout.count 'o'
    · simp [Nat.zero_le, hi]
    · have hsi : s.testBit i = false := by
        refine Nat.testBit_eq_false_of_lt (lt_of_lt_of_le hs ?_)
        exact Nat.pow_le_pow_right (by norm_num) (by omega)
      simp [hi, hsi]
  rw [hrs]

/-- The descending run `[c-1, c-2, ..., c-k]` of lut values. -/
def descRange (c : Int) : Nat → List Int
  | 0 => []
  | k + 1 => (c - 1) :: descRange (c - 1) k

theorem descRange_append (k1 : Nat) : ∀ (c : Int) (k2 : Nat),
    descRange c (k1 + k2) = descRange c k1 ++ descRange (c - (k1 : Int)) k2 := by
  induction k1 with
  | zero => intro c k2; simp [descRange]
  | succ k ih =>
    intro c k2
    have : k + 1 + k2 = (k + k2) + 1 := by omega
    rw [this, descRange, descRange, ih (c - 1) k2, List.cons_append]
    have : c - 1 - (k : Int) = c - ((k + 1 : Nat) : Int) := by push_cast; ring
    rw [this]

theorem descRange_mem {c : Int} {k : Nat} {v : Int} :
    v ∈ descRange c k → c - (k : Int) ≤ v ∧ v ≤ c - 1 := by
  induction k generalizing c with
  | zero => intro h; simp [descRange] at h
  | succ k ih =>
    intro h
    rw [descRange, List.mem_cons] at h
    rcases h with rfl | h
    · constructor <;> [push_cast; skip] <;> omega
    · have := ih h
      push_cast at this ⊢
      omega

theorem lutRow_filter (line : List Char) : ∀ pos : Int, ((line.count 'o' : Int)) ≤ pos →
    (lutRow pos line).1.filter (fun v => decide (v ≠ -1)) =
      descRange pos (line.count 'o') := by
  induction line with
  | nil => intro pos h; simp [lutRow, descRange]
  | cons c cs ih =>
    intro pos h
    by_cases hc : c = 'o'
    · subst hc
      rw [List.count_cons_self] at h ⊢
      have h1 : ((cs.count 'o' : Int)) ≤ pos - 1 := by push_cast at h ⊢; omega
      have hne : pos - 1 ≠ -1 := by
        have : (0 : Int) ≤ (cs.count 'o' : Int) := by positivity
        omega
      simp only [lutRow, eq_self_iff_true, if_true]
      rw [List.filter_cons, if_pos (by simpa using hne), descRange, ih (pos - 1) h1]
    · rw [List.count_cons_of_ne (Ne.symm hc)] at h ⊢
      simp only [lutRow, if_neg hc]
      rw [List.filter_cons, if_neg (by simp), ih pos h]

theorem buildLut_filter (lines : List (List Char)) : ∀ pos : Int,
    (((lines.map (·.count 'o')).sum : Int)) ≤ pos →
    (buildLutRows pos lines).flatten.filter (fun v => decide (v ≠ -1)) =
      descRange pos ((lines.map (·.count 'o')).sum) := by
  induction lines with
  | nil => intro pos h; simp [buildLutRows, descRange]
  | cons l ls ih =>
    intro pos h
    simp only [List.map_cons, List.sum_cons] at h ⊢
    have hs0 : (0 : Int) ≤ (ls.map (fun x => ((x.count 'o' : Int)))).sum := by
      refine List.sum_nonneg ?_
      intro x hx
      simp only [List.mem_map] at hx
      obtain ⟨z, -, rfl⟩ := hx
      positivity
    have hc0 : (0 : Int) ≤ ((l.count 'o' : Int)) := by positivity
    have h' := h
    have h1 : ((l.count 'o' : Int)) ≤ pos := by omega
    have h2 : (((ls.map (·.count 'o')).sum : Int)) ≤ pos - (l.count 'o' : Int) := by omega
    simp only [buildLutRows, List.flatten_cons, List.filter_append]
    rw [lutRow_filter l pos h1, lutRow_snd, ih _ h2, ← descRange_append]

/-- The per-cell map of `to_vec`. -/
def vecF (s : State) (v : Int) : Int :=
  if v = -1 then -1 else if s &&& jsShl 1 v = 0 then 0 else 1

/-- Accumulate the bit of one occupiable, occupied cell. -/
def orBit (s : State) (acc : Nat) (v : Int) : Nat :=
  if 0 ≤ v ∧ s.testBit v.toNat then acc ||| 2 ^ v.toNat else acc

theorem to_vec_eq_map {pegs : Nat} {lut : Lut} {s : State} (hs : s < 2 ^ pegs) :
    to_vec pegs lut s = Except.ok (lut.map (List.map (vecF s))) := by
  have hp2 : 0 < 2 ^ pegs := Nat.two_pow_pos _
  have hcond : ¬(pegs < 64 ∧ s > 2 ^ pegs - 1) := by
    rintro ⟨-, h2⟩
    exact absurd h2 (not_lt.mpr (Nat.le_pred_of_lt hs))
  rw [to_vec, if_neg hcond]
  rfl

theorem foldlM_range_shift {β : Type} (step : β → Nat → Except String β) (n : Nat) (b : β) :
    (List.range (n + 1)).foldlM step b =
      (step b 0).bind (fun b2 => (List.range n).foldlM (fun acc x => step acc (x + 1)) b2) := by
  rw [List.range_succ_eq_map, List.foldlM_cons]
  simp only [List.foldlM_map, Nat.succ_eq_add_one]
  rfl

theorem fv_row (s : State) (row : List Int) : ∀ (W r : Nat), W = row.length →
    (∀ v ∈ row, v = -1 ∨ 0 ≤ v) →
    (List.range W).foldlM (fun acc x =>
      fromVecCell (row.getD x (-1)) ((row.map (vecF s)).getD x 2) acc) r
    = Except.ok (row.foldl (orBit s) r) := by
  induction row with
  | nil =>
    intro W r hw _
    subst hw
    rfl
  | cons v rest ih =>
    intro W r hw h
    subst hw
    rw [show (v :: rest).length = rest.length + 1 from rfl, foldlM_range_shift]
    have hv := h v (List.mem_cons_self v rest)
    have hstep : fromVecCell ((v :: rest).getD 0 (-1)) (((v :: rest).map (vecF s)).getD 0 2) r
        = Except.ok (orBit s r v) := by
      rcases hv with rfl | hv
      · simp [fromVecCell, vecF, orBit]
      · have hne : v ≠ -1 := by omega
        have hpow : jsShl 1 v = 2 ^ v.toNat := bitOf_nonneg hv
        by_cases hbit : s &&& jsShl 1 v = 0
        · have hb : s.testBit v.toNat = false := by
            rw [hpow] at hbit
            by_contra hb
            have := (and_two_pow_ne s v.toNat).mpr (Bool.of_not_eq_false hb)
            exact this hbit
          simp [fromVecCell, vecF, hne, hbit, orBit, hb, hv]
        · have hbit2 : ¬(s &&& 2 ^ v.toNat = 0) := by
            rw [← hpow]
            exact hbit
          have hb : s.testBit v.toNat = true := (and_two_pow_ne s v.toNat).mp hbit2
          simp [fromVecCell, vecF, hne, hbit, hbit2, orBit, hb, hv, hpow]
    rw [hstep]
    show (List.range rest.length).foldlM (fun acc x =>
      fromVecCell ((v :: rest).getD (x + 1) (-1)) (((v :: rest).map (vecF s)).getD (x + 1) 2)
        acc) (orBit s r v) = _
    simp only [List.map_cons, List.getD_cons_succ]
    rw [ih rest.length (orBit s r v) rfl (fun z hz => h z (List.mem_cons_of_mem v hz))]
    rfl

theorem fv_outer (s : State) (W : Nat) (lut : Lut) : ∀ (r : Nat),
    (∀ row ∈ lut, row.length = W) → (∀ row ∈ lut, ∀ v ∈ row, v = -1 ∨ 0 ≤ v) →
    (List.range lut.length).foldlM (fun acc y =>
      (List.range W).foldlM (fun acc2 x =>
        fromVecCell (lutGet lut y x)
          (((lut.map (List.map (vecF s))).getD y []).getD x 2) acc2) acc) r
    = Except.ok (lut.flatten.foldl (orBit s) r) := by
  induction lut with
  | nil =>
    intro r _ _
    rfl
  | cons l0 lR ih =>
    intro r hW hpos
    have e0 : ((l0 :: lR).map (List.map (vecF s))).getD 0 [] = l0.map (vecF s) := rfl
    have eS : ∀ y, ((l0 :: lR).map (List.map (vecF s))).getD (y + 1) [] =
        (lR.map (List.map (vecF s))).getD y [] := fun y => rfl
    have eL : ∀ y x, lutGet (l0 :: lR) (y + 1) x = lutGet lR y x := fun y x => rfl
    have eL0 : ∀ x, lutGet (l0 :: lR) 0 x = l0.getD x (-1) := fun x => rfl
    rw [show (l0 :: lR).length = lR.length + 1 from rfl, foldlM_range_shift]
    have hW0 : l0.length = W := hW l0 (List.mem_cons_self l0 lR)
    have hstep : (List.range W).foldlM (fun acc2 x =>
        fromVecCell (lutGet (l0 :: lR) 0 x)
          ((((l0 :: lR).map (List.map (vecF s))).getD 0 []).getD x 2) acc2) r
        = Except.ok (l0.foldl (orBit s) r) := by
      simp only [e0, eL0]
      exact fv_row s l0 W r hW0.symm (hpos l0 (List.mem_cons_self l0 lR))
    rw [hstep]
    show (List.range lR.length).foldlM (fun acc y =>
      (List.range W).foldlM (fun acc2 x =>
        fromVecCell (lutGet (l0 :: lR) (y + 1) x)
          ((((l0 :: lR).map (List.map (vecF s))).getD (y + 1) []).getD x 2) acc2) acc)
      (l0.foldl (orBit s) r) = _
    simp only [eS, eL]
    rw [ih (l0.foldl (orBit s) r) (fun z hz => hW z (List.mem_cons_of_mem l0 hz))
      (fun z hz => hpos z (List.mem_cons_of_mem l0 hz))]
    rw [List.flatten_cons, List.foldl_append]

theorem from_vec_map (s : State) (lut : Lut)
    (hW : ∀ row ∈ lut, row.length = (lut.headD []).length)
    (hpos : ∀ row ∈ lut, ∀ v ∈ row, v = -1 ∨ 0 ≤ v) :
    from_vec lut (lut.map (List.map (vecF s))) =
      Except.ok (lut.flatten.foldl (orBit s) 0) := by
  cases lut with
  | nil => rfl
  | cons l0 lR =>
    unfold from_vec
    have hlen : ((l0 :: lR).map (List.map (vecF s))).length = (l0 :: lR).length := by
      rw [List.length_map]
    have hhead : ((((l0 :: lR).map (List.map (vecF s))).headD []).length) = l0.length := by
      rw [List.map_cons, List.headD_cons, List.length_map]
    rw [hlen, hhead]
    have hW' : ∀ row ∈ (l0 :: lR), row.length = l0.length := by
      intro row hrow
      rw [hW row hrow]
      rfl
    exact fv_outer s l0.length (l0 :: lR) 0 hW' hpos

theorem foldl_orBit_filter (s : State) (l : List Int) : ∀ acc : Nat,
    (∀ v ∈ l, v = -1 ∨ 0 ≤ v) →
    l.foldl (orBit s) acc = (l.filter (fun v => decide (v ≠ -1))).foldl (orBit s) acc := by
  induction l with
  | nil => intro acc _; rfl
  | cons v rest ih =>
    intro acc h
    rcases h v (List.mem_cons_self v rest) with rfl | hv
    · have : orBit s acc (-1) = acc := by simp [orBit]
      rw [List.foldl_cons, this, List.filter_cons, if_neg (by simp)]
      exact ih acc (fun z hz => h z (List.mem_cons_of_mem _ hz))
    · have hne : v ≠ -1 := by omega
      rw [List.foldl_cons, List.filter_cons, if_pos (by simpa using hne), List.foldl_cons]
      exact ih (orBit s acc v) (fun z hz => h z (List.mem_cons_of_mem v hz))

theorem bit_assemble3 {acc s : Nat} {c lo : Nat} (hc : 1 ≤ c) (hlo : lo ≤ c - 1)
    (hbit : s.testBit (c - 1) = true) (i : Nat) :
    ((acc ||| 2 ^ (c - 1)).testBit i ||
      (decide (lo ≤ i) && decide (i < c - 1) && s.testBit i)) =
    (acc.testBit i || (decide (lo ≤ i) && decide (i < c) && s.testBit i)) := by
  rw [Nat.testBit_or, Nat.testBit_two_pow]
  by_cases h : i = c - 1
  · subst h
    simp [hbit, hlo, show c - 1 < c by omega]
  · have e1 : decide (c - 1 = i) = false := by simp [Ne.symm h]
    have e2 : decide (i < c - 1) = decide (i < c) := by
      by_cases h2 : i < c - 1
      · simp [h2, show i < c by omega]
      · simp [h2, show ¬(i < c) by omega]
    rw [e1, e2]
    simp

theorem bit_assemble4 {acc s : Nat} {c lo : Nat} (hc : 1 ≤ c)
    (hbit : s.testBit (c - 1) = false) (i : Nat) :
    (acc.testBit i || (decide (lo ≤ i) && decide (i < c - 1) && s.testBit i)) =
    (acc.testBit i || (decide (lo ≤ i) && decide (i < c) && s.testBit i)) := by
  by_cases h : i = c - 1
  · subst h
    simp [hbit]
  · have e2 : decide (i < c - 1) = decide (i < c) := by
      by_cases h2 : i < c - 1
      · simp [h2, show i < c by omega]
      · simp [h2, show ¬(i < c) by omega]
    rw [e2]

theorem orBit_descRange (s : State) : ∀ (k c acc : Nat), k ≤ c →
    ∃ r, (descRange ((c : Int)) k).foldl (orBit s) acc = r ∧
      ∀ i, r.testBit i =
        (acc.testBit i || (decide (c - k ≤ i) && decide (i < c) && s.testBit i)) := by
  intro k
  induction k with
  | zero =>
    intro c acc _
    refine ⟨acc, rfl, fun i => ?_⟩
    by_cases h : i < c
    · simp [show ¬(c ≤ i) by omega]
    · simp [h]
  | succ k ih =>
    intro c acc hkc
    have hc1 : 1 ≤ c := by omega
    have hcast : ((c : Int)) - 1 = (((c - 1 : Nat)) : Int) := by omega
    have htn : (((c : Int)) - 1).toNat = c - 1 := by omega
    rw [descRange, List.foldl_cons]
    have hstep : orBit s acc ((c : Int) - 1) =
        (if s.testBit (c - 1) then acc ||| 2 ^ (c - 1) else acc) := by
      rw [orBit, htn]
      by_cases hb : s.testBit (c - 1) <;> simp [hb, show (0 : Int) ≤ (c : Int) - 1 by omega]
    rw [hstep, hcast]
    have hsub : c - (k + 1) = c - 1 - k := by omega
    by_cases hb : s.testBit (c - 1) = true
    · rw [if_pos hb]
      obtain ⟨r, hr, hbits⟩ := ih (c - 1) (acc ||| 2 ^ (c - 1)) (by omega)
      refine ⟨r, hr, fun i => ?_⟩
      rw [hbits i, hsub]
      exact bit_assemble3 hc1 (show c - 1 - k ≤ c - 1 by omega) hb i
    · have hb' : s.testBit (c - 1) = false := Bool.eq_false_iff.mpr hb
      rw [if_neg hb]
      obtain ⟨r, hr, hbits⟩ := ih (c - 1) acc (by omega)
      refine ⟨r, hr, fun i => ?_⟩
      rw [hbits i, hsub]
      exact bit_assemble4 hc1 hb' i

theorem lut_rows_length {layout : List Char}
    (hlines : reduceSame ((splitNl layout).map fun l => ((l.length : Int))) ≠ -1) :
    ∀ row ∈ buildLutRows ((layout.count 'o' : Int)) (splitNl layout),
      row.length = ((buildLutRows ((layout.count 'o' : Int)) (splitNl layout)).headD []).length := by
  set lines := splitNl layout with hdef
  have hpos : 0 < lines.length := List.length_pos.mpr (splitNl_ne_nil layout)
  have hrowlen : ∀ z, z < lines.length →
      (lines.getD z []).length = (lines.headD []).length := by
    intro z hz
    refine lines_length_eq hlines _ ?_
    rw [List.getD_eq_getElem _ _ hz]
    exact List.getElem_mem hz
  have hlen : (buildLutRows ((layout.count 'o' : Int)) lines).length = lines.length :=
    buildLutRows_length lines _
  have hhead : ((buildLutRows ((layout.count 'o' : Int)) lines).headD []).length =
      (lines.headD []).length := by
    rw [headD_eq_getD_zero, buildLut_row_length hpos, ← headD_eq_getD_zero]
  intro row hrow
  obtain ⟨y, hy, hrowy⟩ := List.mem_iff_getElem.mp hrow
  rw [hhead, ← hrowy]
  rw [← List.getD_eq_getElem _ [] (by omega), buildLut_row_length (by omega)]
  exact hrowlen y (by omega)

theorem lut_entries_wf (layout : List Char) :
    ∀ row ∈ buildLutRows ((layout.count 'o' : Int)) (splitNl layout),
      ∀ v ∈ row, v = -1 ∨ 0 ≤ v := by
  set lines := splitNl layout with hdef
  have hsum : ((lines.map (·.count 'o')).sum) = layout.count 'o' := splitNl_count layout
  have hsumInt : (lines.map (fun x => ((x.count 'o' : Int)))).sum = ((layout.count 'o' : Int)) := by
    rw [← hsum, Nat.cast_list_sum, List.map_map]
    rfl
  have hfl := buildLut_filter lines ((layout.count 'o' : Int)) (le_of_eq hsumInt)
  intro row hrow v hv
  by_cases hne : v = -1
  · exact Or.inl hne
  · refine Or.inr ?_
    have hmem : v ∈ (buildLutRows ((layout.count 'o' : Int)) lines).flatten :=
      List.mem_flatten.mpr ⟨row, hrow, hv⟩
    have hmemf : v ∈ (buildLutRows ((layout.count 'o' : Int)) lines).flatten.filter
        (fun z => decide (z ≠ -1)) :=
      List.mem_filter.mpr ⟨hmem, by simpa using hne⟩
    rw [hfl] at hmemf
    have := (descRange_mem hmemf).1
    rw [hsum] at this
    omega

/-- Building the vec of a representable state and folding it back yields
the state: the `from_vec (to_vec s) = s` round trip. -/
theorem from_vec_to_vec {layout : List Char}
    (hlines : reduceSame ((splitNl layout).map fun l => ((l.length : Int))) ≠ -1)
    {s : State} (hs : s < 2 ^ layout.count 'o') :
    (to_vec (layout.count 'o') (buildLutRows ((layout.count 'o' : Int)) (splitNl layout)) s).bind
      (from_vec (buildLutRows ((layout.count 'o' : Int)) (splitNl layout))) = .ok s := by
  set lines := splitNl layout with hdef
  set lut := buildLutRows ((layout.count 'o' : Int)) lines with hlutdef
  rw [to_vec_eq_map hs]
  show from_vec lut (lut.map (List.map (vecF s))) = .ok s
  rw [from_vec_map s lut (lut_rows_length hlines) (lut_entries_wf layout)]
  have hsum : ((lines.map (·.count 'o')).sum) = layout.count 'o' := splitNl_count layout
  have hsumInt : (lines.map (fun x => ((x.count 'o' : Int)))).sum = ((layout.count 'o' : Int)) := by
    rw [← hsum, Nat.cast_list_sum, List.map_map]
    rfl
  have hfl := buildLut_filter lines ((layout.count 'o' : Int)) (le_of_eq hsumInt)
  have hwf : ∀ v ∈ lut.flatten, v = -1 ∨ 0 ≤ v := by
    intro v hv
    obtain ⟨row, hrow, hvr⟩ := List.mem_flatten.mp hv
    exact lut_entries_wf layout row hrow v hvr
  rw [foldl_orBit_filter s lut.flatten 0 hwf, hfl, hsum]
  obtain ⟨r, hr, hbits⟩ := orBit_descRange s (layout.count 'o') (layout.count 'o') 0
    (Nat.le_refl _)
  rw [hr]
  have hrs : r = s := by
    refine Nat.eq_of_testBit_eq fun i => ?_
    rw [hbits i, Nat.zero_testBit]
    by_cases hi : i < layout.count 'o'
    · simp [Nat.zero_le, hi]
    · have hsi : s.testBit i = false := by
        refine Nat.testBit_eq_false_of_lt (lt_of_lt_of_le hs ?_)
        exact Nat.pow_le_pow_right (by norm_num) (by omega)
      simp [hi, hsi]
  rw [hrs]

/-- C3: both codec round trips, `from_string (to_string s) = s` and
`from_vec (to_vec s) = s`, hold without error for every representable
state of a compiled description. -/
theorem claim_C3 {name layout : List Char} {dirs : List MoveDirections} {d : Description}
    (hok : mkDescription name layout dirs = Except.ok d)
    (s : State) (hs : s < 2 ^ d.pegs) :
    (to_string d.pegs d.layout s).bind (from_string d.pegs d.layout) = .ok s ∧
    (to_vec d.pegs d.lut s).bind (from_vec d.lut) = .ok s := by
  obtain ⟨-, hlay, -, hpegs, -, -, hall, hlines, hlut, -, -, -, -, -⟩ := mkDescription_ok hok
  have hval : ∀ c ∈ layout, layoutChar c := by
    intro c hc
    have h2 := List.all_eq_true.mp hall c hc
    simp only [Bool.or_eq_true, beq_iff_eq] at h2
    unfold layoutChar
    tauto
  rw [hlay, hpegs, hlut]
  rw [hpegs] at hs
  exact ⟨from_string_to_string hval hs, from_vec_to_vec hlines hs⟩

/-- Witness for C3 on the `"ooo"` board at state `0b101`. -/
theorem claim_C3_witness :
    mkDescription ['t', 'e', 's', 't'] ['o', 'o', 'o'] [MoveDirections.Horizontal] =
      Except.ok descOOO ∧
    (5 : State) < 2 ^ descOOO.pegs ∧
    ((to_string descOOO.pegs descOOO.layout 5).bind (from_string descOOO.pegs descOOO.layout) =
        .ok 5 ∧
     (to_vec descOOO.pegs descOOO.lut 5).bind (from_vec descOOO.lut) = .ok 5) := by
  have hok : mkDescription ['t', 'e', 's', 't'] ['o', 'o', 'o'] [MoveDirections.Horizontal] =
      Except.ok descOOO := mkDescription_descOOO
  have hs : (5 : State) < 2 ^ descOOO.pegs := by decide
  exact ⟨hok, hs, claim_C3 hok 5 hs⟩

/-! ### BoardSet probe correctness -/

theorem and_mask_mod (x k : Nat) : x &&& (2 ^ k - 1) = x % 2 ^ k := by
  refine Nat.eq_of_testBit_eq fun i => ?_
  rw [Nat.testBit_and, Nat.testBit_mod_two_pow, Nat.testBit_two_pow_sub_one]
  rw [Bool.and_comm]

/-- Number of non-sentinel entries of a backing array. -/
def nzCount (data : List Nat) : Nat := (data.filter (fun v => decide (v ≠ 0))).length

/-- The hash index of a value in a backing array. -/
def hIdx (data : List Nat) (value : Nat) : Nat :=
  (value * 0x85ebca6b ^^^ ((value * 0x85ebca6b) >>> 13)) &&& (data.length - 1)

theorem get_index_eq (b : BoardSet) (v : Nat) :
    b.get_index_from_state v = hIdx b.data v := rfl

theorem hIdx_lt {data : List Nat} {k : Nat} (hcap : data.length = 2 ^ k) (v : Nat) :
    hIdx data v < data.length := by
  rw [hIdx, hcap, and_mask_mod]
  exact Nat.mod_lt _ (Nat.two_pow_pos k)

theorem mod_cycle {cap i j : Nat} (hi : i < cap) (hj : j < cap) :
    (i + (j + cap - i) % cap) % cap = j := by
  rw [Nat.add_mod_mod]
  have h1 : i + (j + cap - i) = j + cap := by omega
  rw [h1, Nat.add_mod_right]
  exact Nat.mod_eq_of_lt hj

theorem probeFind_sound (data : List Nat) (o : Nat) {k : Nat} (hcap : data.length = 2 ^ k) :
    ∀ fuel i, i < data.length →
    (∀ j, BoardSet.probeFind data o fuel i = some j →
      (data.getD j 0 = 0 ∨ o = data.getD j 0) ∧
      ∃ t, t < fuel ∧ j = (i + t) % data.length ∧
        ∀ u, u < t → ¬(data.getD ((i + u) % data.length) 0 = 0 ∨
          o = data.getD ((i + u) % data.length) 0)) ∧
    (BoardSet.probeFind data o fuel i = none →
      ∀ t, t < fuel → ¬(data.getD ((i + t) % data.length) 0 = 0 ∨
        o = data.getD ((i + t) % data.length) 0)) := by
  have hpos : 0 < data.length := by rw [hcap]; exact Nat.two_pow_pos k
  intro fuel
  induction fuel with
  | zero =>
    intro i _
    constructor
    · intro j hj
      exact absurd hj (by rw [BoardSet.probeFind]; simp)
    · intro _ t ht
      omega
  | succ fuel ih =>
    intro i hi
    have hstep : (i + 1) &&& (data.length - 1) = (i + 1) % data.length := by
      rw [hcap, and_mask_mod]
    have hstep_lt : (i + 1) % data.length < data.length := Nat.mod_lt _ hpos
    have hshift : ∀ t, ((i + 1) % data.length + t) % data.length =
        (i + (t + 1)) % data.length := by
      intro t
      rw [Nat.mod_add_mod]
      congr 1
      omega
    by_cases hcond : data.getD i 0 = 0 ∨ o = data.getD i 0
    · constructor
      · intro j hj
        rw [BoardSet.probeFind, if_pos hcond] at hj
        rw [Option.some.injEq] at hj
        subst hj
        refine ⟨hcond, 0, by omega, ?_, ?_⟩
        · rw [Nat.add_zero, Nat.mod_eq_of_lt hi]
        · intro u hu
          omega
      · intro hnone
        rw [BoardSet.probeFind, if_pos hcond] at hnone
        exact absurd hnone (by simp)
    · have hrec := ih ((i + 1) % data.length) hstep_lt
      constructor
      · intro j hj
        rw [BoardSet.probeFind, if_neg hcond, hstep] at hj
        obtain ⟨hmatch, t, ht, hjeq, hpre⟩ := hrec.1 j hj
        rw [hshift t] at hjeq
        refine ⟨hmatch, t + 1, by omega, hjeq, ?_⟩
        intro u hu
        match u with
        | 0 =>
          rw [Nat.add_zero, Nat.mod_eq_of_lt hi]
          exact hcond
        | u + 1 =>
          rw [← hshift u]
          exact hpre u (by omega)
      · intro hnone t ht
        rw [BoardSet.probeFind, if_neg hcond, hstep] at hnone
        match t with
        | 0 =>
          rw [Nat.add_zero, Nat.mod_eq_of_lt hi]
          exact hcond
        | t + 1 =>
          rw [← hshift t]
          exact hrec.2 hnone t (by omega)

theorem probeFind_total (data : List Nat) (o : Nat) {k : Nat} (hcap : data.length = 2 ^ k)
    (i : Nat) (hi : i < data.length) (j : Nat) (hj : j < data.length)
    (hmatch : data.getD j 0 = 0 ∨ o = data.getD j 0) :
    ∃ jr, BoardSet.probeFind data o data.length i = some jr := by
  have hpos : 0 < data.length := by rw [hcap]; exact Nat.two_pow_pos k
  rcases hfind : BoardSet.probeFind data o data.length i with _ | jr
  · exfalso
    have hnone := (probeFind_sound data o hcap data.length i hi).2 hfind
    have ht : (j + data.length - i) % data.length < data.length := Nat.mod_lt _ hpos
    have := hnone ((j + data.length - i) % data.length) ht
    rw [mod_cycle hi hj] at this
    exact this hmatch
  · exact ⟨jr, rfl⟩

/-- Cyclic probe distance from `h` to `j` in a table of size `cap`. -/
def distC (cap h j : Nat) : Nat := (j + cap - h) % cap

theorem mod_inj {cap h t t' : Nat} (ht : t < cap) (ht' : t' < cap)
    (he : (h + t) % cap = (h + t') % cap) : t = t' := by
  rcases Nat.le_total t t' with hle | hle
  · have hmod : Nat.ModEq cap (h + t) (h + t') := he
    have hdvd : cap ∣ (h + t') - (h + t) := (Nat.modEq_iff_dvd' (by omega)).mp hmod
    have : (h + t') - (h + t) = t' - t := by omega
    rw [this] at hdvd
    rcases Nat.eq_zero_or_pos (t' - t) with hz | hp
    · omega
    · have := Nat.le_of_dvd hp hdvd
      omega
  · have hmod : Nat.ModEq cap (h + t') (h + t) := he.symm
    have hdvd : cap ∣ (h + t) - (h + t') := (Nat.modEq_iff_dvd' (by omega)).mp hmod
    have : (h + t) - (h + t') = t - t' := by omega
    rw [this] at hdvd
    rcases Nat.eq_zero_or_pos (t - t') with hz | hp
    · omega
    · have := Nat.le_of_dvd hp hdvd
      omega

theorem distC_lt {cap h j : Nat} (hc : 0 < cap) : distC cap h j < cap :=
  Nat.mod_lt _ hc

theorem distC_spec {cap h j : Nat} (hh : h < cap) (hj : j < cap) :
    (h + distC cap h j) % cap = j :=
  mod_cycle hh hj

theorem distC_unique {cap h j t : Nat} (hh : h < cap) (hj : j < cap) (ht : t < cap)
    (he : (h + t) % cap = j) : t = distC cap h j := by
  have h1 := distC_spec hh hj
  exact mod_inj ht (distC_lt (by omega)) (by rw [he, h1])

/-- The well-formedness invariant of a backing array: non-sentinel values
are pairwise distinct, and every stored value can be reached from its hash
index by a probe walk that meets no empty slot. -/
def TableWF (data : List Nat) : Prop :=
  (∀ i j, i < data.length → j < data.length → i ≠ j → data.getD i 0 ≠ 0 →
    data.getD i 0 ≠ data.getD j 0) ∧
  (∀ j, j < data.length → data.getD j 0 ≠ 0 →
    ∀ t, t < distC data.length (hIdx data (data.getD j 0)) j →
      data.getD ((hIdx data (data.getD j 0) + t) % data.length) 0 ≠ 0)

theorem exists_zero_slot : ∀ (data : List Nat), nzCount data < data.length →
    ∃ j, j < data.length ∧ data.getD j 0 = 0 := by
  intro data
  induction data with
  | nil => intro h; simp [nzCount] at h
  | cons d rest ih =>
    intro h
    by_cases hd : d = 0
    · exact ⟨0, by simp, by simp [hd]⟩
    · have : nzCount rest < rest.length := by
        simp only [nzCount, List.filter_cons, List.length_cons] at h ⊢
        rw [if_pos (by simpa using hd)] at h
        simpa using h
      obtain ⟨j, hj, hv⟩ := ih this
      exact ⟨j + 1, by simpa using hj, by simpa using hv⟩

theorem nz_set : ∀ (data : List Nat) (j v : Nat), j < data.length →
    data.getD j 0 = 0 → v ≠ 0 → nzCount (data.set j v) = nzCount data + 1 := by
  intro data
  induction data with
  | nil => intro j v h; simp at h
  | cons d rest ih =>
    intro j v hj h0 hv
    match j with
    | 0 =>
      simp only [List.getD_cons_zero] at h0
      subst h0
      simp only [List.set_cons_zero, nzCount, List.filter_cons]
      rw [if_pos (by simpa using hv), if_neg (by simp)]
      simp [nzCount]
    | j + 1 =>
      simp only [List.getD_cons_succ] at h0
      simp only [List.set_cons_succ, nzCount, List.filter_cons]
      have hrec := ih j v (by simpa using hj) h0 hv
      by_cases hd : d = 0
      · rw [if_neg (by simpa using hd), if_neg (by simpa using hd)]
        exact hrec
      · rw [if_pos (by simpa using hd), if_pos (by simpa using hd)]
        simp only [List.length_cons]
        simp only [nzCount] at hrec
        omega

theorem getD_set_self {l : List Nat} {i : Nat} (h : i < l.length) (v : Nat) :
    (l.set i v).getD i 0 = v := by
  rw [List.getD_eq_getElem _ _ (by simpa using h)]
  simp [List.getElem_set_self]

theorem getD_set_ne {l : List Nat} {i j : Nat} (hne : i ≠ j) (hj : j < l.length) (v : Nat) :
    (l.set i v).getD j 0 = l.getD j 0 := by
  rw [List.getD_eq_getElem _ _ (by simpa using hj), List.getD_eq_getElem _ _ hj]
  exact List.getElem_set_ne hne _

/-- A value is stored in a backing array: nonzero and present at some slot. -/
def stored (data : List Nat) (x : Nat) : Prop :=
  x ≠ 0 ∧ ∃ j, j < data.length ∧ data.getD j 0 = x

theorem stored_set {data : List Nat} {j v : Nat} (hjlt : j < data.length)
    (hz : data.getD j 0 = 0) (hv : v ≠ 0) :
    ∀ x, stored (data.set j v) x ↔ stored data x ∨ x = v := by
  intro x
  constructor
  · rintro ⟨hx, i, hilt0, he⟩
    have hilt : i < data.length := by simpa using hilt0
    by_cases hij : i = j
    · subst hij
      rw [getD_set_self hilt v] at he
      exact Or.inr he.symm
    · refine Or.inl ⟨hx, i, hilt, ?_⟩
      rw [getD_set_ne (Ne.symm hij) hilt] at he
      exact he
  · rintro (⟨hx, i, hilt, he⟩ | rfl)
    · refine ⟨hx, i, by simpa using hilt, ?_⟩
      have hij : i ≠ j := by
        rintro rfl
        rw [he] at hz
        exact hx hz
      rw [getD_set_ne (Ne.symm hij) hilt]
      exact he
    · exact ⟨hv, j, by simpa using hjlt, getD_set_self hjlt _⟩

theorem find_or_empty_spec {b : BoardSet} {k : Nat} (hcap : b.data.length = 2 ^ k)
    (o : Nat) {j0 : Nat} (hj0 : j0 < b.data.length)
    (hm0 : b.data.getD j0 0 = 0 ∨ o = b.data.getD j0 0) :
    ∃ j t, b.find_or_empty o = some j ∧ j < b.data.length ∧
      (b.data.getD j 0 = 0 ∨ o = b.data.getD j 0) ∧
      t < b.data.length ∧ j = (hIdx b.data o + t) % b.data.length ∧
      ∀ u, u < t → ¬(b.data.getD ((hIdx b.data o + u) % b.data.length) 0 = 0 ∨
        o = b.data.getD ((hIdx b.data o + u) % b.data.length) 0) := by
  have hpos : 0 < b.data.length := by rw [hcap]; exact Nat.two_pow_pos k
  have hh := hIdx_lt hcap o
  obtain ⟨jr, hjr⟩ := probeFind_total b.data o hcap _ hh j0 hj0 hm0
  have hfind : b.find_or_empty o = some jr := by
    rw [BoardSet.find_or_empty, get_index_eq]
    exact hjr
  obtain ⟨hmatch, t, ht, hjeq, hpre⟩ :=
    (probeFind_sound b.data o hcap b.data.length (hIdx b.data o) hh).1 jr hjr
  exact ⟨jr, t, hfind, by rw [hjeq]; exact Nat.mod_lt _ hpos, hmatch, ht, hjeq, hpre⟩

theorem find_or_empty_stored {b : BoardSet} {k : Nat} (hcap : b.data.length = 2 ^ k)
    (hwf : TableWF b.data) {v : Nat} (hv : v ≠ 0) {jv : Nat} (hjv : jv < b.data.length)
    (hval : b.data.getD jv 0 = v) :
    b.find_or_empty v = some jv := by
  have hpos : 0 < b.data.length := by rw [hcap]; exact Nat.two_pow_pos k
  have hh := hIdx_lt hcap v
  obtain ⟨j, t, hfind, hjlt, hmatch, ht, hjeq, hpre⟩ :=
    find_or_empty_spec hcap v hjv (Or.inr hval.symm)
  have htv_lt : distC b.data.length (hIdx b.data v) jv < b.data.length := distC_lt hpos
  have htv_spec : (hIdx b.data v + distC b.data.length (hIdx b.data v) jv) %
      b.data.length = jv := distC_spec hh hjv
  have hpath : ∀ u, u < distC b.data.length (hIdx b.data v) jv →
      b.data.getD ((hIdx b.data v + u) % b.data.length) 0 ≠ 0 := by
    have h2 := hwf.2 jv hjv (by rw [hval]; exact hv)
    rw [hval] at h2
    exact h2
  rcases Nat.lt_trichotomy t (distC b.data.length (hIdx b.data v) jv) with hlt | heq | hgt
  · exfalso
    have hnz : b.data.getD j 0 ≠ 0 := by
      rw [hjeq]
      exact hpath t hlt
    have hval_j : b.data.getD j 0 = v := by
      rcases hmatch with h0 | h0
      · exact absurd h0 hnz
      · exact h0.symm
    have hne : j ≠ jv := by
      intro hcon
      have : t = distC b.data.length (hIdx b.data v) jv := by
        refine mod_inj (h := hIdx b.data v) ht htv_lt ?_
        rw [← hjeq, hcon, htv_spec]
      omega
    have := hwf.1 j jv hjlt hjv hne hnz
    rw [hval_j, hval] at this
    exact this rfl
  · rw [hfind, hjeq, heq, htv_spec]
  · exfalso
    have hp := hpre (distC b.data.length (hIdx b.data v) jv) hgt
    rw [htv_spec] at hp
    exact hp (Or.inr hval.symm)

theorem find_or_empty_absent {b : BoardSet} {k : Nat} (hcap : b.data.length = 2 ^ k)
    {v : Nat} (hv : v ≠ 0) (habs : ∀ j, j < b.data.length → b.data.getD j 0 ≠ v)
    (hroom : nzCount b.data < b.data.length) :
    ∃ j, b.find_or_empty v = some j ∧ j < b.data.length ∧ b.data.getD j 0 = 0 ∧
      ∀ u, u < distC b.data.length (hIdx b.data v) j →
        b.data.getD ((hIdx b.data v + u) % b.data.length) 0 ≠ 0 := by
  have hpos : 0 < b.data.length := by rw [hcap]; exact Nat.two_pow_pos k
  have hh := hIdx_lt hcap v
  obtain ⟨j0, hj0, hz0⟩ := exists_zero_slot b.data hroom
  obtain ⟨j, t, hfind, hjlt, hmatch, ht, hjeq, hpre⟩ :=
    find_or_empty_spec hcap v hj0 (Or.inl hz0)
  have hzj : b.data.getD j 0 = 0 := by
    rcases hmatch with h0 | h0
    · exact h0
    · exact absurd h0.symm (habs j hjlt)
  have htd : t = distC b.data.length (hIdx b.data v) j :=
    distC_unique hh hjlt ht hjeq.symm
  refine ⟨j, hfind, hjlt, hzj, ?_⟩
  intro u hu
  rw [← htd] at hu
  intro hzz
  exact hpre u hu (Or.inl hzz)

theorem hIdx_congr {d1 d2 : List Nat} (h : d1.length = d2.length) (x : Nat) :
    hIdx d1 x = hIdx d2 x := by
  rw [hIdx, hIdx, h]

set_option maxRecDepth 4096 in
theorem TableWF_set {data : List Nat} {k : Nat} (hcap : data.length = 2 ^ k)
    (hwf : TableWF data) {v j : Nat} (hv : v ≠ 0) (hjlt : j < data.length)
    (hz : data.getD j 0 = 0) (habs : ∀ i, i < data.length → data.getD i 0 ≠ v)
    (hpath : ∀ u, u < distC data.length (hIdx data v) j →
      data.getD ((hIdx data v + u) % data.length) 0 ≠ 0) :
    TableWF (data.set j v) := by
  have hlen : (data.set j v).length = data.length := by simp
  have hidx : ∀ x, hIdx (data.set j v) x = hIdx data x := fun x => hIdx_congr hlen x
  have hgetj : (data.set j v).getD j 0 = v := getD_set_self hjlt v
  have hgetne : ∀ i, i ≠ j → i < data.length →
      (data.set j v).getD i 0 = data.getD i 0 := by
    intro i hne hi
    exact getD_set_ne (Ne.symm hne) hi v
  constructor
  · intro i i' hi hi' hne hnz
    rw [hlen] at hi hi'
    by_cases hij : i = j
    · have hi'j : i' ≠ j := fun hcon => hne (by rw [hij, hcon])
      rw [hij, hgetj, hgetne i' hi'j hi']
      intro hcon
      exact habs i' hi' hcon.symm
    · rw [hgetne i hij hi]
      by_cases hi'j : i' = j
      · subst hi'j
        rw [hgetj]
        exact habs i hi
      · rw [hgetne i' hi'j hi']
        rw [hgetne i hij hi] at hnz
        exact hwf.1 i i' hi hi' hne hnz
  · intro j' hj' hnz' t htlt
    rw [hlen] at hj' htlt ⊢
    rw [hidx] at htlt ⊢
    have hposcase : ∀ pos, pos < data.length → pos = j ∨ data.getD pos 0 ≠ 0 →
        (data.set j v).getD pos 0 ≠ 0 := by
      intro pos hpos hc
      rcases hc with rfl | hnz0
      · rw [hgetj]; exact hv
      · by_cases hpj : pos = j
        · rw [hpj, hgetj]; exact hv
        · rw [hgetne pos hpj hpos]; exact hnz0
    have hpos : 0 < data.length := by rw [hcap]; exact Nat.two_pow_pos k
    by_cases hj'j : j' = j
    · rw [hj'j, hgetj] at hnz' htlt ⊢
      refine hposcase _ (Nat.mod_lt _ hpos) (Or.inr ?_)
      exact hpath t htlt
    · rw [hgetne j' hj'j hj'] at hnz' htlt ⊢
      have hold := hwf.2 j' hj' hnz' t htlt
      refine hposcase _ (Nat.mod_lt _ hpos) ?_
      by_cases hpj : (hIdx data (data.getD j' 0) + t) % data.length = j
      · exact Or.inl hpj
      · exact Or.inr hold

theorem fast_insert_present {b : BoardSet} {k : Nat} (hcap : b.data.length = 2 ^ k)
    (hwf : TableWF b.data) {v : Nat} (hv : v ≠ 0) {jv : Nat} (hjv : jv < b.data.length)
    (hval : b.data.getD jv 0 = v) :
    b.fast_insert v = some b := by
  rw [BoardSet.fast_insert, find_or_empty_stored hcap hwf hv hjv hval]
  simp only [Option.map_some']
  rw [if_neg (by rw [hval]; exact hv)]

theorem fast_insert_new {b : BoardSet} {k : Nat} (hcap : b.data.length = 2 ^ k)
    {v : Nat} (hv : v ≠ 0) (hv64 : v < 2 ^ 64)
    (habs : ∀ j, j < b.data.length → b.data.getD j 0 ≠ v)
    (hroom : nzCount b.data < b.data.length) :
    ∃ j, j < b.data.length ∧ b.data.getD j 0 = 0 ∧
      (∀ u, u < distC b.data.length (hIdx b.data v) j →
        b.data.getD ((hIdx b.data v + u) % b.data.length) 0 ≠ 0) ∧
      b.fast_insert v = some ⟨b.data.set j v, b.length + 1⟩ := by
  obtain ⟨j, hfind, hjlt, hz, hpath⟩ := find_or_empty_absent hcap hv habs hroom
  refine ⟨j, hjlt, hz, hpath, ?_⟩
  rw [BoardSet.fast_insert, hfind]
  simp only [Option.map_some']
  rw [if_pos hz, Nat.mod_eq_of_lt hv64]

theorem int32shl1_of_small {c : Int} (h0 : -(2 ^ 31) ≤ 2 * c) (h : 2 * c < 2 ^ 31) :
    BoardSet.int32shl1 c = 2 * c := by
  rw [BoardSet.int32shl1]
  omega

theorem int32shl1_pow30 : BoardSet.int32shl1 (2 ^ 30) = -(2 ^ 31) := by decide

theorem int32shl1_negmin : BoardSet.int32shl1 (-(2 ^ 31)) = 0 := by decide

theorem size_fits_true {e c : Int} (h : 4 * e < 3 * c) :
    BoardSet.size_fits_into_capacity e c = true := by
  rw [BoardSet.size_fits_into_capacity]
  exact decide_eq_true h

theorem size_fits_false {e c : Int} (h : ¬4 * e < 3 * c) :
    BoardSet.size_fits_into_capacity e c = false := by
  rw [BoardSet.size_fits_into_capacity]
  simpa using h

theorem compute_capacity_go_zero (e : Int) (he : 0 ≤ e) :
    ∀ fuel, BoardSet.compute_capacity_go e fuel 0 = none := by
  intro fuel
  induction fuel with
  | zero => rfl
  | succ fuel ih =>
    rw [BoardSet.compute_capacity_go, size_fits_false (by omega)]
    rw [show BoardSet.int32shl1 0 = 0 from by decide]
    exact ih

theorem compute_capacity_go_negmin (e : Int) (he : 0 ≤ e) :
    ∀ fuel, BoardSet.compute_capacity_go e fuel (-(2 ^ 31)) = none := by
  intro fuel
  match fuel with
  | 0 => rfl
  | fuel + 1 =>
    rw [BoardSet.compute_capacity_go, size_fits_false (by omega), int32shl1_negmin]
    exact compute_capacity_go_zero e he fuel

theorem compute_capacity_go_none (e : Nat) (he : 3 * 2 ^ 30 ≤ 4 * (e : Int)) :
    ∀ (fuel m : Nat), 5 ≤ m → m ≤ 30 →
    BoardSet.compute_capacity_go (e : Int) fuel ((2 : Int) ^ m) = none := by
  intro fuel
  induction fuel with
  | zero => intro m _ _; rfl
  | succ fuel ih =>
    intro m hm5 hm30
    have hmono : (2 : Int) ^ m ≤ 2 ^ 30 := pow_le_pow_right (by norm_num) hm30
    rw [BoardSet.compute_capacity_go, size_fits_false (by
      have : 3 * (2 : Int) ^ m ≤ 3 * 2 ^ 30 := by omega
      omega)]
    by_cases hm : m = 30
    · rw [hm, int32shl1_pow30]
      exact compute_capacity_go_negmin (e : Int) (by positivity) fuel
    · have hstep : BoardSet.int32shl1 ((2 : Int) ^ m) = (2 : Int) ^ (m + 1) := by
        have hp : (2 : Int) ^ (m + 1) ≤ 2 ^ 30 := pow_le_pow_right (by norm_num) (by omega)
        have hpos : (0 : Int) ≤ 2 ^ m := by positivity
        rw [int32shl1_of_small (by omega) (by
          have : (2 : Int) * 2 ^ m = 2 ^ (m + 1) := by ring
          omega)]
        ring
      rw [hstep]
      exact ih (m + 1) (by omega) (by omega)

theorem compute_capacity_diverges (e : Nat) (he : 3 * 2 ^ 30 ≤ 4 * (e : Int)) :
    BoardSet.compute_capacity_for_size (e : Int) BoardSet.INITIAL_SIZE = none := by
  rw [BoardSet.compute_capacity_for_size, BoardSet.INITIAL_SIZE,
    show (32 : Int) = 2 ^ 5 from by norm_num]
  exact compute_capacity_go_none e he 64 5 (by omega) (by omega)

theorem compute_capacity_go_spec (e : Nat) : ∀ (fuel m : Nat), 5 ≤ m → m ≤ 30 →
    (∀ m', 5 ≤ m' → m' < m → ¬4 * (e : Int) < 3 * 2 ^ m') →
    (∃ j, j < fuel ∧ m + j ≤ 30 ∧ 4 * (e : Int) < 3 * 2 ^ (m + j)) →
    ∃ k, m ≤ k ∧ k ≤ 30 ∧
      BoardSet.compute_capacity_go (e : Int) fuel ((2 : Int) ^ m) = some ((2 : Int) ^ k) ∧
      4 * (e : Int) < 3 * 2 ^ k ∧ ∀ k', 5 ≤ k' → 4 * (e : Int) < 3 * 2 ^ k' → k ≤ k' := by
  intro fuel
  induction fuel with
  | zero =>
    intro m _ _ _ hex
    obtain ⟨j, hj, _⟩ := hex
    omega
  | succ fuel ih =>
    intro m hm5 hm30 hbelow hex
    rw [BoardSet.compute_capacity_go]
    by_cases hfit : 4 * (e : Int) < 3 * 2 ^ m
    · rw [if_pos (size_fits_true hfit)]
      refine ⟨m, Nat.le_refl m, hm30, rfl, hfit, ?_⟩
      intro m' hm' hfit'
      by_contra hcon
      exact hbelow m' hm' (by omega) hfit'
    · rw [if_neg (by rw [size_fits_false hfit]; simp)]
      have hm30' : m < 30 := by
        obtain ⟨j, hj, hj30, hfj⟩ := hex
        rcases Nat.eq_zero_or_pos j with rfl | hjpos
        · exact absurd (by simpa using hfj) hfit
        · omega
      have hstep : BoardSet.int32shl1 ((2 : Int) ^ m) = (2 : Int) ^ (m + 1) := by
        have hp : (2 : Int) ^ (m + 1) ≤ 2 ^ 30 := pow_le_pow_right (by norm_num) (by omega)
        have hpos : (0 : Int) ≤ 2 ^ m := by positivity
        rw [int32shl1_of_small (by omega) (by
          have : (2 : Int) * 2 ^ m = 2 ^ (m + 1) := by ring
          omega)]
        ring
      rw [hstep]
      have hbelow' : ∀ m', 5 ≤ m' → m' < m + 1 → ¬4 * (e : Int) < 3 * 2 ^ m' := by
        intro m' h5 hlt
        by_cases hmm : m' < m
        · exact hbelow m' h5 hmm
        · have hme : m' = m := by omega
          rw [hme]
          exact hfit
      have hex' : ∃ j, j < fuel ∧ m + 1 + j ≤ 30 ∧ 4 * (e : Int) < 3 * 2 ^ (m + 1 + j) := by
        obtain ⟨j, hj, hj30, hfj⟩ := hex
        match j with
        | 0 => exact absurd (by simpa using hfj) hfit
        | j + 1 =>
          refine ⟨j, by omega, by omega, ?_⟩
          have harr : m + 1 + j = m + (j + 1) := by omega
          rw [harr]
          exact hfj
      obtain ⟨k, hk, hk30, hgo, hfit2, hmin2⟩ := ih (m + 1) (by omega) (by omega) hbelow' hex'
      exact ⟨k, by omega, hk30, hgo, hfit2, hmin2⟩

theorem compute_capacity_spec (e : Nat) (he : 4 * (e : Int) < 3 * 2 ^ 30) :
    ∃ k, 5 ≤ k ∧ k ≤ 30 ∧
      BoardSet.compute_capacity_for_size (e : Int) BoardSet.INITIAL_SIZE =
        some ((2 : Int) ^ k) ∧
      4 * (e : Int) < 3 * 2 ^ k ∧ ∀ k', 5 ≤ k' → 4 * (e : Int) < 3 * 2 ^ k' → k ≤ k' := by
  rw [BoardSet.compute_capacity_for_size, BoardSet.INITIAL_SIZE,
    show (32 : Int) = 2 ^ 5 from by norm_num]
  obtain ⟨k, hk, hk30, hgo, hfit, hmin⟩ :=
    compute_capacity_go_spec e 64 5 (by omega) (by omega)
      (by intro m' h5 hlt; omega)
      ⟨25, by omega, by omega, by simpa using he⟩
  exact ⟨k, by omega, hk30, hgo, hfit, hmin⟩

theorem replicate_getD (n j : Nat) : (List.replicate n (0:Nat)).getD j 0 = 0 := by
  by_cases h : j < n
  · rw [List.getD_eq_getElem _ _ (by simpa using h)]
    simp
  · have hge : (List.replicate n (0:Nat)).length ≤ j := by
      simpa using Nat.le_of_not_lt h
    simp [List.getD, List.getElem?_eq_none hge]

theorem TableWF_replicate (n : Nat) : TableWF (List.replicate n 0) := by
  constructor
  · intro i j _ _ _ hnz
    exact absurd (replicate_getD n i) hnz
  · intro j _ hnz
    exact absurd (replicate_getD n j) hnz

theorem nzCount_replicate (n : Nat) : nzCount (List.replicate n 0) = 0 := by
  induction n with
  | zero => rfl
  | succ n ih =>
    rw [List.replicate_succ, nzCount, List.filter_cons]
    simpa [nzCount] using ih

theorem mem_iff_getD {data : List Nat} {x : Nat} :
    x ∈ data ↔ ∃ j, j < data.length ∧ data.getD j 0 = x := by
  constructor
  · intro h
    obtain ⟨i, hi, he⟩ := List.mem_iff_getElem.mp h
    exact ⟨i, hi, by rw [List.getD_eq_getElem _ _ hi]; exact he⟩
  · rintro ⟨j, hj, he⟩
    rw [List.getD_eq_getElem _ _ hj] at he
    exact he ▸ List.getElem_mem hj

theorem nzCount_pos_of_stored {data : List Nat} {x : Nat} (h : stored data x) :
    0 < nzCount data := by
  obtain ⟨hx, j, hj, he⟩ := h
  have hmem : x ∈ data := mem_iff_getD.mpr ⟨j, hj, he⟩
  have : x ∈ data.filter (fun v => decide (v ≠ 0)) :=
    List.mem_filter.mpr ⟨hmem, by simpa using hx⟩
  rw [nzCount]
  exact List.length_pos.mpr (List.ne_nil_of_mem this)

/-- The running well-formedness of a `BoardSet`: capacity is a power of two
of exponent at least 5, the table is well formed, `length` bounds the number
of occupied slots, and every stored value fits in 64 bits. -/
def SetInv (b : BoardSet) : Prop :=
  (∃ k, 5 ≤ k ∧ b.data.length = 2 ^ k) ∧ TableWF b.data ∧
  nzCount b.data ≤ b.length ∧ ∀ x, stored b.data x → x < 2 ^ 64

theorem create_spec (e : Nat) (he : 4 * (e : Int) < 3 * 2 ^ 30) :
    ∃ bc, BoardSet.create e = some bc ∧ SetInv bc ∧ bc.length = 0 ∧
      nzCount bc.data = 0 ∧ (∀ x, ¬stored bc.data x) ∧
      ∃ k, 5 ≤ k ∧ k ≤ 30 ∧ bc.data.length = 2 ^ k ∧ 4 * (e : Int) < 3 * 2 ^ k ∧
        ∀ k', 5 ≤ k' → 4 * (e : Int) < 3 * 2 ^ k' → k ≤ k' := by
  obtain ⟨k, hk5, hk30, hcap, hfit, hmin⟩ := compute_capacity_spec e he
  have htoNat : ((2 : Int) ^ k).toNat = 2 ^ k := by
    rw [show ((2 : Int) ^ k) = ((2 ^ k : Nat) : Int) from by push_cast; ring]
    exact Int.toNat_natCast _
  have hcreate : BoardSet.create e = some ⟨List.replicate ((2 : Int) ^ k).toNat 0, 0⟩ := by
    rw [BoardSet.create, hcap]
    rfl
  have hdatalen : (List.replicate ((2 : Int) ^ k).toNat (0 : Nat)).length = 2 ^ k := by
    rw [List.length_replicate, htoNat]
  have hnostored : ∀ x, ¬stored (List.replicate ((2 : Int) ^ k).toNat (0 : Nat)) x := by
    rintro x ⟨hx, j, hj, he2⟩
    rw [replicate_getD] at he2
    exact hx he2.symm
  refine ⟨⟨List.replicate ((2 : Int) ^ k).toNat 0, 0⟩, hcreate,
    ⟨⟨k, hk5, hdatalen⟩, TableWF_replicate _, ?_, ?_⟩, rfl, nzCount_replicate _,
    hnostored, k, hk5, hk30, hdatalen, hfit, hmin⟩
  · rw [nzCount_replicate]
  · intro x hx
    exact absurd hx (hnostored x)

theorem create_zero : BoardSet.create 0 = some ⟨List.replicate 32 0, 0⟩ := rfl

theorem nostored_empty32 : ∀ x, ¬stored (List.replicate 32 (0 : Nat)) x := by
  rintro x ⟨hx, j, hj, he⟩
  rw [replicate_getD] at he
  exact hx he.symm

theorem SetInv_empty32 : SetInv ⟨List.replicate 32 0, 0⟩ := by
  refine ⟨⟨5, by omega, by simp⟩, TableWF_replicate 32, ?_, ?_⟩
  · show nzCount (List.replicate 32 0) ≤ 0
    rw [nzCount_replicate]
  · intro x hx
    exact absurd hx (nostored_empty32 x)

theorem fast_insert_spec {b : BoardSet} (hinv : SetInv b) {v : Nat} (hv : v ≠ 0)
    (hv64 : v < 2 ^ 64) (hroom : b.length < b.data.length) :
    ∃ b', b.fast_insert v = some b' ∧ SetInv b' ∧
      b'.data.length = b.data.length ∧
      (∀ x, stored b'.data x ↔ stored b.data x ∨ x = v) ∧
      (stored b.data v → b' = b) ∧
      (¬stored b.data v → b'.length = b.length + 1 ∧
        nzCount b'.data = nzCount b.data + 1) := by
  obtain ⟨⟨k, hk5, hcap⟩, hwf, hnz, hbound⟩ := hinv
  by_cases hst : stored b.data v
  · obtain ⟨_, jv, hjv, hval⟩ := hst
    refine ⟨b, fast_insert_present hcap hwf hv hjv hval, ⟨⟨k, hk5, hcap⟩, hwf, hnz, hbound⟩,
      rfl, ?_, fun _ => rfl, fun hcon => absurd ⟨hv, jv, hjv, hval⟩ hcon⟩
    intro x
    constructor
    · exact Or.inl
    · rintro (hx | rfl)
      · exact hx
      · exact ⟨hv, jv, hjv, hval⟩
  · have habs : ∀ j, j < b.data.length → b.data.getD j 0 ≠ v := by
      intro j hj hcon
      exact hst ⟨hv, j, hj, hcon⟩
    have hroom' : nzCount b.data < b.data.length := by omega
    obtain ⟨j, hjlt, hz, hpath, heq⟩ := fast_insert_new hcap hv hv64 habs hroom'
    have hlen' : (b.data.set j v).length = b.data.length := by simp
    have hstored := stored_set hjlt hz hv
    refine ⟨⟨b.data.set j v, b.length + 1⟩, heq, ?_, hlen', hstored, fun hcon => absurd hcon hst,
      fun _ => ⟨rfl, nz_set b.data j v hjlt hz hv⟩⟩
    refine ⟨⟨k, hk5, by rw [hlen']; exact hcap⟩, ?_, ?_, ?_⟩
    · exact TableWF_set hcap hwf hv hjlt hz habs hpath
    · have := nz_set b.data j v hjlt hz hv
      simp only [this]
      omega
    · intro x hx
      rcases (hstored x).mp hx with h1 | rfl
      · exact hbound x h1
      · exact hv64

theorem contains_true {b : BoardSet} (hinv : SetInv b) {v : Nat}
    (hst : stored b.data v) : b.contains v = some true := by
  obtain ⟨⟨k, hk5, hcap⟩, hwf, _, _⟩ := hinv
  obtain ⟨hv, jv, hjv, hval⟩ := hst
  rw [BoardSet.contains, find_or_empty_stored hcap hwf hv hjv hval]
  simp only [Option.map_some', Option.some.injEq]
  rw [hval]
  simp [hv]

theorem contains_false {b : BoardSet} (hinv : SetInv b) {v : Nat} (hv : v ≠ 0)
    (hroom : b.length < b.data.length) (hst : ¬stored b.data v) :
    b.contains v = some false := by
  obtain ⟨⟨k, hk5, hcap⟩, hwf, hnz, _⟩ := hinv
  have habs : ∀ j, j < b.data.length → b.data.getD j 0 ≠ v := by
    intro j hj hcon
    exact hst ⟨hv, j, hj, hcon⟩
  obtain ⟨j, hfind, hjlt, hz, _⟩ := find_or_empty_absent hcap hv habs (by omega)
  rw [BoardSet.contains, hfind]
  simp only [Option.map_some', Option.some.injEq]
  simp only [hz]
  decide

/-- Number of nonzero values of a plain list. -/
def nzListCount (l : List Nat) : Nat := (l.filter (fun v => decide (v ≠ 0))).length

theorem nzListCount_nzCount (data : List Nat) : nzListCount data = nzCount data := rfl

theorem fast_insert_all_spec : ∀ (l : List Nat) (b : BoardSet), SetInv b →
    (∀ x, x ∈ l → x < 2 ^ 64) →
    b.length + nzListCount l < b.data.length →
    ∃ b', b.fast_insert_all l = some b' ∧ SetInv b' ∧ b'.data.length = b.data.length ∧
      (∀ x, stored b'.data x ↔ stored b.data x ∨ (x ∈ l ∧ x ≠ 0)) ∧
      b.length ≤ b'.length ∧ b'.length ≤ b.length + nzListCount l := by
  intro l
  induction l with
  | nil =>
    intro b hinv _ _
    refine ⟨b, rfl, hinv, rfl, ?_, Nat.le_refl _, by simp [nzListCount]⟩
    intro x
    simp
  | cons x xs ih =>
    intro b hinv hl64 hbudget
    have hfold : b.fast_insert_all (x :: xs) =
        (if x ≠ 0 then b.fast_insert x else pure b) >>= fun b1 => b1.fast_insert_all xs := by
      rw [BoardSet.fast_insert_all, List.foldlM_cons]
      rfl
    by_cases hx : x = 0
    · subst hx
      rw [hfold, if_neg (by simp)]
      have hbudget' : b.length + nzListCount xs < b.data.length := by
        simp only [nzListCount, List.filter_cons] at hbudget ⊢
        rw [if_neg (by simp)] at hbudget
        exact hbudget
      obtain ⟨b', hrun, hinv', hlen', hstored', hlo, hhi⟩ :=
        ih b hinv (fun y hy => hl64 y (List.mem_cons_of_mem _ hy)) hbudget'
      refine ⟨b', hrun, hinv', hlen', ?_, hlo, ?_⟩
      · intro y
        rw [hstored' y]
        constructor
        · rintro (h1 | ⟨h2, h3⟩)
          · exact Or.inl h1
          · exact Or.inr ⟨List.mem_cons_of_mem _ h2, h3⟩
        · rintro (h1 | ⟨h2, h3⟩)
          · exact Or.inl h1
          · rcases List.mem_cons.mp h2 with rfl | h4
            · exact absurd rfl h3
            · exact Or.inr ⟨h4, h3⟩
      · simp only [nzListCount, List.filter_cons]
        rw [if_neg (by simp)]
        exact hhi
    · rw [hfold, if_pos (by simpa using hx)]
      have hcount : nzListCount (x :: xs) = nzListCount xs + 1 := by
        simp only [nzListCount, List.filter_cons]
        rw [if_pos (by simpa using hx)]
        simp [Nat.add_comm]
      have hroom : b.length < b.data.length := by omega
      obtain ⟨b1, hins, hinv1, hlen1, hstored1, hpres, hnew⟩ :=
        fast_insert_spec hinv hx (hl64 x (List.mem_cons_self x xs)) hroom
      have hb1len : b1.length ≤ b.length + 1 := by
        by_cases hst : stored b.data x
        · rw [hpres hst]
          omega
        · have := (hnew hst).1
          omega
      have hb1lo : b.length ≤ b1.length := by
        by_cases hst : stored b.data x
        · rw [hpres hst]
        · have := (hnew hst).1
          omega
      have hbudget1 : b1.length + nzListCount xs < b1.data.length := by
        rw [hlen1]
        omega
      obtain ⟨b', hrun, hinv', hlen', hstored', hlo, hhi⟩ :=
        ih b1 hinv1 (fun y hy => hl64 y (List.mem_cons_of_mem _ hy)) hbudget1
      refine ⟨b', ?_, hinv', by rw [hlen', hlen1], ?_, ?_, ?_⟩
      · rw [hins]
        simpa using hrun
      · intro y
        rw [hstored' y, hstored1 y]
        constructor
        · rintro ((h1 | rfl) | ⟨h2, h3⟩)
          · exact Or.inl h1
          · exact Or.inr ⟨List.mem_cons_self _ _, hx⟩
          · exact Or.inr ⟨List.mem_cons_of_mem _ h2, h3⟩
        · rintro (h1 | ⟨h2, h3⟩)
          · exact Or.inl (Or.inl h1)
          · rcases List.mem_cons.mp h2 with rfl | h4
            · exact Or.inl (Or.inr rfl)
            · exact Or.inr ⟨h4, h3⟩
      · omega
      · rw [hcount]
        omega

theorem reserve_spec {b : BoardSet} (hinv : SetInv b) (additional : Nat)
    (hbound : 4 * (b.length + additional) < 3 * 2 ^ 30) :
    ∃ b', b.reserve additional = some b' ∧ SetInv b' ∧ b'.length = b.length ∧
      (∀ x, stored b'.data x ↔ stored b.data x) ∧
      4 * (b.length + additional) < 3 * b'.data.length ∧
      (4 * (b.length + additional) < 3 * b.data.length → b' = b) ∧
      (¬4 * (b.length + additional) < 3 * b.data.length →
        ∃ k, 5 ≤ k ∧ b'.data.length = 2 ^ k ∧ 4 * (b.length + additional) < 3 * 2 ^ k ∧
          ∀ k', 5 ≤ k' → 4 * (b.length + additional) < 3 * 2 ^ k' → k ≤ k') := by
  obtain ⟨⟨k0, hk05, hcap0⟩, hwf0, hnz0, hbound0⟩ := hinv
  by_cases hfit : 4 * (b.length + additional) < 3 * b.data.length
  · have hres : b.reserve additional = some b := by
      rw [BoardSet.reserve]
      split
      · rfl
      · rename_i hcond
        rw [BoardSet.size_fits_into_capacity] at hcond
        exact absurd (decide_eq_true (by exact_mod_cast hfit)) hcond
    exact ⟨b, hres, ⟨⟨k0, hk05, hcap0⟩, hwf0, hnz0, hbound0⟩, rfl, fun x => Iff.rfl, hfit,
      fun _ => rfl, fun hcon => absurd hfit hcon⟩
  · obtain ⟨bc, hcreate, hinvF, hlenF0, hnzF, hnostoredF, kc, hkc5, hkc30, hcapc, hfitcI,
      hmincI⟩ := create_spec (b.length + additional) (by exact_mod_cast hbound)
    have hfitc : 4 * (b.length + additional) < 3 * 2 ^ kc := by exact_mod_cast hfitcI
    have hminc : ∀ k', 5 ≤ k' → 4 * (b.length + additional) < 3 * 2 ^ k' → kc ≤ k' := by
      intro k' h5 hf
      exact hmincI k' h5 (by exact_mod_cast hf)
    by_cases hbl : b.length = 0
    · have hres0 : b.reserve additional = some ⟨bc.data, b.length⟩ := by
        rw [BoardSet.reserve]
        split
        · rename_i hcond
          rw [BoardSet.size_fits_into_capacity] at hcond
          exact absurd (by exact_mod_cast of_decide_eq_true hcond) hfit
        · rw [hcreate]
          simp only [Option.bind_eq_bind, Option.some_bind]
          rw [if_neg (fun h => h hbl)]
          rfl
      have hnob : ∀ x, ¬stored b.data x := by
        intro x hx
        have := nzCount_pos_of_stored hx
        omega
      have hfitb : 4 * (b.length + additional) < 3 * bc.data.length := by
        rw [hcapc]
        exact hfitc
      refine ⟨_, hres0, ?_, rfl, ?_, hfitb,
        fun hcon => absurd hcon hfit,
        fun _ => ⟨kc, hkc5, hcapc, hfitc, hminc⟩⟩
      · obtain ⟨hc, hw, hn, hb⟩ := hinvF
        refine ⟨hc, hw, ?_, hb⟩
        show nzCount bc.data ≤ b.length
        rw [hlenF0] at hn
        omega
      · intro x
        constructor
        · intro hx
          exact absurd hx (hnostoredF x)
        · intro hx
          exact absurd hx (hnob x)
    · have hl64 : ∀ x, x ∈ b.data → x < 2 ^ 64 := by
        intro x hx
        by_cases hx0 : x = 0
        · rw [hx0]
          exact Nat.two_pow_pos 64
        · obtain ⟨j, hj, he⟩ := mem_iff_getD.mp hx
          exact hbound0 x ⟨hx0, j, hj, he⟩
      have hbudget : bc.length + nzListCount b.data < bc.data.length := by
        rw [hlenF0, hcapc, nzListCount_nzCount]
        omega
      obtain ⟨bf, hrun, hinvf, hlenf, hstoredf, hlof, hhif⟩ :=
        fast_insert_all_spec b.data bc hinvF hl64 hbudget
      have hres1 : b.reserve additional = some ⟨bf.data, b.length⟩ := by
        rw [BoardSet.reserve]
        split
        · rename_i hcond
          rw [BoardSet.size_fits_into_capacity] at hcond
          exact absurd (by exact_mod_cast of_decide_eq_true hcond) hfit
        · rw [hcreate]
          simp only [Option.bind_eq_bind, Option.some_bind]
          rw [hrun]
          rfl
      have hcapf : bf.data.length = 2 ^ kc := by
        rw [hlenf, hcapc]
      have hfitb : 4 * (b.length + additional) < 3 * bf.data.length := by
        rw [hcapf]
        exact hfitc
      have hstored_iff : ∀ x, stored bf.data x ↔ stored b.data x := by
        intro x
        rw [hstoredf x]
        constructor
        · rintro (h1 | ⟨h2, h3⟩)
          · exact absurd h1 (hnostoredF x)
          · obtain ⟨j, hj, he⟩ := mem_iff_getD.mp h2
            exact ⟨h3, j, hj, he⟩
        · rintro ⟨hx0, j, hj, he⟩
          exact Or.inr ⟨mem_iff_getD.mpr ⟨j, hj, he⟩, hx0⟩
      obtain ⟨hcf, hwf, hnf, hbf⟩ := hinvf
      refine ⟨_, hres1, ?_, rfl, hstored_iff, hfitb,
        fun hcon => absurd hcon hfit,
        fun _ => ⟨kc, hkc5, hcapf, hfitc, hminc⟩⟩
      refine ⟨⟨kc, hkc5, hcapf⟩, hwf, ?_, ?_⟩
      · have h1 : nzCount bf.data ≤ bf.length := hnf
        have h2 : bf.length ≤ bc.length + nzListCount b.data := hhif
        rw [hlenF0, nzListCount_nzCount] at h2
        show nzCount bf.data ≤ b.length
        omega
      · intro x hx
        exact hbound0 x ((hstored_iff x).mp hx)

theorem insert_spec {b : BoardSet} (hinv : SetInv b) {v : Nat} (hv : v ≠ 0)
    (hv64 : v < 2 ^ 64) (hbound : 4 * (b.length + 1) < 3 * 2 ^ 30) :
    ∃ b', b.insert v = some b' ∧ SetInv b' ∧
      (∀ x, stored b'.data x ↔ stored b.data x ∨ x = v) ∧
      (stored b.data v → b'.length = b.length) ∧
      (¬stored b.data v → b'.length = b.length + 1) ∧
      4 * b'.length < 3 * b'.data.length := by
  obtain ⟨b2, hres, hinv2, hlen2, hstored2, hfit2, _, _⟩ := reserve_spec hinv 1 hbound
  have hroom : b2.length < b2.data.length := by
    rw [hlen2]
    omega
  obtain ⟨b', hins, hinv', hlen', hstored', hpres, hnew⟩ := fast_insert_spec hinv2 hv hv64 hroom
  refine ⟨b', ?_, hinv', ?_, ?_, ?_, ?_⟩
  · rw [BoardSet.insert, hres]
    simpa using hins
  · intro x
    rw [hstored' x, hstored2 x]
  · intro hst
    rw [hpres ((hstored2 v).mpr hst), hlen2]
  · intro hst
    have hst2 : ¬stored b2.data v := fun hcon => hst ((hstored2 v).mp hcon)
    rw [(hnew hst2).1, hlen2]
  · have hb' : b'.length ≤ b2.length + 1 := by
      by_cases hst : stored b2.data v
      · rw [hpres hst]
        omega
      · rw [(hnew hst).1]
    rw [hlen', hlen2] at *
    omega

/-- Insert a list of values one by one through `insert`. -/
def insertAll (b : BoardSet) (l : List Nat) : Option BoardSet :=
  l.foldlM (fun acc x => acc.insert x) b

theorem insertAll_spec : ∀ (l : List Nat) (b : BoardSet), SetInv b →
    4 * b.length < 3 * b.data.length →
    4 * (b.length + l.length) < 3 * 2 ^ 30 →
    (∀ v, v ∈ l → v ≠ 0) → (∀ v, v ∈ l → v < 2 ^ 64) →
    ∃ b', insertAll b l = some b' ∧ SetInv b' ∧ 4 * b'.length < 3 * b'.data.length ∧
      (∀ x, stored b'.data x ↔ stored b.data x ∨ x ∈ l) ∧
      ((∀ v, v ∈ l → ¬stored b.data v) → l.Nodup → b'.length = b.length + l.length) := by
  intro l
  induction l with
  | nil =>
    intro b hinv hload _ _ _
    refine ⟨b, rfl, hinv, hload, ?_, ?_⟩
    · intro x
      simp
    · intro _ _
      simp
  | cons x xs ih =>
    intro b hinv hload hbound hnz h64
    rw [List.length_cons] at hbound
    have hx0 : x ≠ 0 := hnz x (List.mem_cons_self x xs)
    obtain ⟨b1, hins, hinv1, hstored1, hlenpres, hlennew, hload1⟩ :=
      insert_spec hinv hx0 (h64 x (List.mem_cons_self x xs)) (by omega)
    have hb1le : b1.length ≤ b.length + 1 := by
      by_cases hst : stored b.data x
      · rw [hlenpres hst]
        omega
      · rw [hlennew hst]
    obtain ⟨b', hrun, hinv', hload', hstored', hcount'⟩ :=
      ih b1 hinv1 hload1 (by omega) (fun v hv => hnz v (List.mem_cons_of_mem _ hv))
        (fun v hv => h64 v (List.mem_cons_of_mem _ hv))
    have hfold : insertAll b (x :: xs) = some b' := by
      rw [insertAll, List.foldlM_cons, hins]
      simpa [insertAll] using hrun
    refine ⟨b', hfold, hinv', hload', ?_, ?_⟩
    · intro y
      rw [hstored' y, hstored1 y]
      constructor
      · rintro ((h1 | rfl) | h2)
        · exact Or.inl h1
        · exact Or.inr (List.mem_cons_self _ _)
        · exact Or.inr (List.mem_cons_of_mem _ h2)
      · rintro (h1 | h2)
        · exact Or.inl (Or.inl h1)
        · rcases List.mem_cons.mp h2 with rfl | h3
          · exact Or.inl (Or.inr rfl)
          · exact Or.inr h3
    · intro hfresh hnd
      have hxfresh : ¬stored b.data x := hfresh x (List.mem_cons_self x xs)
      have hfresh1 : ∀ v, v ∈ xs → ¬stored b1.data v := by
        intro v hv hcon
        rcases (hstored1 v).mp hcon with h1 | rfl
        · exact hfresh v (List.mem_cons_of_mem _ hv) h1
        · exact (List.nodup_cons.mp hnd).1 hv
      have h1 := hlennew hxfresh
      have h2 := hcount' hfresh1 (List.nodup_cons.mp hnd).2
      simp only [List.length_cons]
      omega

/-- C6: inserting any finite sequence of distinct nonzero 63-bit values into
a fresh `BoardSet` gives length = number of values and `contains = true` for
each of them; re-inserting a present value with `insert` keeps the length
and the stored contents, and with `fast_insert` returns the set unchanged. -/
theorem claim_C6 (l : List Nat) (hdist : l.Nodup) (hnz : ∀ v, v ∈ l → v ≠ 0)
    (hlt : ∀ v, v ∈ l → v < 2 ^ 63) (hbig : 4 * (l.length + 1) < 3 * 2 ^ 30) :
    ∃ b0 b, BoardSet.create 0 = some b0 ∧ insertAll b0 l = some b ∧
      b.length = l.length ∧
      (∀ v, v ∈ l → b.contains v = some true) ∧
      (∀ v, v ∈ l → ∃ b2, b.insert v = some b2 ∧ b2.length = b.length ∧
        (∀ x, stored b2.data x ↔ stored b.data x)) ∧
      (∀ v, v ∈ l → b.fast_insert v = some b) := by
  have h64 : ∀ v, v ∈ l → v < 2 ^ 64 := by
    intro v hv
    have h1 := hlt v hv
    have h2 : (2:Nat) ^ 63 < 2 ^ 64 := Nat.pow_lt_pow_right (by norm_num) (by norm_num)
    omega
  obtain ⟨b, hrun, hinv, hload, hstored, hcount⟩ :=
    insertAll_spec l ⟨List.replicate 32 0, 0⟩ SetInv_empty32
      (by show 4 * 0 < 3 * (List.replicate 32 (0:Nat)).length; simp)
      (by show 4 * (0 + l.length) < 3 * 2 ^ 30; omega) hnz h64
  have hstored_mem : ∀ v, v ∈ l → stored b.data v := by
    intro v hv
    exact (hstored v).mpr (Or.inr hv)
  have hlen : b.length = l.length := by
    have h := hcount (fun v _ => nostored_empty32 v) hdist
    rw [h]
    show 0 + l.length = l.length
    omega
  refine ⟨⟨List.replicate 32 0, 0⟩, b, create_zero, hrun, hlen, ?_, ?_, ?_⟩
  · intro v hv
    exact contains_true hinv (hstored_mem v hv)
  · intro v hv
    obtain ⟨b2, hins, hinv2, hstored2, hlenpres, _, _⟩ :=
      insert_spec hinv (hnz v hv) (h64 v hv) (by rw [hlen]; omega)
    refine ⟨b2, hins, hlenpres (hstored_mem v hv), ?_⟩
    intro x
    rw [hstored2 x]
    constructor
    · rintro (h1 | rfl)
      · exact h1
      · exact hstored_mem _ hv
    · exact Or.inl
  · intro v hv
    obtain ⟨⟨k, hk5, hcap⟩, hwf, _, _⟩ := hinv
    obtain ⟨hv0, jv, hjv, hval⟩ := hstored_mem v hv
    exact fast_insert_present hcap hwf hv0 hjv hval

theorem claim_C6_witness : ∃ b0 b, BoardSet.create 0 = some b0 ∧
    insertAll b0 [1, 2] = some b ∧
    b.length = [1, 2].length ∧
    (∀ v, v ∈ [1, 2] → b.contains v = some true) ∧
    (∀ v, v ∈ [1, 2] → ∃ b2, b.insert v = some b2 ∧ b2.length = b.length ∧
      (∀ x, stored b2.data x ↔ stored b.data x)) ∧
    (∀ v, v ∈ [1, 2] → b.fast_insert v = some b) :=
  claim_C6 [1, 2] (by decide) (by decide) (by decide) (by norm_num)

/-- C7: whenever the constructor terminates (its `<<= 1` capacity loop is a
signed 32-bit shift, so it diverges once `4 * expected` reaches `3 * 2^30`),
the capacity is a power of two of exponent at least 5 (so at least 32); any
`insert` on a well-formed set in that regime leaves the load factor below
3/4; `reserve n` preserves length and contents, makes the expected size fit,
and when it has to grow it picks the smallest power-of-two capacity (at
least the initial 32) with `4 * (length + n) < 3 * capacity`. -/
theorem claim_C7 :
    (∀ e : Nat, 4 * (e : Int) < 3 * 2 ^ 30 →
      ∃ bc, BoardSet.create e = some bc ∧ ∃ k, 5 ≤ k ∧ bc.data.length = 2 ^ k) ∧
    (∀ e : Nat, 3 * 2 ^ 30 ≤ 4 * (e : Int) → BoardSet.create e = none) ∧
    (∀ b, SetInv b → ∀ v, v ≠ 0 → v < 2 ^ 64 → 4 * (b.length + 1) < 3 * 2 ^ 30 →
      ∃ b', b.insert v = some b' ∧ (∃ k, 5 ≤ k ∧ b'.data.length = 2 ^ k) ∧
        4 * b'.length < 3 * b'.data.length) ∧
    (∀ b, SetInv b → ∀ n, 4 * (b.length + n) < 3 * 2 ^ 30 →
      ∃ b', b.reserve n = some b' ∧
      (∃ k, 5 ≤ k ∧ b'.data.length = 2 ^ k) ∧
      b'.length = b.length ∧
      (∀ x, stored b'.data x ↔ stored b.data x) ∧
      4 * (b.length + n) < 3 * b'.data.length ∧
      (¬4 * (b.length + n) < 3 * b.data.length →
        ∀ c, 32 ≤ c → (∃ k, c = 2 ^ k) → 4 * (b.length + n) < 3 * c →
          b'.data.length ≤ c)) := by
  refine ⟨?_, ?_, ?_, ?_⟩
  · intro e he
    obtain ⟨bc, hcreate, hinv, -, -, -, k, hk5, -, hcap, -⟩ := create_spec e he
    exact ⟨bc, hcreate, k, hk5, hcap⟩
  · intro e he
    rw [BoardSet.create, compute_capacity_diverges e he]
    rfl
  · intro b hinv v hv hv64 hbound
    obtain ⟨b', hins, hinv', _, _, _, hload⟩ := insert_spec hinv hv hv64 hbound
    exact ⟨b', hins, hinv'.1, hload⟩
  · intro b hinv n hbound
    obtain ⟨b', hres, hinv', hlen, hstored, hfit, _, hgrow⟩ := reserve_spec hinv n hbound
    refine ⟨b', hres, hinv'.1, hlen, hstored, hfit, ?_⟩
    intro hnofit c hc32 ⟨kc, hkc⟩ hcfit
    obtain ⟨k, hk5, hcap, _, hmin⟩ := hgrow hnofit
    have hkc5 : 5 ≤ kc := by
      have h32 : (2:Nat) ^ 5 ≤ 2 ^ kc := by
        rw [← hkc]
        exact le_trans (by norm_num) hc32
      exact (Nat.pow_le_pow_iff_right (by norm_num)).mp h32
    have hkk : k ≤ kc := hmin kc hkc5 (by rw [← hkc]; exact hcfit)
    rw [hcap, hkc]
    exact Nat.pow_le_pow_right (by norm_num) hkk

theorem claim_C7_witness :
    ∃ b', BoardSet.insert ⟨List.replicate 32 0, 0⟩ 5 = some b' ∧
      (∃ k, 5 ≤ k ∧ b'.data.length = 2 ^ k) ∧ 4 * b'.length < 3 * b'.data.length :=
  claim_C7.2.2.1 ⟨List.replicate 32 0, 0⟩ SetInv_empty32 5 (by decide) (by norm_num)
    (by norm_num)

/-! ### Counting the occupied slots through a rebuild -/

theorem filter_nodup_of_pairwise : ∀ (data : List Nat),
    (∀ i j, i < data.length → j < data.length → i ≠ j → data.getD i 0 ≠ 0 →
      data.getD i 0 ≠ data.getD j 0) →
    (data.filter (fun v => decide (v ≠ 0))).Nodup := by
  intro data
  induction data with
  | nil => intro _; simp
  | cons d rest ih =>
    intro H
    have Hrest : ∀ i j, i < rest.length → j < rest.length → i ≠ j → rest.getD i 0 ≠ 0 →
        rest.getD i 0 ≠ rest.getD j 0 := by
      intro i j hi hj hne hnz
      have h := H (i + 1) (j + 1) (by simpa using hi) (by simpa using hj) (by omega)
      simp only [List.getD_cons_succ] at h
      exact h hnz
    rw [List.filter_cons]
    by_cases hd : d = 0
    · rw [if_neg (by simpa using hd)]
      exact ih Hrest
    · rw [if_pos (by simpa using hd)]
      refine List.nodup_cons.mpr ⟨?_, ih Hrest⟩
      intro hmem
      have hmem' : d ∈ rest := (List.mem_filter.mp hmem).1
      obtain ⟨j, hj, he⟩ := mem_iff_getD.mp hmem'
      have h := H 0 (j + 1) (by simp) (by simpa using hj) (by omega)
        (by simpa using hd)
      rw [List.getD_cons_zero, List.getD_cons_succ, he] at h
      exact h rfl

theorem mem_filter_iff_stored (data : List Nat) (x : Nat) :
    x ∈ data.filter (fun v => decide (v ≠ 0)) ↔ stored data x := by
  rw [List.mem_filter]
  constructor
  · rintro ⟨hmem, hdec⟩
    obtain ⟨j, hj, he⟩ := mem_iff_getD.mp hmem
    exact ⟨by simpa using hdec, j, hj, he⟩
  · rintro ⟨hx, j, hj, he⟩
    exact ⟨mem_iff_getD.mpr ⟨j, hj, he⟩, by simpa using hx⟩

theorem nzCount_eq_of_stored_iff {d1 d2 : List Nat}
    (h1 : ∀ i j, i < d1.length → j < d1.length → i ≠ j → d1.getD i 0 ≠ 0 →
      d1.getD i 0 ≠ d1.getD j 0)
    (h2 : ∀ i j, i < d2.length → j < d2.length → i ≠ j → d2.getD i 0 ≠ 0 →
      d2.getD i 0 ≠ d2.getD j 0)
    (hiff : ∀ x, stored d1 x ↔ stored d2 x) : nzCount d1 = nzCount d2 := by
  have hn1 := filter_nodup_of_pairwise d1 h1
  have hn2 := filter_nodup_of_pairwise d2 h2
  have hperm := (List.perm_ext_iff_of_nodup hn1 hn2).mpr (fun a => by
    rw [mem_filter_iff_stored, mem_filter_iff_stored, hiff a])
  exact hperm.length_eq

/-! ### Semantics of the compiled shift groups -/

theorem jsShl_or (x y : Nat) (k : Int) : jsShl (x ||| y) k = jsShl x k ||| jsShl y k := by
  rw [jsShl, jsShl, jsShl]
  by_cases h : 0 ≤ k
  · rw [if_pos h, if_pos h, if_pos h]
    refine Nat.eq_of_testBit_eq fun i => ?_
    simp only [Nat.testBit_shiftLeft, Nat.testBit_or]
    cases decide (k.toNat ≤ i) <;> simp
  · rw [if_neg h, if_neg h, if_neg h]
    refine Nat.eq_of_testBit_eq fun i => ?_
    simp only [Nat.testBit_shiftRight, Nat.testBit_or]

theorem jsShl_zero (k : Int) : jsShl 0 k = 0 := by
  rw [jsShl]
  by_cases h : 0 ≤ k
  · rw [if_pos h]
    simp [Nat.shiftLeft_eq]
  · rw [if_neg h]
    simp

theorem foldl_or_init (f : (Int × Nat) → Nat) : ∀ (l : List (Int × Nat)) (a : Nat),
    l.foldl (fun acc p => acc ||| f p) a = a ||| l.foldl (fun acc p => acc ||| f p) 0 := by
  intro l
  induction l with
  | nil => intro a; simp
  | cons p rest ih =>
    intro a
    rw [List.foldl_cons, List.foldl_cons, ih (a ||| f p), ih (0 ||| f p)]
    rw [Nat.zero_or, Nat.or_assoc]

theorem applyTrans_cons (p : Int × Nat) (rest : List (Int × Nat)) (s : Nat) :
    applyTrans (p :: rest) s = jsShl (s &&& p.2) p.1 ||| applyTrans rest s := by
  rw [applyTrans, applyTrans, List.foldl_cons, foldl_or_init, Nat.zero_or]

theorem assocGet_cons (p : Int × Nat) (rest : List (Int × Nat)) (k : Int) :
    assocGet (p :: rest) k = if p.1 = k then some p.2 else assocGet rest k := by
  rw [assocGet, List.find?_cons]
  by_cases h : p.1 = k
  · rw [if_pos h]
    have hb : (p.1 == k) = true := by simpa using h
    rw [hb]
  · rw [if_neg h]
    have hb : (p.1 == k) = false := by simpa using h
    rw [hb]
    rfl

theorem applyTrans_assocSet_none (k : Int) (v : Nat) (s : Nat) :
    ∀ out : List (Int × Nat), assocGet out k = none →
    applyTrans (assocSet out k v) s = applyTrans out s ||| jsShl (s &&& v) k := by
  intro out
  induction out with
  | nil =>
    intro _
    rw [assocSet, applyTrans, applyTrans]
    simp
  | cons p rest ih =>
    intro hget
    rw [assocGet_cons] at hget
    have hne : p.1 ≠ k := by
      intro hcon
      rw [if_pos hcon] at hget
      exact absurd hget (by simp)
    rw [if_neg hne] at hget
    rw [assocSet, if_neg hne, applyTrans_cons, applyTrans_cons, ih hget, Nat.or_assoc]

theorem applyTrans_assocSet_merge (k : Int) (w cur : Nat) (s : Nat) :
    ∀ out : List (Int × Nat), assocGet out k = some cur →
    applyTrans (assocSet out k (w ||| cur)) s = applyTrans out s ||| jsShl (s &&& w) k := by
  intro out
  induction out with
  | nil =>
    intro hget
    rw [assocGet] at hget
    simp at hget
  | cons p rest ih =>
    intro hget
    rw [assocGet_cons] at hget
    by_cases hpk : p.1 = k
    · rw [if_pos hpk] at hget
      rw [Option.some.injEq] at hget
      rw [assocSet, if_pos hpk, applyTrans_cons, applyTrans_cons]
      have hdist : jsShl (s &&& (w ||| cur)) k = jsShl (s &&& w) k ||| jsShl (s &&& cur) k := by
        rw [Nat.and_or_distrib_left, jsShl_or]
      rw [hdist]
      rw [hpk, ← hget]
      have hcomm : ∀ a b c : Nat, a ||| b ||| c = b ||| c ||| a := by
        intro a b c
        rw [Nat.or_comm a b, Nat.or_assoc, Nat.or_comm a c, ← Nat.or_assoc]
      exact hcomm (jsShl (s &&& w) k) (jsShl (s &&& p.2) k) (applyTrans rest s)
    · rw [if_neg hpk] at hget
      rw [assocSet, if_neg hpk, applyTrans_cons, applyTrans_cons, ih hget, Nat.or_assoc]

/-! ### Compiled transformations as bit permutations -/

/-- The contribution of source bit `i` in the compiled shift groups. -/
def shiftTerm (field : List Int) (s i : Nat) : Nat :=
  jsShl (s &&& (1 <<< i)) (field.getD (field.length - 1 - i) (-1) - (i : Int))

/-- The OR of the contributions of a list of source bits. -/
def orTerms (field : List Int) (s : Nat) (L : List Nat) : Nat :=
  L.foldl (fun acc i => acc ||| shiftTerm field s i) 0

/-- The OR of a list of powers of two. -/
def orPow (L : List Nat) : Nat := L.foldl (fun a e => a ||| 2 ^ e) 0

theorem foldl_or_init_nat (f : Nat → Nat) : ∀ (l : List Nat) (a : Nat),
    l.foldl (fun acc i => acc ||| f i) a = a ||| l.foldl (fun acc i => acc ||| f i) 0 := by
  intro l
  induction l with
  | nil => intro a; simp
  | cons p rest ih =>
    intro a
    rw [List.foldl_cons, List.foldl_cons, ih (a ||| f p), ih (0 ||| f p)]
    rw [Nat.zero_or, Nat.or_assoc]

theorem orTerms_cons (field : List Int) (s : Nat) (i : Nat) (L : List Nat) :
    orTerms field s (i :: L) = shiftTerm field s i ||| orTerms field s L := by
  rw [orTerms, orTerms, List.foldl_cons, foldl_or_init_nat, Nat.zero_or]

theorem orPow_cons (e : Nat) (L : List Nat) : orPow (e :: L) = 2 ^ e ||| orPow L := by
  rw [orPow, orPow, List.foldl_cons, foldl_or_init_nat, Nat.zero_or]

theorem applyTrans_compile_fold (field : List Int) (s : Nat) : ∀ (L : List Nat)
    (out : List (Int × Nat)),
    applyTrans (L.foldl (fun out i =>
      let e := field.getD (field.length - 1 - i) (-1)
      let diff : Int := e - (i : Int)
      let mask := match assocGet out diff with
        | some cur => (1 <<< i) ||| cur
        | none => 1 <<< i
      assocSet out diff mask) out) s =
    applyTrans out s ||| orTerms field s L := by
  intro L
  induction L with
  | nil =>
    intro out
    rw [List.foldl_nil, orTerms, List.foldl_nil]
    simp
  | cons i L ih =>
    intro out
    rw [List.foldl_cons, ih, orTerms_cons]
    rcases hget : assocGet out (field.getD (field.length - 1 - i) (-1) - (i : Int)) with
      _ | cur
    · rw [show (let e := field.getD (field.length - 1 - i) (-1)
        let diff : Int := e - (i : Int)
        let mask := match assocGet out diff with
          | some cur => (1 <<< i) ||| cur
          | none => 1 <<< i
        assocSet out diff mask) = assocSet out
          (field.getD (field.length - 1 - i) (-1) - (i : Int)) (1 <<< i) from by
        simp only [hget]]
      rw [applyTrans_assocSet_none _ _ _ _ hget]
      rw [shiftTerm, Nat.or_assoc, Nat.or_comm (jsShl (s &&& (1 <<< i))
        (field.getD (field.length - 1 - i) (-1) - (i : Int))) (orTerms field s L)]
    · rw [show (let e := field.getD (field.length - 1 - i) (-1)
        let diff : Int := e - (i : Int)
        let mask := match assocGet out diff with
          | some cur => (1 <<< i) ||| cur
          | none => 1 <<< i
        assocSet out diff mask) = assocSet out
          (field.getD (field.length - 1 - i) (-1) - (i : Int)) ((1 <<< i) ||| cur) from by
        simp only [hget]]
      rw [applyTrans_assocSet_merge _ _ _ _ _ hget]
      rw [shiftTerm, Nat.or_assoc, Nat.or_comm (jsShl (s &&& (1 <<< i))
        (field.getD (field.length - 1 - i) (-1) - (i : Int))) (orTerms field s L)]

theorem applyTrans_compileField (field : List Int) (s : Nat) :
    applyTrans (compileField field) s =
      orTerms field s (List.range field.length).reverse := by
  rw [compileField, applyTrans_compile_fold]
  rw [applyTrans]
  simp

theorem jsShl_pow (i : Nat) (e : Int) (he : 0 ≤ e) :
    jsShl (2 ^ i) (e - (i : Int)) = 2 ^ e.toNat := by
  rw [jsShl]
  by_cases h : 0 ≤ e - (i : Int)
  · rw [if_pos h]
    have h1 : (e - (i : Int)).toNat = e.toNat - i := by omega
    have h2 : i ≤ e.toNat := by omega
    rw [h1, Nat.shiftLeft_eq, ← pow_add]
    congr 1
    omega
  · rw [if_neg h]
    have h1 : (-(e - (i : Int))).toNat = i - e.toNat := by omega
    have h2 : e.toNat ≤ i := by omega
    rw [h1, Nat.shiftRight_eq_div_pow, Nat.pow_div (by omega) (by norm_num)]
    congr 1
    omega

theorem one_shiftLeft (i : Nat) : (1 : Nat) <<< i = 2 ^ i := by
  rw [Nat.shiftLeft_eq, one_mul]

theorem shiftTerm_eval (field : List Int) (s i : Nat)
    (hpos : 0 ≤ field.getD (field.length - 1 - i) (-1)) :
    shiftTerm field s i = if s.testBit i
      then 2 ^ (field.getD (field.length - 1 - i) (-1)).toNat else 0 := by
  rw [shiftTerm, one_shiftLeft, Nat.and_two_pow]
  cases h : s.testBit i
  · simp only [Bool.toNat_false, Nat.zero_mul, if_false]
    exact jsShl_zero _
  · simp only [Bool.toNat_true, Nat.one_mul, if_true]
    exact jsShl_pow i _ hpos

theorem orTerms_eq_orPow (field : List Int) (s : Nat) : ∀ L : List Nat,
    (∀ i, i ∈ L → 0 ≤ field.getD (field.length - 1 - i) (-1)) →
    orTerms field s L = orPow ((L.filter (fun i => s.testBit i)).map
      (fun i => (field.getD (field.length - 1 - i) (-1)).toNat)) := by
  intro L
  induction L with
  | nil => intro _; rfl
  | cons i L ih =>
    intro hpos
    rw [orTerms_cons, ih (fun j hj => hpos j (List.mem_cons_of_mem _ hj))]
    rw [shiftTerm_eval field s i (hpos i (List.mem_cons_self i L))]
    by_cases h : s.testBit i = true
    · rw [if_pos h, List.filter_cons_of_pos (by simpa using h), List.map_cons, orPow_cons]
    · rw [if_neg h, List.filter_cons_of_neg (by simpa using h), Nat.zero_or]

theorem orPow_testBit : ∀ (L : List Nat) (b : Nat),
    (orPow L).testBit b = decide (b ∈ L) := by
  intro L
  induction L with
  | nil =>
    intro b
    rw [orPow, List.foldl_nil]
    simp
  | cons e L ih =>
    intro b
    rw [orPow_cons, Nat.testBit_or, ih b, Nat.testBit_two_pow]
    by_cases h : b ∈ L
    · simp [h]
    · by_cases h2 : e = b
      · simp [h, h2]
      · simp [h, h2, Ne.symm h2]

theorem orPow_and_two_pow_of_not_mem {L : List Nat} {e : Nat} (h : e ∉ L) :
    2 ^ e &&& orPow L = 0 := by
  refine Nat.eq_of_testBit_eq fun b => ?_
  rw [Nat.testBit_and, Nat.testBit_two_pow, orPow_testBit]
  by_cases h1 : e = b
  · subst h1
    simp [h]
  · simp [h1]

theorem popCount_orPow_nodup : ∀ L : List Nat, L.Nodup → popCount (orPow L) = L.length := by
  intro L
  induction L with
  | nil =>
    intro _
    rw [orPow, List.foldl_nil, popCount_zero]
    rfl
  | cons e L ih =>
    intro hnd
    obtain ⟨hne, hnd'⟩ := List.nodup_cons.mp hnd
    rw [orPow_cons, popCount_or_disjoint (orPow_and_two_pow_of_not_mem hne),
      popCount_two_pow, ih hnd', List.length_cons]
    omega

theorem orPow_lt : ∀ {L : List Nat} {m : Nat}, (∀ e, e ∈ L → e < m) → orPow L < 2 ^ m := by
  intro L
  induction L with
  | nil =>
    intro m _
    rw [orPow, List.foldl_nil]
    exact Nat.two_pow_pos m
  | cons e L ih =>
    intro m h
    rw [orPow_cons]
    refine Nat.or_lt_two_pow ?_ (ih (fun x hx => h x (List.mem_cons_of_mem _ hx)))
    exact Nat.pow_lt_pow_right (by norm_num) (h e (List.mem_cons_self e L))

/-- The set bits of `s` below `m`, in increasing order. -/
def bitsOf (m s : Nat) : List Nat := (List.range m).filter (fun i => s.testBit i)

theorem popCount_eq_bitsOf : ∀ (m s : Nat), s < 2 ^ m → popCount s = (bitsOf m s).length := by
  intro m
  induction m with
  | zero =>
    intro s hs
    have : s = 0 := by omega
    subst this
    rw [popCount_zero, bitsOf]
    rfl
  | succ m ih =>
    intro s hs
    have hdiv : s / 2 < 2 ^ m := by
      rw [pow_succ] at hs
      omega
    rw [popCount_step, ih (s / 2) hdiv, bitsOf, bitsOf, List.range_succ_eq_map,
      List.filter_cons, List.filter_map]
    have hcomp : ((fun i => s.testBit i) ∘ Nat.succ) = fun i => (s / 2).testBit i := by
      funext i
      simp only [Function.comp_apply]
      rw [Nat.testBit_add_one]
    rw [hcomp]
    cases h0 : s.testBit 0
    · rw [if_neg (by simp [h0])]
      rw [Nat.testBit_zero] at h0
      simp only [decide_eq_false_iff_not] at h0
      have : s % 2 = 0 := by omega
      rw [this, List.length_map]
      omega
    · rw [if_pos (by simp [h0])]
      rw [Nat.testBit_zero] at h0
      have : s % 2 = 1 := of_decide_eq_true h0
      rw [this, List.length_cons, List.length_map]
      omega

theorem descRange_length (c : Int) : ∀ k : Nat, (descRange c k).length = k := by
  intro k
  induction k generalizing c with
  | zero => rfl
  | succ k ih => rw [descRange, List.length_cons, ih]

theorem descRange_nodup (c : Int) : ∀ k : Nat, (descRange c k).Nodup := by
  intro k
  induction k generalizing c with
  | zero => exact List.nodup_nil
  | succ k ih =>
    rw [descRange]
    refine List.nodup_cons.mpr ⟨?_, ih (c - 1)⟩
    intro hmem
    have := descRange_mem hmem
    omega

theorem getD_reverse {l : List Int} {i : Nat} (h : i < l.length) (d : Int) :
    l.reverse.getD i d = l.getD (l.length - 1 - i) d := by
  rw [List.getD_eq_getElem _ _ (by simpa using h), List.getD_eq_getElem _ _ (by omega)]
  exact List.getElem_reverse _

theorem field_entry_bounds {pegs : Nat} {field : List Int}
    (hperm : field.Perm (descRange (pegs : Int) pegs)) {i : Nat} (hi : i < field.length) :
    0 ≤ field.getD (field.length - 1 - i) (-1) ∧
    field.getD (field.length - 1 - i) (-1) ≤ (pegs : Int) - 1 := by
  have hidx : field.length - 1 - i < field.length := by omega
  have hmem : field.getD (field.length - 1 - i) (-1) ∈ field := by
    rw [List.getD_eq_getElem _ _ hidx]
    exact List.getElem_mem hidx
  have hb := descRange_mem (hperm.mem_iff.mp hmem)
  constructor
  · have h1 := hb.1
    push_cast at h1
    omega
  · exact hb.2

theorem applyTrans_lt {pegs : Nat} {field : List Int}
    (hperm : field.Perm (descRange (pegs : Int) pegs)) (s : Nat) :
    applyTrans (compileField field) s < 2 ^ pegs := by
  have hpos : ∀ i, i ∈ (List.range field.length).reverse →
      0 ≤ field.getD (field.length - 1 - i) (-1) := by
    intro i hi
    rw [List.mem_reverse, List.mem_range] at hi
    exact (field_entry_bounds hperm hi).1
  rw [applyTrans_compileField, orTerms_eq_orPow field s _ hpos]
  refine orPow_lt ?_
  intro e he
  rw [List.mem_map] at he
  obtain ⟨i, hi, rfl⟩ := he
  have hi' : i < field.length := by
    have h1 := (List.mem_filter.mp hi).1
    rw [List.mem_reverse, List.mem_range] at h1
    exact h1
  have hb := field_entry_bounds hperm hi'
  omega

theorem applyTrans_popCount {pegs : Nat} {field : List Int}
    (hperm : field.Perm (descRange (pegs : Int) pegs)) (s : Nat) (hs : s < 2 ^ pegs) :
    popCount (applyTrans (compileField field) s) = popCount s := by
  have hlen : field.length = pegs := by
    rw [hperm.length_eq, descRange_length]
  have hpos : ∀ i, i ∈ (List.range field.length).reverse →
      0 ≤ field.getD (field.length - 1 - i) (-1) := by
    intro i hi
    rw [List.mem_reverse, List.mem_range] at hi
    exact (field_entry_bounds hperm hi).1
  rw [applyTrans_compileField, orTerms_eq_orPow field s _ hpos]
  have hfieldnd : field.Nodup := hperm.nodup_iff.mpr (descRange_nodup _ _)
  have hbasend : ((List.range field.length).reverse.filter (fun i => s.testBit i)).Nodup :=
    (List.nodup_reverse.mpr (List.nodup_range _)).filter _
  have hmapnd : (((List.range field.length).reverse.filter (fun i => s.testBit i)).map
      (fun i => (field.getD (field.length - 1 - i) (-1)).toNat)).Nodup := by
    refine hbasend.map_on ?_
    intro x hx y hy he
    have hx' : x < field.length := by
      have h1 := (List.mem_filter.mp hx).1
      rw [List.mem_reverse, List.mem_range] at h1
      exact h1
    have hy' : y < field.length := by
      have h1 := (List.mem_filter.mp hy).1
      rw [List.mem_reverse, List.mem_range] at h1
      exact h1
    by_contra hne
    have hbx := field_entry_bounds hperm hx'
    have hby := field_entry_bounds hperm hy'
    have hixy : field.length - 1 - x ≠ field.length - 1 - y := by omega
    have hgx : field.getD (field.length - 1 - x) (-1) =
        field.get ⟨field.length - 1 - x, by omega⟩ := List.getD_eq_getElem _ _ (by omega)
    have hgy : field.getD (field.length - 1 - y) (-1) =
        field.get ⟨field.length - 1 - y, by omega⟩ := List.getD_eq_getElem _ _ (by omega)
    have hint : field.getD (field.length - 1 - x) (-1) =
        field.getD (field.length - 1 - y) (-1) := by omega
    rw [hgx, hgy] at hint
    exact hixy ((List.Nodup.getElem_inj_iff hfieldnd).mp hint)
  rw [popCount_orPow_nodup _ hmapnd, List.length_map, List.filter_reverse,
    List.length_reverse, hlen]
  rw [popCount_eq_bitsOf pegs s hs, bitsOf]

/-! ### The candidate symmetries permute the board cells -/

theorem getD_set_self2 {α : Type} {l : List α} {i : Nat} (h : i < l.length) (v d : α) :
    (l.set i v).getD i d = v := by
  rw [List.getD_eq_getElem _ _ (by simpa using h)]
  simp [List.getElem_set_self]

theorem getD_set_ne2 {α : Type} {l : List α} {i j : Nat} (hne : i ≠ j) (v d : α) :
    (l.set i v).getD j d = l.getD j d := by
  by_cases hj : j < l.length
  · rw [List.getD_eq_getElem _ _ (by simpa using hj), List.getD_eq_getElem _ _ hj]
    exact List.getElem_set_ne hne _
  · have h1 : l.length ≤ j := by omega
    rw [List.getD_eq_default _ _ (by simpa using h1), List.getD_eq_default _ _ h1]

theorem count_set_row : ∀ (l : List Int) (x : Nat) (v a : Int), x < l.length →
    (l.set x v).count a + (if l.getD x (-1) = a then 1 else 0) =
      l.count a + (if v = a then 1 else 0) := by
  intro l
  induction l with
  | nil => intro x v a h; simp at h
  | cons c rest ih =>
    intro x v a h
    match x with
    | 0 =>
      rw [List.set_cons_zero, List.getD_cons_zero, List.count_cons, List.count_cons]
      by_cases h1 : c = a <;> by_cases h2 : v = a <;>
        simp [h1, h2] <;> omega
    | x + 1 =>
      rw [List.set_cons_succ, List.getD_cons_succ, List.count_cons, List.count_cons]
      have hrec := ih x v a (by simpa using h)
      by_cases h1 : c = a <;> simp [h1] at hrec ⊢ <;> omega

theorem sum_set : ∀ (l : List Nat) (i : Nat) (v : Nat), i < l.length →
    (l.set i v).sum + l.getD i 0 = l.sum + v := by
  intro l
  induction l with
  | nil => intro i v h; simp at h
  | cons c rest ih =>
    intro i v h
    match i with
    | 0 =>
      rw [List.set_cons_zero, List.getD_cons_zero, List.sum_cons, List.sum_cons]
      omega
    | i + 1 =>
      rw [List.set_cons_succ, List.getD_cons_succ, List.sum_cons, List.sum_cons]
      have := ih i v (by simpa using h)
      omega

theorem count_flatten (a : Int) : ∀ L : List (List Int),
    L.flatten.count a = (L.map (fun r => r.count a)).sum := by
  intro L
  induction L with
  | nil => simp
  | cons r L ih =>
    rw [List.flatten_cons, List.count_append, List.map_cons, List.sum_cons, ih]

theorem map_set {α β : Type} (f : α → β) : ∀ (l : List α) (i : Nat) (v : α),
    (l.set i v).map f = (l.map f).set i (f v) := by
  intro l
  induction l with
  | nil => intro i v; simp
  | cons c rest ih =>
    intro i v
    match i with
    | 0 => simp
    | i + 1 =>
      rw [List.set_cons_succ, List.map_cons, List.map_cons, List.set_cons_succ, ih]

theorem count_setCell {m : Lut} {y x : Nat} (v : Int) (a : Int)
    (hy : y < m.length) (hx : x < (m.getD y []).length) :
    (setCell m y x v).flatten.count a + (if lutGet m y x = a then 1 else 0) =
      m.flatten.count a + (if v = a then 1 else 0) := by
  rw [setCell, count_flatten, count_flatten, map_set]
  have hmy : y < (m.map (fun r => r.count a)).length := by simpa using hy
  have hsum := sum_set ((m.map (fun r => r.count a))) y (((m.getD y []).set x v).count a)
    hmy
  have hgd : (m.map (fun r => r.count a)).getD y 0 = (m.getD y []).count a := by
    rw [List.getD_eq_getElem _ _ hmy, List.getElem_map, ← List.getD_eq_getElem _ _ hy]
  rw [hgd] at hsum
  have hrow := count_set_row (m.getD y []) x v a hx
  rw [lutGet]
  omega

theorem setCell_length (m : Lut) (y x : Nat) (v : Int) :
    (setCell m y x v).length = m.length := by
  rw [setCell]
  simp

theorem setCell_row_length (m : Lut) (y x : Nat) (v : Int) (j : Nat) :
    ((setCell m y x v).getD j []).length = ((m.getD j []).length) := by
  rw [setCell]
  by_cases hj : j = y
  · subst hj
    by_cases hy : j < m.length
    · rw [getD_set_self2 hy]
      simp
    · have h1 : m.length ≤ j := by omega
      rw [List.getD_eq_default _ _ (by simpa using h1), List.getD_eq_default _ _ h1]
  · rw [getD_set_ne2 (Ne.symm hj)]

theorem lutGet_setCell_self {m : Lut} {y x : Nat} (v : Int)
    (hy : y < m.length) (hx : x < (m.getD y []).length) :
    lutGet (setCell m y x v) y x = v := by
  rw [lutGet, setCell, getD_set_self2 hy, getD_set_self2 hx]

theorem lutGet_setCell_row_ne {m : Lut} {y x y' x' : Nat} (v : Int) (hne : y' ≠ y) :
    lutGet (setCell m y x v) y' x' = lutGet m y' x' := by
  rw [lutGet, setCell, getD_set_ne2 (Ne.symm hne), lutGet]

/-- Square dimensions: `n` rows, each of length `n`. -/
def squareDims (m : Lut) (n : Nat) : Prop :=
  m.length = n ∧ ∀ j, j < n → (m.getD j []).length = n

theorem squareDims_setCell {m : Lut} {n : Nat} (hd : squareDims m n) (y x : Nat) (v : Int) :
    squareDims (setCell m y x v) n := by
  refine ⟨by rw [setCell_length]; exact hd.1, ?_⟩
  intro j hj
  rw [setCell_row_length]
  exact hd.2 j hj

theorem swap_flatten_count {m : Lut} {n y x : Nat} (hd : squareDims m n)
    (hy : y < n) (hx : x < n) (a : Int) :
    (setCell (setCell m y x (lutGet m x y)) x y (lutGet m y x)).flatten.count a =
      m.flatten.count a := by
  have hylen : y < m.length := by rw [hd.1]; exact hy
  have hxlen : x < m.length := by rw [hd.1]; exact hx
  have hrowy : (m.getD y []).length = n := hd.2 y hy
  have hrowx : (m.getD x []).length = n := hd.2 x hx
  have hd1 : squareDims (setCell m y x (lutGet m x y)) n := squareDims_setCell hd y x _
  have hc1 := count_setCell (lutGet m x y) a hylen (by rw [hrowy]; exact hx)
  have hc2 := count_setCell (lutGet m y x) a (by rw [hd1.1]; exact hx)
    (by rw [hd1.2 x hx]; exact hy)
  by_cases hxy : x = y
  · subst hxy
    have hval : lutGet (setCell m x x (lutGet m x x)) x x = lutGet m x x :=
      lutGet_setCell_self _ hxlen (by rw [hrowx]; exact hx)
    rw [hval] at hc2
    omega
  · have hval : lutGet (setCell m y x (lutGet m x y)) x y = lutGet m x y :=
      lutGet_setCell_row_ne _ hxy
    rw [hval] at hc2
    omega

theorem transpose_inner_fold {n y : Nat} (hy : y < n) : ∀ (X : List Nat) (r : Lut),
    squareDims r n → (∀ x, x ∈ X → x < n) →
    squareDims (X.foldl (fun r x =>
      if x > y then r
      else
        let tmp := lutGet r y x
        let r2 := setCell r y x (lutGet r x y)
        setCell r2 x y tmp) r) n ∧
    ∀ a, (X.foldl (fun r x =>
      if x > y then r
      else
        let tmp := lutGet r y x
        let r2 := setCell r y x (lutGet r x y)
        setCell r2 x y tmp) r).flatten.count a = r.flatten.count a := by
  intro X
  induction X with
  | nil =>
    intro r hd _
    exact ⟨hd, fun a => rfl⟩
  | cons x X ih =>
    intro r hd hX
    rw [List.foldl_cons]
    by_cases hxy : x > y
    · rw [if_pos hxy]
      exact ih r hd (fun z hz => hX z (List.mem_cons_of_mem _ hz))
    · rw [if_neg hxy]
      have hx : x < n := hX x (List.mem_cons_self x X)
      have hd2 : squareDims (setCell (setCell r y x (lutGet r x y)) x y (lutGet r y x)) n :=
        squareDims_setCell (squareDims_setCell hd y x _) x y _
      obtain ⟨hda, hca⟩ := ih _ hd2 (fun z hz => hX z (List.mem_cons_of_mem _ hz))
      refine ⟨hda, ?_⟩
      intro a
      rw [hca a, swap_flatten_count hd hy hx a]

theorem transpose_outer_fold {n : Nat} : ∀ (Y : List Nat) (r : Lut),
    squareDims r n → (∀ y, y ∈ Y → y < n) →
    squareDims (Y.foldl (fun r y =>
      (List.range ((r.headD []).length)).foldl (fun r x =>
        if x > y then r
        else
          let tmp := lutGet r y x
          let r2 := setCell r y x (lutGet r x y)
          setCell r2 x y tmp) r) r) n ∧
    ∀ a, (Y.foldl (fun r y =>
      (List.range ((r.headD []).length)).foldl (fun r x =>
        if x > y then r
        else
          let tmp := lutGet r y x
          let r2 := setCell r y x (lutGet r x y)
          setCell r2 x y tmp) r) r).flatten.count a = r.flatten.count a := by
  intro Y
  induction Y with
  | nil =>
    intro r hd _
    exact ⟨hd, fun a => rfl⟩
  | cons y Y ih =>
    intro r hd hY
    rw [List.foldl_cons]
    have hy : y < n := hY y (List.mem_cons_self y Y)
    have hhead : (r.headD []).length = n := by
      rw [headD_eq_getD_zero]
      exact hd.2 0 (by omega)
    have hin := transpose_inner_fold hy (List.range ((r.headD []).length)) r hd
      (by intro x hx; rw [hhead] at hx; exact List.mem_range.mp hx)
    obtain ⟨hda, hca⟩ := ih _ hin.1 (fun z hz => hY z (List.mem_cons_of_mem _ hz))
    refine ⟨hda, ?_⟩
    intro a
    rw [hca a, hin.2 a]

theorem transpose_flatten_perm {m : Lut} {n : Nat} (hd : squareDims m n) :
    (transpose m).flatten.Perm m.flatten := by
  rw [List.perm_iff_count]
  intro a
  rw [transpose]
  exact (transpose_outer_fold (List.range m.length) m hd
    (by intro y hy; rw [hd.1] at hy; exact List.mem_range.mp hy)).2 a

theorem flatten_map_reverse_perm : ∀ l : Lut, (l.map List.reverse).flatten.Perm l.flatten := by
  intro l
  refine List.Perm.flatten_congr ?_
  induction l with
  | nil => exact List.Forall₂.nil
  | cons r l ih => exact List.Forall₂.cons (List.reverse_perm r) ih

theorem candidate_flatten_perm {lut : Lut} {f : Lut → Lut}
    (hrect : ∀ j, j < lut.length → (lut.getD j []).length = (lut.headD []).length)
    (hf : f ∈ candidateList lut) : (f lut).flatten.Perm lut.flatten := by
  have hv : (vertical_flip lut).flatten.Perm lut.flatten := (List.reverse_perm lut).flatten
  have hh : ∀ m : Lut, (horizontal_flip m).flatten.Perm m.flatten := fun m =>
    flatten_map_reverse_perm m
  rw [candidateList] at hf
  rw [List.mem_append] at hf
  rcases hf with hf | hf
  · rcases List.mem_cons.mp hf with rfl | hf
    · exact hv
    rcases List.mem_cons.mp hf with rfl | hf
    · exact hh lut
    rcases List.mem_cons.mp hf with rfl | hf
    · exact (hh (vertical_flip lut)).trans hv
    · simp at hf
  · by_cases hsq : lut.length = (lut.headD []).length
    · rw [if_pos hsq] at hf
      have hd : squareDims lut lut.length := by
        refine ⟨rfl, ?_⟩
        intro j hj
        rw [hrect j hj, hsq]
      have ht : (transpose lut).flatten.Perm lut.flatten := transpose_flatten_perm hd
      rcases List.mem_cons.mp hf with rfl | hf
      · exact ht
      rcases List.mem_cons.mp hf with rfl | hf
      · exact ((List.reverse_perm (transpose lut)).flatten).trans ht
      rcases List.mem_cons.mp hf with rfl | hf
      · exact (hh (transpose lut)).trans ht
      rcases List.mem_cons.mp hf with rfl | hf
      · exact ((hh (vertical_flip (transpose lut))).trans
          ((List.reverse_perm (transpose lut)).flatten)).trans ht
      · simp at hf
    · rw [if_neg hsq] at hf
      simp at hf

theorem fieldOf_lut (layout : List Char) :
    fieldOf (buildLutRows ((layout.count 'o' : Int)) (splitNl layout)) =
      descRange ((layout.count 'o' : Int)) (layout.count 'o') := by
  have hsum := splitNl_count layout
  have hsumInt : ((splitNl layout).map (fun x => ((x.count 'o' : Int)))).sum =
      ((layout.count 'o' : Int)) := by
    rw [← hsum, Nat.cast_list_sum, List.map_map]
    rfl
  have hfl := buildLut_filter (splitNl layout) ((layout.count 'o' : Int)) (le_of_eq hsumInt)
  calc fieldOf (buildLutRows ((layout.count 'o' : Int)) (splitNl layout))
      = (buildLutRows ((layout.count 'o' : Int)) (splitNl layout)).flatten.filter
        (fun v => decide (v ≠ -1)) := rfl
    _ = descRange ((layout.count 'o' : Int)) (((splitNl layout).map (·.count 'o')).sum) := hfl
    _ = descRange ((layout.count 'o' : Int)) (layout.count 'o') := by rw [hsum]

theorem transformations_perm {name layout : List Char} {dirs : List MoveDirections}
    {d : Description} (hok : mkDescription name layout dirs = Except.ok d) :
    ∀ t, t ∈ d.transformations → ∃ field : List Int,
      t = compileField field ∧ field.Perm (descRange ((d.pegs : Int)) d.pegs) := by
  obtain ⟨-, -, -, hpegs, -, -, -, hred, hlut, -, -, -, htrans, -⟩ := mkDescription_ok hok
  intro t ht
  rw [htrans, mkTransformations, List.mem_map] at ht
  obtain ⟨tr, htr, rfl⟩ := ht
  refine ⟨fieldOf tr, rfl, ?_⟩
  rw [acceptedLuts, List.mem_filterMap] at htr
  obtain ⟨f, hf, hsome⟩ := htr
  have htr_eq : tr = f d.lut := by
    by_cases hacc : accepts d.pegs d.lut d.move_mask f = true
    · rw [if_pos hacc] at hsome
      exact (Option.some.injEq _ _ ▸ hsome).symm
    · rw [if_neg hacc] at hsome
      exact absurd hsome (by simp)
  subst htr_eq
  have hrect : ∀ j, j < d.lut.length → (d.lut.getD j []).length = (d.lut.headD []).length := by
    intro j hj
    have hmem : d.lut.getD j [] ∈ d.lut := by
      rw [List.getD_eq_getElem _ _ hj]
      exact List.getElem_mem hj
    rw [hlut] at hmem ⊢
    exact lut_rows_length hred _ hmem
  have hperm1 : (f d.lut).flatten.Perm d.lut.flatten := candidate_flatten_perm hrect hf
  have hperm2 : (fieldOf (f d.lut)).Perm (fieldOf d.lut) := hperm1.filter _
  have heq : fieldOf d.lut = descRange ((d.pegs : Int)) d.pegs := by
    rw [hlut, hpegs]
    exact fieldOf_lut layout
  rw [heq] at hperm2
  exact hperm2

theorem foldl_min_le : ∀ (l : List Nat) (a : Nat),
    l.foldl (fun acc v => if acc < v then acc else v) a ≤ a := by
  intro l
  induction l with
  | nil => intro a; exact Nat.le_refl a
  | cons v l ih =>
    intro a
    rw [List.foldl_cons]
    by_cases h : a < v
    · rw [if_pos h]
      exact ih a
    · rw [if_neg h]
      exact le_trans (ih v) (by omega)

theorem foldl_min_mem : ∀ (l : List Nat) (a : Nat),
    l.foldl (fun acc v => if acc < v then acc else v) a = a ∨
    ∃ v, v ∈ l ∧ l.foldl (fun acc v => if acc < v then acc else v) a = v := by
  intro l
  induction l with
  | nil => intro a; exact Or.inl rfl
  | cons v l ih =>
    intro a
    rw [List.foldl_cons]
    by_cases h : a < v
    · rw [if_pos h]
      rcases ih a with h1 | ⟨w, hw, h1⟩
      · exact Or.inl h1
      · exact Or.inr ⟨w, List.mem_cons_of_mem _ hw, h1⟩
    · rw [if_neg h]
      rcases ih v with h1 | ⟨w, hw, h1⟩
      · exact Or.inr ⟨v, List.mem_cons_self v l, h1⟩
      · exact Or.inr ⟨w, List.mem_cons_of_mem _ hw, h1⟩

theorem foldl_min_le_mem : ∀ (l : List Nat) (a v : Nat), v ∈ l →
    l.foldl (fun acc v => if acc < v then acc else v) a ≤ v := by
  intro l
  induction l with
  | nil => intro a v hv; simp at hv
  | cons w l ih =>
    intro a v hv
    rw [List.foldl_cons]
    rcases List.mem_cons.mp hv with rfl | hv
    · by_cases h : a < v
      · rw [if_pos h]
        exact le_trans (foldl_min_le l a) (by omega)
      · rw [if_neg h]
        exact foldl_min_le l v
    · by_cases h : a < w
      · rw [if_pos h]
        exact ih a v hv
      · rw [if_neg h]
        exact ih w v hv

theorem normalizeFun_le (ts : List (List (Int × Nat))) (s : Nat) : normalizeFun ts s ≤ s :=
  foldl_min_le _ s

theorem normalizeFun_cases (ts : List (List (Int × Nat))) (s : Nat) :
    normalizeFun ts s = s ∨ ∃ t, t ∈ ts ∧ normalizeFun ts s = applyTrans t s := by
  rcases foldl_min_mem (ts.map fun t => applyTrans t s) s with h | ⟨v, hv, h⟩
  · exact Or.inl h
  · rw [List.mem_map] at hv
    obtain ⟨t, ht, rfl⟩ := hv
    exact Or.inr ⟨t, ht, h⟩

theorem normalizeFun_nil (s : Nat) : normalizeFun [] s = s := rfl

theorem normalize_popCount {name layout : List Char} {dirs : List MoveDirections}
    {d : Description} (hok : mkDescription name layout dirs = Except.ok d)
    (s : Nat) (hs : s < 2 ^ d.pegs) :
    popCount (normalizeFun d.transformations s) = popCount s := by
  rcases normalizeFun_cases d.transformations s with h | ⟨t, ht, h⟩
  · rw [h]
  · obtain ⟨field, rfl, hperm⟩ := transformations_perm hok t ht
    rw [h, applyTrans_popCount hperm s hs]

theorem normalize_lt {name layout : List Char} {dirs : List MoveDirections}
    {d : Description} (hok : mkDescription name layout dirs = Except.ok d)
    (s : Nat) (hs : s < 2 ^ d.pegs) :
    normalizeFun d.transformations s < 2 ^ d.pegs := by
  rcases normalizeFun_cases d.transformations s with h | ⟨t, ht, h⟩
  · rw [h]
    exact hs
  · obtain ⟨field, rfl, hperm⟩ := transformations_perm hok t ht
    rw [h]
    exact applyTrans_lt hperm s

theorem normalize_lt_of_ne_nil {name layout : List Char} {dirs : List MoveDirections}
    {d : Description} (hok : mkDescription name layout dirs = Except.ok d)
    (s : Nat) (hne : d.transformations ≠ []) :
    normalizeFun d.transformations s < 2 ^ d.pegs := by
  obtain ⟨t0, ts, hcons⟩ : ∃ t0 ts, d.transformations = t0 :: ts := by
    rcases h : d.transformations with _ | ⟨t0, ts⟩
    · exact absurd h hne
    · exact ⟨t0, ts, rfl⟩
  have hmem : t0 ∈ d.transformations := by rw [hcons]; exact List.mem_cons_self _ _
  have hle : normalizeFun d.transformations s ≤ applyTrans t0 s := by
    rw [normalizeFun]
    exact foldl_min_le_mem _ s _ (List.mem_map_of_mem _ hmem)
  obtain ⟨field, rfl, hperm⟩ := transformations_perm hok t0 hmem
  exact lt_of_le_of_lt hle (applyTrans_lt hperm s)

theorem move_masks_core {name layout : List Char} {dirs : List MoveDirections}
    {d : Description} (hok : mkDescription name layout dirs = Except.ok d) :
    ∀ i, i < d.move_mask.length → ∃ a b c : Nat,
      a ≠ b ∧ a ≠ c ∧ b ≠ c ∧ a < d.pegs ∧ b < d.pegs ∧ c < d.pegs ∧
      d.move_mask.getD i 0 = 2 ^ a ||| 2 ^ b ||| 2 ^ c ∧
      d.check_mask1.getD i 0 = 2 ^ a ||| 2 ^ b ∧
      d.check_mask2.getD i 0 = 2 ^ b ||| 2 ^ c := by
  obtain ⟨-, -, -, hpegs, -, -, -, hlines, hlut, hmm, hc1, hc2, -, -⟩ := mkDescription_ok hok
  intro i hi
  have hi' : i < (moveDescriptors d.lut dirs).length := by
    rw [hmm, List.length_map] at hi
    exact hi
  set descs := moveDescriptors d.lut dirs with hdescs
  set de := descs.get ⟨i, hi'⟩ with hde
  have e1 : d.move_mask.getD i 0 = maskMove d.lut de := by
    rw [hmm, getD_map descs (maskMove d.lut) i hi']
  have e2 : d.check_mask1.getD i 0 = maskCheck1 d.lut de := by
    rw [hc1, getD_map descs (maskCheck1 d.lut) i hi']
  have e3 : d.check_mask2.getD i 0 = maskCheck2 d.lut de := by
    rw [hc2, getD_map descs (maskCheck2 d.lut) i hi']
  have hmem : de ∈ descs := by
    rw [hde]
    exact List.get_mem descs i hi'
  obtain ⟨hy, hx, hocc, -, hemit⟩ := moveDescriptors_mem hmem
  obtain ⟨-, -, -, hoff, hb1, hb2, hb3, hb4, hb5, hb6⟩ := emitCellDir_some hemit
  obtain ⟨hord1, hord2, -⟩ := dirOffsets_some hoff
  set lines := splitNl layout with hlinesdef
  have hlen : d.lut.length = lines.length := by
    rw [hlut]
    exact buildLutRows_length lines _
  have htot : (lines.map (·.count 'o')).sum = layout.count 'o' := splitNl_count layout
  rw [hlut] at hocc hb3 hb6
  have hcell0 := lut_cell_value hlines (hlen ▸ hy) (hlut ▸ hx) hocc
  have hcell1 := lut_cell_value hlines (hlen ▸ hb2) (hlut ▸ hb1) hb3
  have hcell2 := lut_cell_value hlines (hlen ▸ hb5) (hlut ▸ hb4) hb6
  obtain ⟨hch0, hxr0, hv0⟩ := hcell0
  obtain ⟨hch1, hxr1, hv1⟩ := hcell1
  obtain ⟨hch2, hxr2, hv2⟩ := hcell2
  have hp01 : oPref lines de.y de.x < oPref lines de.y1 de.x1 :=
    oPref_strict (hlen ▸ hy) hxr0 hch0 hord1
  have hp12 : oPref lines de.y1 de.x1 < oPref lines de.y2 de.x2 :=
    oPref_strict (hlen ▸ hb2) hxr1 hch1 hord2
  have hq0 : oPref lines de.y de.x < layout.count 'o' :=
    htot ▸ oPref_lt_total (hlen ▸ hy) hxr0 hch0
  have hq1 : oPref lines de.y1 de.x1 < layout.count 'o' :=
    htot ▸ oPref_lt_total (hlen ▸ hb2) hxr1 hch1
  have hq2 : oPref lines de.y2 de.x2 < layout.count 'o' :=
    htot ▸ oPref_lt_total (hlen ▸ hb5) hxr2 hch2
  set a : Int := lutGet d.lut de.y de.x with hadef
  set b : Int := lutGet d.lut de.y1 de.x1 with hbdef
  set c : Int := lutGet d.lut de.y2 de.x2 with hcdef
  have hva : a = (layout.count 'o' : Int) - 1 - (oPref lines de.y de.x : Int) := by
    rw [hadef, hlut]; exact hv0
  have hvb : b = (layout.count 'o' : Int) - 1 - (oPref lines de.y1 de.x1 : Int) := by
    rw [hbdef, hlut]; exact hv1
  have hvc : c = (layout.count 'o' : Int) - 1 - (oPref lines de.y2 de.x2 : Int) := by
    rw [hcdef, hlut]; exact hv2
  have hna : 0 ≤ a := by rw [hva]; omega
  have hnb : 0 ≤ b := by rw [hvb]; omega
  have hnc : 0 ≤ c := by rw [hvc]; omega
  refine ⟨a.toNat, b.toNat, c.toNat, ?_, ?_, ?_, ?_, ?_, ?_, ?_, ?_, ?_⟩
  · rw [hva, hvb]; omega
  · rw [hva, hvc]; omega
  · rw [hvb, hvc]; omega
  · rw [hpegs, hva]; omega
  · rw [hpegs, hvb]; omega
  · rw [hpegs, hvc]; omega
  · rw [e1]
    unfold maskMove
    rw [bitOf_nonneg hna, bitOf_nonneg hnb, bitOf_nonneg hnc]
  · rw [e2]
    unfold maskCheck1
    rw [bitOf_nonneg hna, bitOf_nonneg hnb]
  · rw [e3]
    unfold maskCheck2
    rw [bitOf_nonneg hnb, bitOf_nonneg hnc]

theorem move_mask_lt {name layout : List Char} {dirs : List MoveDirections}
    {d : Description} (hok : mkDescription name layout dirs = Except.ok d)
    {i : Nat} (hi : i < d.move_mask.length) : d.move_mask.getD i 0 < 2 ^ d.pegs := by
  obtain ⟨a, b, c, -, -, -, ha, hb, hc, hmask, -, -⟩ := move_masks_core hok i hi
  rw [hmask]
  have hpow : ∀ e : Nat, e < d.pegs → (2:Nat) ^ e < 2 ^ d.pegs := fun e he =>
    Nat.pow_lt_pow_right (by norm_num) he
  exact Nat.or_lt_two_pow (Nat.or_lt_two_pow (hpow a ha) (hpow b hb)) (hpow c hc)

theorem move_succ_spec {name layout : List Char} {dirs : List MoveDirections}
    {d : Description} (hok : mkDescription name layout dirs = Except.ok d)
    {i : Nat} (hi : i < d.move_mask.length) (field : Nat)
    (hcheck : field &&& d.move_mask.getD i 0 = d.check_mask1.getD i 0 ∨
              field &&& d.move_mask.getD i 0 = d.check_mask2.getD i 0) :
    popCount (field ^^^ d.move_mask.getD i 0) + 1 = popCount field ∧
    field ^^^ d.move_mask.getD i 0 ≠ 0 := by
  obtain ⟨a, b, c, hab, hac, hbc, -, -, -, hmask, hck1, hck2⟩ := move_masks_core hok i hi
  have hpc3 : popCount (d.move_mask.getD i 0) = 3 := by
    rw [hmask]
    exact popCount_three_bits hab hac hbc
  have hpck : popCount (field &&& d.move_mask.getD i 0) = 2 := by
    rcases hcheck with hchk | hchk
    · rw [hchk, hck1]
      exact popCount_two_bits hab
    · rw [hchk, hck2]
      exact popCount_two_bits hbc
  constructor
  · rcases hcheck with hchk | hchk
    · exact popCount_apply_move hpc3 (by rw [← hchk]; exact hpck) hchk
    · exact popCount_apply_move hpc3 (by rw [← hchk]; exact hpck) hchk
  · intro hzero
    have hfe : field = d.move_mask.getD i 0 := by
      have := Nat.xor_eq_zero.mp hzero
      exact this
    rw [hfe, Nat.and_self] at hpck
    rw [hpc3] at hpck
    exact absurd hpck (by norm_num)

theorem popCount_eq_zero_iff : ∀ v : Nat, popCount v = 0 ↔ v = 0 := by
  intro v
  induction v using Nat.strong_induction_on with
  | _ v ih =>
    constructor
    · intro h
      by_contra hv
      rw [popCount_step] at h
      have h2 : v % 2 = 0 ∧ popCount (v / 2) = 0 := by omega
      by_cases hv2 : v / 2 = 0
      · omega
      · have := (ih (v / 2) (by omega)).mp h2.2
        exact hv2 this
    · intro h
      rw [h, popCount_zero]


/-- XOR with a value below `2^p` leaves the bits from position `p` up
unchanged. -/
theorem xor_high_eq {m p : Nat} (hm : m < 2 ^ p) (a : Nat) :
    (a ^^^ m) / 2 ^ p = a / 2 ^ p := by
  rw [← Nat.shiftRight_eq_div_pow, ← Nat.shiftRight_eq_div_pow]
  refine Nat.eq_of_testBit_eq fun i => ?_
  rw [Nat.testBit_shiftRight, Nat.testBit_shiftRight, Nat.testBit_xor]
  have hbit : m.testBit (p + i) = false := by
    refine Nat.testBit_lt_two_pow (lt_of_lt_of_le hm ?_)
    exact Nat.pow_le_pow_right (by norm_num) (by omega)
  rw [hbit, Bool.xor_false]

/-- A duplicate-free list of naturals below `n` has at most `n` elements. -/
theorem nodup_lt_length_le {l : List Nat} (hnd : l.Nodup) {n : Nat}
    (hlt : ∀ x, x ∈ l → x < n) : l.length ≤ n := by
  classical
  have hcard : l.toFinset.card = l.length := List.toFinset_card_of_nodup hnd
  have hsub : l.toFinset ⊆ Finset.range n := by
    intro x hx
    rw [List.mem_toFinset] at hx
    exact Finset.mem_range.mpr (hlt x hx)
  have h2 := Finset.card_le_card hsub
  rw [hcard, Finset.card_range] at h2
  exact h2

/-- Reducing mod `2^p` keeps a list duplicate-free when all its elements
share the same quotient by `2^p`. -/
theorem map_mod_nodup {l : List Nat} (hnd : l.Nodup) {p q0 : Nat}
    (hq : ∀ x, x ∈ l → x / 2 ^ p = q0) : (l.map (· % 2 ^ p)).Nodup := by
  refine List.Nodup.map_on ?_ hnd
  intro x hx y hy hxy
  have hx' : 2 ^ p * q0 + x % 2 ^ p = x := by
    rw [← hq x hx]
    exact Nat.div_add_mod x (2 ^ p)
  have hy' : 2 ^ p * q0 + y % 2 ^ p = y := by
    rw [← hq y hy]
    exact Nat.div_add_mod y (2 ^ p)
  rw [← hx', ← hy', hxy]

/-- The running invariant of a search frontier at level `lev`: a well-formed
set whose `length` counts exactly the occupied slots, every stored state
having `p0 - lev` pegs and the same bits `q0` from position `pegs` up; the
high bits are `0` whenever the description has compiled symmetries (the
canonicalized states then all fit below `2^pegs`). -/
def FrontInv (d : Description) (p0 lev q0 : Nat) (b : BoardSet) : Prop :=
  SetInv b ∧ b.length = nzCount b.data ∧
  (d.transformations ≠ [] → q0 = 0) ∧
  ∀ v, stored b.data v → popCount v + lev = p0 ∧ v / 2 ^ d.pegs = q0

/-- A frontier holds at most `2^pegs` states: its distinct non-sentinel
entries all share the high bits `q0`, so they are distinguished by their
low `pegs` bits alone. -/
theorem FrontInv_length_le {d : Description} {p0 lev q0 : Nat} {b : BoardSet}
    (hinv : FrontInv d p0 lev q0 b) : b.length ≤ 2 ^ d.pegs := by
  obtain ⟨hset, hlen, -, hprops⟩ := hinv
  have hnd : (b.data.filter (fun v => decide (v ≠ 0))).Nodup :=
    filter_nodup_of_pairwise b.data hset.2.1.1
  have hqall : ∀ x, x ∈ b.data.filter (fun v => decide (v ≠ 0)) → x / 2 ^ d.pegs = q0 := by
    intro x hx
    exact (hprops x ((mem_filter_iff_stored b.data x).mp hx)).2
  have hmap := map_mod_nodup hnd hqall
  have hlt : ∀ z, z ∈ (b.data.filter (fun v => decide (v ≠ 0))).map (· % 2 ^ d.pegs) →
      z < 2 ^ d.pegs := by
    intro z hz
    rw [List.mem_map] at hz
    obtain ⟨x, -, rfl⟩ := hz
    exact Nat.mod_lt _ (Nat.two_pow_pos _)
  have hle := nodup_lt_length_le hmap hlt
  rw [List.length_map] at hle
  rw [hlen]
  exact hle

theorem succ_good {name layout : List Char} {dirs : List MoveDirections}
    {d : Description} (hok : mkDescription name layout dirs = Except.ok d)
    {p0 lev q0 : Nat} {field : Nat} (hpc : popCount field + lev = p0)
    (hfq : field / 2 ^ d.pegs = q0) (hq0 : d.transformations ≠ [] → q0 = 0)
    (hf64 : field < 2 ^ 64)
    {i : Nat} (hi : i < d.move_mask.length)
    (hcheck : field &&& d.move_mask.getD i 0 = d.check_mask1.getD i 0 ∨
              field &&& d.move_mask.getD i 0 = d.check_mask2.getD i 0) :
    normalizeFun d.transformations (field ^^^ d.move_mask.getD i 0) ≠ 0 ∧
    normalizeFun d.transformations (field ^^^ d.move_mask.getD i 0) < 2 ^ 64 ∧
    popCount (normalizeFun d.transformations (field ^^^ d.move_mask.getD i 0)) + (lev + 1) = p0 ∧
    normalizeFun d.transformations (field ^^^ d.move_mask.getD i 0) / 2 ^ d.pegs = q0 := by
  obtain ⟨hdrop, hnz⟩ := move_succ_spec hok hi field hcheck
  obtain ⟨-, -, -, -, -, hpegs63, -⟩ := mkDescription_ok hok
  have hmask64 : d.move_mask.getD i 0 < 2 ^ 64 := by
    have h1 := move_mask_lt hok hi
    have h2 : (2:Nat) ^ d.pegs ≤ 2 ^ 64 := Nat.pow_le_pow_right (by norm_num) (by omega)
    omega
  have hxor64 : field ^^^ d.move_mask.getD i 0 < 2 ^ 64 := Nat.xor_lt_two_pow hf64 hmask64
  have hfb : d.transformations ≠ [] → field < 2 ^ d.pegs := by
    intro htr
    have h0 : field / 2 ^ d.pegs = 0 := by rw [hfq, hq0 htr]
    have hmod : field % 2 ^ d.pegs < 2 ^ d.pegs := Nat.mod_lt _ (Nat.two_pow_pos _)
    have hfe : 2 ^ d.pegs * (field / 2 ^ d.pegs) + field % 2 ^ d.pegs = field :=
      Nat.div_add_mod field (2 ^ d.pegs)
    rw [h0] at hfe
    omega
  have hpcnorm : popCount (normalizeFun d.transformations (field ^^^ d.move_mask.getD i 0)) =
      popCount (field ^^^ d.move_mask.getD i 0) := by
    by_cases htr : d.transformations = []
    · rw [htr, normalizeFun_nil]
    · have hxorp : field ^^^ d.move_mask.getD i 0 < 2 ^ d.pegs :=
        Nat.xor_lt_two_pow (hfb htr) (move_mask_lt hok hi)
      exact normalize_popCount hok _ hxorp
  refine ⟨?_, ?_, ?_, ?_⟩
  · intro hzero
    rw [← popCount_eq_zero_iff, hpcnorm, popCount_eq_zero_iff] at hzero
    exact hnz hzero
  · exact lt_of_le_of_lt (normalizeFun_le _ _) hxor64
  · rw [hpcnorm]
    omega
  · by_cases htr : d.transformations = []
    · rw [htr, normalizeFun_nil, ← hfq]
      exact xor_high_eq (move_mask_lt hok hi) field
    · have hlt := normalize_lt_of_ne_nil hok (field ^^^ d.move_mask.getD i 0) htr
      rw [hq0 htr]
      exact Nat.div_eq_of_lt hlt

theorem solveStep_inner {name layout : List Char} {dirs : List MoveDirections}
    {d : Description} (hok : mkDescription name layout dirs = Except.ok d)
    {p0 lev q0 : Nat} {field : Nat} (hpc : popCount field + lev = p0)
    (hfq : field / 2 ^ d.pegs = q0) (hq0 : d.transformations ≠ [] → q0 = 0)
    (hf64 : field < 2 ^ 64) (R : Nat) :
    ∀ (L : List Nat) (next : BoardSet), (∀ i, i ∈ L → i < d.move_mask.length) →
    FrontInv d p0 (lev + 1) q0 next →
    next.length + L.length ≤ R → 4 * R < 3 * next.data.length →
    ∃ next', (L.foldlM (fun next i =>
      let v := field &&& d.move_mask.getD i 0
      if v = d.check_mask1.getD i 0 ∨ v = d.check_mask2.getD i 0 then
        next.fast_insert (normalizeFun d.transformations (field ^^^ d.move_mask.getD i 0))
      else pure next) next) = some next' ∧ FrontInv d p0 (lev + 1) q0 next' ∧
      next'.data.length = next.data.length ∧ next'.length ≤ next.length + L.length := by
  intro L
  induction L with
  | nil =>
    intro next _ hinv _ _
    exact ⟨next, rfl, hinv, rfl, by omega⟩
  | cons i L ih =>
    intro next hL hinv hbudget hR
    rw [List.foldlM_cons]
    by_cases hcond : field &&& d.move_mask.getD i 0 = d.check_mask1.getD i 0 ∨
        field &&& d.move_mask.getD i 0 = d.check_mask2.getD i 0
    · obtain ⟨hgood0, hgood64, hgoodpc, hgoodq⟩ :=
        succ_good hok hpc hfq hq0 hf64 (hL i (List.mem_cons_self i L)) hcond
      obtain ⟨hset, hlen_nz, hq, hstored_prop⟩ := hinv
      have hroom : next.length < next.data.length := by
        rw [List.length_cons] at hbudget
        omega
      obtain ⟨next1, hins, hset1, hcap1, hstored1, hpres1, hnew1⟩ :=
        fast_insert_spec hset hgood0 hgood64 hroom
      have hinv1 : FrontInv d p0 (lev + 1) q0 next1 := by
        refine ⟨hset1, ?_, hq, ?_⟩
        · by_cases hst : stored next.data
              (normalizeFun d.transformations (field ^^^ d.move_mask.getD i 0))
          · rw [hpres1 hst]
            exact hlen_nz
          · obtain ⟨hl1, hn1⟩ := hnew1 hst
            rw [hl1, hn1, hlen_nz]
        · intro v hv
          rcases (hstored1 v).mp hv with h1 | rfl
          · exact hstored_prop v h1
          · exact ⟨hgoodpc, hgoodq⟩
      have hlen1 : next1.length ≤ next.length + 1 := by
        by_cases hst : stored next.data
            (normalizeFun d.transformations (field ^^^ d.move_mask.getD i 0))
        · rw [hpres1 hst]
          omega
        · rw [(hnew1 hst).1]
      have hbudget1 : next1.length + L.length ≤ R := by
        rw [List.length_cons] at hbudget
        omega
      obtain ⟨next', hrun, hinv', hcap', hlen'⟩ := ih next1
        (fun j hj => hL j (List.mem_cons_of_mem _ hj)) hinv1 hbudget1
        (by rw [hcap1]; exact hR)
      refine ⟨next', ?_, hinv', by rw [hcap', hcap1], by rw [List.length_cons]; omega⟩
      rw [show (let v := field &&& d.move_mask.getD i 0
        if v = d.check_mask1.getD i 0 ∨ v = d.check_mask2.getD i 0 then
          next.fast_insert (normalizeFun d.transformations (field ^^^ d.move_mask.getD i 0))
        else pure next) = next.fast_insert
          (normalizeFun d.transformations (field ^^^ d.move_mask.getD i 0)) from by
        simp only [if_pos hcond]]
      rw [hins]
      simpa using hrun
    · obtain ⟨next', hrun, hinv', hcap', hlen'⟩ := ih next
        (fun j hj => hL j (List.mem_cons_of_mem _ hj)) hinv
        (by rw [List.length_cons] at hbudget; omega) hR
      refine ⟨next', ?_, hinv', hcap', by rw [List.length_cons]; omega⟩
      rw [show (let v := field &&& d.move_mask.getD i 0
        if v = d.check_mask1.getD i 0 ∨ v = d.check_mask2.getD i 0 then
          next.fast_insert (normalizeFun d.transformations (field ^^^ d.move_mask.getD i 0))
        else pure next) = pure next from by
        simp only [if_neg hcond]]
      simpa using hrun

/-- A fresh empty table satisfies the frontier invariant at any level. -/
theorem FrontInv_empty32 (d : Description) (p0 lev q0 : Nat)
    (hq : d.transformations ≠ [] → q0 = 0) :
    FrontInv d p0 lev q0 ⟨List.replicate 32 0, 0⟩ := by
  refine ⟨SetInv_empty32, ?_, hq, ?_⟩
  · show (0 : Nat) = nzCount (List.replicate 32 0)
    rw [nzCount_replicate]
  · intro v hv
    exact absurd hv (nostored_empty32 v)

theorem FrontInv_reserve {d : Description} {p0 lev q0 : Nat} {b : BoardSet}
    (hinv : FrontInv d p0 lev q0 b) (n : Nat)
    (hbound : 4 * (b.length + n) < 3 * 2 ^ 30) :
    ∃ b2, b.reserve n = some b2 ∧ FrontInv d p0 lev q0 b2 ∧ b2.length = b.length ∧
      4 * (b.length + n) < 3 * b2.data.length := by
  obtain ⟨hset, hlen_nz, hq, hprops⟩ := hinv
  obtain ⟨b2, hres, hset2, hlen2, hstored2, hfit2, -, -⟩ := reserve_spec hset n hbound
  have hnz_eq : nzCount b2.data = nzCount b.data :=
    nzCount_eq_of_stored_iff hset2.2.1.1 hset.2.1.1 hstored2
  refine ⟨b2, hres, ⟨hset2, ?_, hq, ?_⟩, hlen2, hfit2⟩
  · rw [hlen2, hnz_eq, hlen_nz]
  · intro v hv
    exact hprops v ((hstored2 v).mp hv)

theorem solveStep_outer {name layout : List Char} {dirs : List MoveDirections}
    {d : Description} (hok : mkDescription name layout dirs = Except.ok d)
    (hsmall : 4 * (2 ^ d.pegs + d.move_mask.length) < 3 * 2 ^ 30)
    (p0 lev q0 : Nat) :
    ∀ (l : List Nat) (next : BoardSet),
    (∀ f, f ∈ l → f ≠ 0 → popCount f + lev = p0 ∧ f / 2 ^ d.pegs = q0 ∧ f < 2 ^ 64) →
    FrontInv d p0 (lev + 1) q0 next →
    ∃ next', (l.foldlM (fun next field =>
      if field = EMPTY_STATE then pure next
      else do
        let next ← next.reserve d.move_mask.length
        (List.range d.move_mask.length).foldlM (fun next i =>
          let v := field &&& d.move_mask.getD i 0
          if v = d.check_mask1.getD i 0 ∨ v = d.check_mask2.getD i 0 then
            next.fast_insert (normalizeFun d.transformations (field ^^^ d.move_mask.getD i 0))
          else pure next) next) next) = some next' ∧ FrontInv d p0 (lev + 1) q0 next' := by
  intro l
  induction l with
  | nil =>
    intro next _ hinv
    exact ⟨next, rfl, hinv⟩
  | cons f l ih =>
    intro next hfields hinv
    rw [List.foldlM_cons]
    by_cases hf0 : f = EMPTY_STATE
    · rw [if_pos hf0]
      obtain ⟨next', hrun, hinv'⟩ := ih next
        (fun g hg hgnz => hfields g (List.mem_cons_of_mem _ hg) hgnz) hinv
      refine ⟨next', ?_, hinv'⟩
      simpa using hrun
    · rw [if_neg hf0]
      obtain ⟨hfpc, hfq, hf64⟩ := hfields f (List.mem_cons_self f l) hf0
      have hlen_le : next.length ≤ 2 ^ d.pegs := FrontInv_length_le hinv
      obtain ⟨b2, hres, hinv2, hlen2, hfit2⟩ :=
        FrontInv_reserve hinv d.move_mask.length (by omega)
      obtain ⟨next1, hrunin, hinv1, -, -⟩ :=
        solveStep_inner hok hfpc hfq hinv.2.2.1 hf64 (next.length + d.move_mask.length)
          (List.range d.move_mask.length) b2
          (fun i hi => List.mem_range.mp hi) hinv2
          (by rw [List.length_range, hlen2]) hfit2
      obtain ⟨next', hrun, hinv'⟩ := ih next1
        (fun g hg hgnz => hfields g (List.mem_cons_of_mem _ hg) hgnz) hinv1
      refine ⟨next', ?_, hinv'⟩
      rw [hres]
      simp only [Option.bind_eq_bind, Option.some_bind]
      rw [hrunin]
      simpa using hrun

theorem solveStep_spec {name layout : List Char} {dirs : List MoveDirections}
    {d : Description} (hok : mkDescription name layout dirs = Except.ok d)
    (hsmall : 4 * (2 ^ d.pegs + d.move_mask.length) < 3 * 2 ^ 30)
    {p0 lev q0 : Nat} {current : BoardSet} (hinv : FrontInv d p0 lev q0 current) :
    ∃ next, solveStep d current = some next ∧ FrontInv d p0 (lev + 1) q0 next := by
  obtain ⟨hset, hlen_nz, hq, hprops⟩ := hinv
  have hfields : ∀ f, f ∈ current.data → f ≠ 0 → popCount f + lev = p0 ∧
      f / 2 ^ d.pegs = q0 ∧ f < 2 ^ 64 := by
    intro f hf hf0
    have hstored : stored current.data f := by
      obtain ⟨j, hj, he⟩ := mem_iff_getD.mp hf
      exact ⟨hf0, j, hj, he⟩
    obtain ⟨h1, h2⟩ := hprops f hstored
    exact ⟨h1, h2, hset.2.2.2 f hstored⟩
  obtain ⟨next', hrun, hinv'⟩ := solveStep_outer hok hsmall p0 lev q0 current.data
    ⟨List.replicate 32 0, 0⟩ hfields (FrontInv_empty32 d p0 (lev + 1) q0 hq)
  refine ⟨next', ?_, hinv'⟩
  rw [solveStep, create_zero]
  simp only [Option.bind_eq_bind, Option.some_bind]
  exact hrun

theorem FrontInv_nonempty {d : Description} {p0 lev q0 : Nat} {b : BoardSet}
    (hinv : FrontInv d p0 lev q0 b) (hne : b.length ≠ 0) :
    ∃ v, stored b.data v := by
  obtain ⟨-, hlen_nz, -, -⟩ := hinv
  have hnz : nzCount b.data ≠ 0 := by omega
  have hpos : 0 < (b.data.filter (fun v => decide (v ≠ 0))).length :=
    Nat.pos_of_ne_zero hnz
  obtain ⟨x, hx⟩ := List.exists_mem_of_ne_nil _ (List.length_pos.mp hpos)
  exact ⟨x, (mem_filter_iff_stored b.data x).mp hx⟩

theorem solveLoop_spec {name layout : List Char} {dirs : List MoveDirections}
    {d : Description} (hok : mkDescription name layout dirs = Except.ok d)
    (hsmall : 4 * (2 ^ d.pegs + d.move_mask.length) < 3 * 2 ^ 30) (p0 q0 : Nat) :
    ∀ (fuel lev : Nat) (current : BoardSet), FrontInv d p0 lev q0 current →
    p0 + 1 ≤ lev + fuel →
    ∃ sol, solveLoop d fuel current = some sol ∧
      ∀ k (hk : k < sol.length), (sol.get ⟨k, hk⟩).length ≠ 0 ∧
        ∀ v, stored (sol.get ⟨k, hk⟩).data v → popCount v + (lev + k) = p0 := by
  intro fuel
  induction fuel with
  | zero =>
    intro lev current hinv hfuel
    have hempty : current.length = 0 := by
      by_contra hne
      obtain ⟨v, hv⟩ := FrontInv_nonempty hinv hne
      have h1 := (hinv.2.2.2 v hv).1
      have h2 : popCount v ≠ 0 := fun hz => hv.1 ((popCount_eq_zero_iff v).mp hz)
      omega
    rw [solveLoop, if_pos hempty]
    refine ⟨[], rfl, ?_⟩
    intro k hk
    simp at hk
  | succ fuel ih =>
    intro lev current hinv hfuel
    by_cases hempty : current.length = 0
    · rw [solveLoop, if_pos hempty]
      refine ⟨[], rfl, ?_⟩
      intro k hk
      simp at hk
    · rw [solveLoop, if_neg hempty]
      obtain ⟨next, hstep, hinvn⟩ := solveStep_spec hok hsmall hinv
      obtain ⟨rest, hloop, hrest⟩ := ih (lev + 1) next hinvn (by omega)
      refine ⟨current :: rest, ?_, ?_⟩
      · rw [hstep]
        simp only [Option.bind_eq_bind, Option.some_bind]
        rw [hloop]
        simp only [Option.some_bind]
      · intro k hk
        match k with
        | 0 =>
          refine ⟨hempty, ?_⟩
          intro v hv
          have := (hinv.2.2.2 v hv).1
          omega
        | k + 1 =>
          have hk' : k < rest.length := by simpa using hk
          obtain ⟨h1, h2⟩ := hrest k hk'
          refine ⟨h1, ?_⟩
          intro v hv
          have := h2 v hv
          omega

/-- Inserting a single nonzero value into a fresh empty table seeds a valid
level-0 frontier for its peg count and high bits. -/
theorem insert_fresh_FrontInv {d : Description} {v : Nat} (hv : v ≠ 0) (hv64 : v < 2 ^ 64)
    (hq : d.transformations ≠ [] → v / 2 ^ d.pegs = 0) :
    ∃ c0, BoardSet.insert ⟨List.replicate 32 0, 0⟩ v = some c0 ∧
      FrontInv d (popCount v) 0 (v / 2 ^ d.pegs) c0 ∧ c0.length = 1 := by
  obtain ⟨c0, hins, hinv0, hstored0, -, hnew0, -⟩ :=
    insert_spec SetInv_empty32 hv hv64 (by show 4 * (0 + 1) < 3 * 2 ^ 30; norm_num)
  have hlen1 : c0.length = 1 := hnew0 (nostored_empty32 v)
  have hstored_iff : ∀ x, stored c0.data x ↔ x = v := by
    intro x
    rw [hstored0 x]
    constructor
    · rintro (h | rfl)
      · exact absurd h (nostored_empty32 x)
      · rfl
    · rintro rfl
      exact Or.inr rfl
  have hnz1 : nzCount c0.data = 1 := by
    have hpair : ∀ i j, i < ([v] : List Nat).length → j < ([v] : List Nat).length → i ≠ j →
        ([v] : List Nat).getD i 0 ≠ 0 → ([v] : List Nat).getD i 0 ≠ ([v] : List Nat).getD j 0 := by
      intro i j hi hj hne
      exfalso
      rw [List.length_singleton] at hi hj
      omega
    have hiffv : ∀ x, stored c0.data x ↔ stored [v] x := by
      intro x
      rw [hstored_iff x]
      constructor
      · rintro rfl
        exact ⟨hv, 0, by rw [List.length_singleton]; omega, rfl⟩
      · rintro ⟨hx0, j, hj, he⟩
        have hj0 : j = 0 := by
          rw [List.length_singleton] at hj
          omega
        rw [hj0] at he
        exact he.symm
    have heq := nzCount_eq_of_stored_iff hinv0.2.1.1 hpair hiffv
    rw [heq]
    simp [nzCount, hv]
  refine ⟨c0, hins, ⟨hinv0, ?_, hq, ?_⟩, hlen1⟩
  · rw [hlen1, hnz1]
  · intro x hx
    rw [hstored_iff x] at hx
    subst hx
    exact ⟨Nat.add_zero _, rfl⟩

/-- Inserting the sentinel `0` into a fresh table bumps `length` without
storing anything: the empty slot it lands in already holds `0`. -/
theorem insert_zero :
    BoardSet.insert ⟨List.replicate 32 0, 0⟩ 0 = some ⟨List.replicate 32 0, 1⟩ := rfl

/-- C8: on a compiled description, the search from a representable start
state terminates within `popCount start + 1` levels (each level removes one
peg, so the frontier at level `popCount start` admits no further move):
`solve` returns a frontier list in which every recorded frontier is
non-empty and every state stored in the `k`-th frontier has exactly
`popCount start - k` pegs; the loop stops at the first empty frontier.  The
hypothesis `hsmall` keeps every frontier's `reserve` inside the regime where
the capacity loop terminates (C7): past it the source itself hangs. -/
theorem claim_C8 {name layout : List Char} {dirs : List MoveDirections}
    {d : Description} (hok : mkDescription name layout dirs = Except.ok d)
    (start : Nat) (hstart : start < 2 ^ d.pegs)
    (hsmall : 4 * (2 ^ d.pegs + d.move_mask.length) < 3 * 2 ^ 30) :
    ∃ sol, solve d start (popCount start + 1) = some sol ∧
      ∀ k (hk : k < sol.length), (sol.get ⟨k, hk⟩).length ≠ 0 ∧
        ∀ v, stored (sol.get ⟨k, hk⟩).data v → popCount v + k = popCount start := by
  have hnpc : popCount (normalizeFun d.transformations start) = popCount start :=
    normalize_popCount hok start hstart
  by_cases hz : normalizeFun d.transformations start = 0
  · have hpc0 : popCount start = 0 := by rw [← hnpc, hz, popCount_zero]
    refine ⟨[⟨List.replicate 32 0, 1⟩], ?_, ?_⟩
    · rw [solve, create_zero]
      simp only [Option.bind_eq_bind, Option.some_bind]
      rw [hz, insert_zero]
      simp only [Option.some_bind]
      rw [hpc0]
      rfl
    · intro k hk
      have hk0 : k = 0 := by
        have hlen : ([(⟨List.replicate 32 0, 1⟩ : BoardSet)] : List BoardSet).length = 1 := rfl
        omega
      subst hk0
      exact ⟨Nat.one_ne_zero, fun v hv => absurd hv (nostored_empty32 v)⟩
  · obtain ⟨-, -, -, -, -, hpegs63, -⟩ := mkDescription_ok hok
    have hnlt : normalizeFun d.transformations start < 2 ^ d.pegs :=
      lt_of_le_of_lt (normalizeFun_le _ _) hstart
    have hn64 : normalizeFun d.transformations start < 2 ^ 64 :=
      lt_of_lt_of_le hnlt (Nat.pow_le_pow_right (by norm_num) (by omega))
    have hq00 : normalizeFun d.transformations start / 2 ^ d.pegs = 0 := Nat.div_eq_of_lt hnlt
    obtain ⟨c0, hins, hinv0, -⟩ := insert_fresh_FrontInv hz hn64 (fun _ => hq00)
    rw [hnpc, hq00] at hinv0
    obtain ⟨sol, hloop, hsol⟩ := solveLoop_spec hok hsmall (popCount start) 0
      (popCount start + 1) 0 c0 hinv0 (by omega)
    refine ⟨sol, ?_, ?_⟩
    · rw [solve, create_zero]
      simp only [Option.bind_eq_bind, Option.some_bind]
      rw [hins]
      simp only [Option.some_bind]
      exact hloop
    · intro k hk
      obtain ⟨h1, h2⟩ := hsol k hk
      refine ⟨h1, ?_⟩
      intro v hv
      have h3 := h2 v hv
      omega

/-- Witness for C8: on the compiled `"ooo"` board, the search from the
representable state `6` terminates with the promised per-level peg counts. -/
theorem claim_C8_witness :
    mkDescription ['t', 'e', 's', 't'] ['o', 'o', 'o'] [MoveDirections.Horizontal] =
      Except.ok descOOO ∧
    (6 : Nat) < 2 ^ descOOO.pegs ∧
    4 * (2 ^ descOOO.pegs + descOOO.move_mask.length) < 3 * 2 ^ 30 ∧
    ∃ sol, solve descOOO 6 (popCount 6 + 1) = some sol ∧
      ∀ k (hk : k < sol.length), (sol.get ⟨k, hk⟩).length ≠ 0 ∧
        ∀ v, stored (sol.get ⟨k, hk⟩).data v → popCount v + k = popCount 6 :=
  ⟨mkDescription_descOOO, by decide, by decide,
    claim_C8 mkDescription_descOOO 6 (by decide) (by decide)⟩

/-- C4 (amended): `solve` performs no validation of `start` whatsoever: for
any start state — in particular every out-of-range one with
`2^pegs ≤ start < 2^64` — it immediately canonicalizes the state and runs
the search to completion, returning a frontier list instead of raising the
state-range error the spec promises.  The fuel `popCount (normalize start) + 1`
and the regime bound `hsmall` are as in C8. -/
theorem claim_C4 {name layout : List Char} {dirs : List MoveDirections}
    {d : Description} (hok : mkDescription name layout dirs = Except.ok d)
    (start : Nat) (hge : 2 ^ d.pegs ≤ start) (hlt : start < 2 ^ 64)
    (hsmall : 4 * (2 ^ d.pegs + d.move_mask.length) < 3 * 2 ^ 30) :
    ∃ sol, solve d start (popCount (normalizeFun d.transformations start) + 1) = some sol := by
  by_cases hz : normalizeFun d.transformations start = 0
  · refine ⟨[⟨List.replicate 32 0, 1⟩], ?_⟩
    rw [solve, create_zero]
    simp only [Option.bind_eq_bind, Option.some_bind]
    rw [hz, insert_zero, popCount_zero]
    simp only [Option.some_bind]
    rfl
  · have hn64 : normalizeFun d.transformations start < 2 ^ 64 :=
      lt_of_le_of_lt (normalizeFun_le _ _) hlt
    have hq : d.transformations ≠ [] → normalizeFun d.transformations start / 2 ^ d.pegs = 0 :=
      fun htr => Nat.div_eq_of_lt (normalize_lt_of_ne_nil hok start htr)
    obtain ⟨c0, hins, hinv0, -⟩ := insert_fresh_FrontInv hz hn64 hq
    obtain ⟨sol, hloop, -⟩ := solveLoop_spec hok hsmall
      (popCount (normalizeFun d.transformations start))
      (normalizeFun d.transformations start / 2 ^ d.pegs)
      (popCount (normalizeFun d.transformations start) + 1) 0 c0 hinv0 (by omega)
    refine ⟨sol, ?_⟩
    rw [solve, create_zero]
    simp only [Option.bind_eq_bind, Option.some_bind]
    rw [hins]
    simp only [Option.some_bind]
    exact hloop

/-- Witness for C4 (amended): the out-of-range start `8` on the compiled
`"ooo"` board (`2^pegs = 8`) is searched without complaint. -/
theorem claim_C4_witness :
    mkDescription ['t', 'e', 's', 't'] ['o', 'o', 'o'] [MoveDirections.Horizontal] =
      Except.ok descOOO ∧
    2 ^ descOOO.pegs ≤ 8 ∧ (8 : Nat) < 2 ^ 64 ∧
    4 * (2 ^ descOOO.pegs + descOOO.move_mask.length) < 3 * 2 ^ 30 ∧
    ∃ sol, solve descOOO 8
      (popCount (normalizeFun descOOO.transformations 8) + 1) = some sol :=
  ⟨mkDescription_descOOO, by decide, by decide, by decide,
    claim_C4 mkDescription_descOOO 8 (by decide) (by decide) (by decide)⟩

/-- C4 (counterexample to the original claim): on the compiled `"ooo"` board
the start state `14` exceeds the representable range (`2^pegs = 8`), yet
`solve` raises nothing: it canonicalizes `14` to `3`, runs the full search
and returns two non-empty frontiers (the states `3` and then `1`).  No code
path of `solve` checks `start` against `2^pegs`. -/
theorem claim_C4_counterexample :
    mkDescription ['t', 'e', 's', 't'] ['o', 'o', 'o'] [MoveDirections.Horizontal] =
      Except.ok descOOO ∧
    2 ^ descOOO.pegs ≤ 14 ∧
    normalizeFun descOOO.transformations 14 = 3 ∧
    solve descOOO 14 3 =
      some [⟨(List.replicate 32 0).set 27 3, 1⟩, ⟨(List.replicate 32 0).set 21 1, 1⟩] :=
  ⟨mkDescription_descOOO, by decide, rfl, rfl⟩
